import Mathlib

/-
  Verification development for the obsidian-ontology knowledge-graph core
  (graph builder, indexer, query engine).

  The graph is a shallow embedding of the networkx.DiGraph usage in
  graph/builder.py: nodes are an insertion-ordered association list
  keyed by concept_id (add_node on an existing id updates in place),
  and edges are an insertion-ordered association list keyed by the
  ordered pair (source, target) carrying the single relation_type
  attribute (add_edge on an existing pair overwrites the attribute in
  place).  A DiGraph holds at most one edge per ordered pair, which the
  addEdge definition mirrors.  Edge iteration in networkx groups by
  source node; the flat insertion-ordered list used here preserves the
  per-source relative order of edges, which is the only order observable
  through the relation index and the queries treated below.

  Library calls (nx.shortest_path on the undirected projection,
  nx.is_weakly_connected, nx.density) are modelled by explicit
  breadth-first searches and a rational density formula, following the
  documented behaviour of those routines; nx.is_weakly_connected raises
  NetworkXPointlessConcept on the null graph, modelled by get_statistics
  returning none.  Python exceptions never otherwise occur in the code
  under study, so all other operations are total functions.

  The two worklist loops (context expansion and BFS) are written with an
  explicit fuel parameter; sufficiency theorems below show the chosen
  fuel never runs out, so the fuelled functions agree with the Python
  while-loops.
-/

set_option maxRecDepth 8000

namespace ObsidianOntology

/-- A SKOS concept record (extraction/skos_extractor.py, dataclass SKOSConcept).
The schema.org and academic metadata blocks are opaque to the graph core and
are not needed by any property below; `file_path` is kept as its string image
(to_dict stores str(file_path)). The source field `notation` is renamed
`notat` because `notation` is a Lean keyword. -/
structure SKOSConcept where
  concept_id : String := ""
  uri : String := ""
  pref_label : String := ""
  alt_labels : List String := []
  definition : Option String := none
  notat : Option String := none
  in_scheme : Option String := none
  broader : List String := []
  narrower : List String := []
  related : List String := []
  prerequisite : List String := []
  file_path : String := ""
  content : String := ""
deriving DecidableEq

/-- The directed graph state: insertion-ordered node and edge association
lists with unique keys (node key: concept_id; edge key: ordered pair). -/
structure Graph where
  nodes : List (String × SKOSConcept) := []
  edges : List ((String × String) × String) := []
deriving DecidableEq

def emptyGraph : Graph := ⟨[], []⟩

/-- The common lookup shape of both association lists (first entry whose key
matches). -/
def assocVal {α β : Type} [BEq α] (l : List (α × β)) (k : α) : Option β :=
  (l.find? (fun e => e.1 == k)).map (fun e => e.2)

def Graph.hasNode (g : Graph) (id : String) : Bool :=
  g.nodes.any (fun p => p.1 == id)

/-- Node attribute lookup (builder.get_concept / query.get_concept return the
stored attribute dict, here the stored record). -/
def Graph.lookupNode (g : Graph) (id : String) : Option SKOSConcept :=
  (g.nodes.find? (fun p => p.1 == id)).map (fun p => p.2)

/-- nx add_node: update attributes in place when the id exists, else append. -/
def Graph.addNode (g : Graph) (c : SKOSConcept) : Graph :=
  if g.hasNode c.concept_id then
    { g with nodes := g.nodes.map (fun p => if p.1 == c.concept_id then (p.1, c) else p) }
  else
    { g with nodes := g.nodes ++ [(c.concept_id, c)] }

def Graph.edgeRel (g : Graph) (s t : String) : Option String :=
  (g.edges.find? (fun e => e.1 == (s, t))).map (fun e => e.2)

def Graph.hasEdge (g : Graph) (s t : String) : Bool :=
  (g.edgeRel s t).isSome

/-- nx add_edge: overwrite the relation_type attribute in place when the
ordered pair exists, else append the new edge. -/
def Graph.addEdge (g : Graph) (s t rel : String) : Graph :=
  if g.hasEdge s t then
    { g with edges := g.edges.map (fun e => if e.1 == (s, t) then (e.1, rel) else e) }
  else
    { g with edges := g.edges ++ [((s, t), rel)] }

/-- One iteration of the broader-relations loop in
KnowledgeGraphBuilder._add_concept_relations. -/
def broaderStep (cid : String) (g : Graph) (broader_id : String) : Graph :=
  if g.hasNode broader_id then
    (g.addEdge cid broader_id "broader").addEdge broader_id cid "narrower"
  else g

/-- One iteration of the narrower-relations loop (both writes are guarded by
has_edge checks, the second evaluated after the first write). -/
def narrowerStep (cid : String) (g : Graph) (narrower_id : String) : Graph :=
  if g.hasNode narrower_id then
    let g1 := if g.hasEdge cid narrower_id then g else g.addEdge cid narrower_id "narrower"
    if g1.hasEdge narrower_id cid then g1 else g1.addEdge narrower_id cid "broader"
  else g

/-- One iteration of the related-relations loop (bidirectional, unguarded). -/
def relatedStep (cid : String) (g : Graph) (related_id : String) : Graph :=
  if g.hasNode related_id then
    (g.addEdge cid related_id "related").addEdge related_id cid "related"
  else g

/-- One iteration of the prerequisite loop (forward edge only). -/
def prerequisiteStep (cid : String) (g : Graph) (prereq_id : String) : Graph :=
  if g.hasNode prereq_id then g.addEdge cid prereq_id "prerequisite" else g

/-- KnowledgeGraphBuilder._add_concept_relations: the four relation loops in
source order (broader, narrower, related, prerequisite). -/
def add_concept_relations (g : Graph) (c : SKOSConcept) : Graph :=
  let g1 := c.broader.foldl (broaderStep c.concept_id) g
  let g2 := c.narrower.foldl (narrowerStep c.concept_id) g1
  let g3 := c.related.foldl (relatedStep c.concept_id) g2
  c.prerequisite.foldl (prerequisiteStep c.concept_id) g3

/-- KnowledgeGraphBuilder.build_graph: all nodes first, then all relations. -/
def build_graph (concepts : List SKOSConcept) : Graph :=
  let g := concepts.foldl Graph.addNode emptyGraph
  concepts.foldl add_concept_relations g

/-- Removal of every edge incident to an id (in_edges + out_edges), as done
by update_concept before reinserting the record. -/
def removeIncidentEdges (g : Graph) (id : String) : Graph :=
  { g with edges := g.edges.filter (fun e => !(e.1.1 == id || e.1.2 == id)) }

/-- KnowledgeGraphBuilder.update_concept. -/
def update_concept (g : Graph) (c : SKOSConcept) : Graph :=
  let g1 := if g.hasNode c.concept_id then removeIncidentEdges g c.concept_id else g
  add_concept_relations (g1.addNode c) c

/-- The four relation types recognised by GraphIndexer._build_relation_index. -/
def relationTypes : List String := ["broader", "narrower", "related", "prerequisite"]

/-- The relation index entry for (relation_type, source): targets of the
graph's edges carrying that relation_type from that source, in edge order.
The Python builds this by one pass over graph.edges appending each target to
relation_index[relation_type][source]; for a fixed (type, source) key the
resulting list is exactly this filtered, ordered target list.  Unknown
relation types have no entry. -/
def relation_index (g : Graph) (rt : String) (src : String) : List String :=
  if rt ∈ relationTypes then
    (g.edges.filter (fun e => e.2 == rt && e.1.1 == src)).map (fun e => e.1.2)
  else []

/-- GraphIndexer.get_related_concepts: empty list for an unknown relation
type, else the index entry (defaulting to empty). -/
def get_related_concepts (g : Graph) (concept_id : String) (rt : String) : List String :=
  relation_index g rt concept_id

/-- Python list-of-characters prefix test, for modelling str `in`. -/
def isPre : List Char → List Char → Bool
  | [], _ => true
  | _ :: _, [] => false
  | a :: as, b :: bs => a == b && isPre as bs

/-- Python substring operator `sub in hay` on lower-cased text. -/
def hasSub (sub : List Char) : List Char → Bool
  | [] => sub.isEmpty
  | c :: rest => isPre sub (c :: rest) || hasSub sub rest

/-- str.lower(), as the character list of the string. -/
def lowerChars (s : String) : List Char := s.data.map Char.toLower

/-- GraphIndexer.search_by_text scoring of one node, mirroring the source's
sequential accumulation: +10 for a prefLabel substring hit, +20 more inside
that branch for an exact match, +5 per alt-label hit, +3 for a definition hit
(None and the empty string are falsy, hence skipped). -/
def textScore (query_lower : List Char) (c : SKOSConcept) : Nat :=
  let s0 := 0
  let pl := lowerChars c.pref_label
  let s1 := if hasSub query_lower pl then (if pl == query_lower then s0 + 10 + 20 else s0 + 10) else s0
  let s2 := c.alt_labels.foldl (fun sc al => if hasSub query_lower (lowerChars al) then sc + 5 else sc) s1
  match c.definition with
  | none => s2
  | some d => if d == "" then s2 else if hasSub query_lower (lowerChars d) then s2 + 3 else s2

/-- Insertion step of a stable descending sort on scores: walk past strictly
greater scores, insert before the first less-or-equal score. -/
def insertDesc (x : String × Nat) : List (String × Nat) → List (String × Nat)
  | [] => [x]
  | y :: ys => if x.2 < y.2 then y :: insertDesc x ys else x :: y :: ys

/-- Stable descending sort by score (Python list.sort(key=score, reverse=True)
is a stable descending sort; a stable sort by one key is unique, so this
insertion sort computes the same list). -/
def stableSortDesc (l : List (String × Nat)) : List (String × Nat) :=
  l.foldr insertDesc []

/-- GraphIndexer.search_by_text: score all nodes in node order, keep positive
scores, stable-sort descending, truncate to limit, return the ids. -/
def search_by_text (g : Graph) (query : String) (limit : Nat) : List String :=
  let ql := lowerChars query
  let scored := g.nodes.filterMap (fun p =>
    let sc := textScore ql p.2
    if sc > 0 then some (p.1, sc) else none)
  ((stableSortDesc scored).take limit).map (fun m => m.1)

/-- One hydrated entry of GraphQueryEngine.search_concepts results. -/
structure SearchEntry where
  id : String
  uri : String
  prefLabel : String
  definition : Option String
  file_path : String
deriving DecidableEq

structure SearchOutput where
  query : String
  count : Nat
  results : List SearchEntry
deriving DecidableEq

/-- GraphQueryEngine.search_concepts: hydrate the ranked ids, skipping ids
without node data, preserving order. -/
def search_concepts (g : Graph) (query : String) (limit : Nat) : SearchOutput :=
  let results := (search_by_text g query limit).filterMap (fun cid =>
    (g.lookupNode cid).map (fun c => ⟨cid, c.uri, c.pref_label, c.definition, c.file_path⟩))
  ⟨query, results.length, results⟩

/-- The concept summary recorded for a discovered relation in expand_context. -/
structure ConceptSummary where
  id : String
  prefLabel : String
  definition : Option String
deriving DecidableEq

/-- One context_notes entry of expand_context. -/
structure ContextNote where
  id : String
  label : String
  content : String
  file_path : String
deriving DecidableEq

/-- The focus_concept block of an expand_context response (content present
only when include_content). -/
structure FocusConcept where
  id : String
  uri : String
  prefLabel : String
  definition : Option String
  file_path : String
  content : Option String
deriving DecidableEq

/-- The per-relation-type dict of discovered summaries, as an insertion
ordered association list whose keys are the distinct caller-supplied relation
types in first-occurrence order (Python dict comprehension keys). -/
abbrev RelMap := List (String × List ConceptSummary)

structure ExpandOk where
  focus_concept : FocusConcept
  direct_relations : RelMap
  transitive_relations : RelMap
  context_notes : Option (List ContextNote)
deriving DecidableEq

/-- expand_context returns either the unknown-concept error dict or the
ordinary success dict. -/
inductive ExpandResult where
  | error (msg : String)
  | ok (r : ExpandOk)
deriving DecidableEq

def firstDedupAux (seen : List String) : List String → List String
  | [] => []
  | x :: xs => if x ∈ seen then firstDedupAux seen xs else x :: firstDedupAux (x :: seen) xs

/-- Distinct elements in first-occurrence order (Python dict key order). -/
def firstDedup (l : List String) : List String := firstDedupAux [] l

def emptyRelMap (rts : List String) : RelMap :=
  (firstDedup rts).map (fun rt => (rt, []))

/-- dict[relation_type].append(summary): append at the matching key. -/
def appendAt (m : RelMap) (k : String) (v : ConceptSummary) : RelMap :=
  m.map (fun p => if p.1 == k then (p.1, p.2 ++ [v]) else p)

/-- The traversal state of expand_context: visited set (insertion ordered),
the two relation maps, context notes, and the BFS queue of (id, depth); the
from_relation component of the Python queue tuples is never read and is
omitted. -/
structure ExpState where
  visited : List String
  direct : RelMap
  transitive : RelMap
  notes : List ContextNote
  queue : List (String × Nat)
deriving DecidableEq

/-- The inner loop over one relation type's related ids: skip visited ids,
mark visited before the node lookup (ids without node data stay visited but
are not recorded), record a summary as direct at depth 0 else transitive,
optionally record a context note, and enqueue at depth+1. -/
def expVisitTargets (g : Graph) (ic : Bool) (depth : Nat) (rt : String) :
    List String → ExpState → ExpState
  | [], st => st
  | rid :: rest, st =>
    if rid ∈ st.visited then expVisitTargets g ic depth rt rest st
    else
      let vis' := st.visited ++ [rid]
      match g.lookupNode rid with
      | none => expVisitTargets g ic depth rt rest { st with visited := vis' }
      | some c =>
        let summ : ConceptSummary := ⟨rid, c.pref_label, c.definition⟩
        let dir' := if depth == 0 then appendAt st.direct rt summ else st.direct
        let tra' := if depth == 0 then st.transitive else appendAt st.transitive rt summ
        let notes' := if ic then st.notes ++ [⟨rid, c.pref_label, c.content, c.file_path⟩] else st.notes
        expVisitTargets g ic depth rt rest ⟨vis', dir', tra', notes', st.queue ++ [(rid, depth + 1)]⟩

/-- The loop over the caller-supplied relation types, in caller order. -/
def expVisitTypes (g : Graph) (ic : Bool) (depth : Nat) (current : String) :
    List String → ExpState → ExpState
  | [], st => st
  | rt :: rts, st =>
    expVisitTypes g ic depth current rts
      (expVisitTargets g ic depth rt (get_related_concepts g current rt) st)

/-- The while-queue of expand_context, with fuel: pop (current, depth); if
depth >= max_depth continue, else explore every relation type from current.
max_depth is an Int to cover negative caller values. -/
def expandLoop (g : Graph) (rts : List String) (ic : Bool) (md : Int) :
    Nat → ExpState → Option ExpState
  | 0, _ => none
  | Nat.succ f, st =>
    match st.queue with
    | [] => some st
    | (cur, depth) :: rest =>
      if md ≤ (depth : Int) then expandLoop g rts ic md f { st with queue := rest }
      else expandLoop g rts ic md f (expVisitTypes g ic depth cur rts { st with queue := rest })

def edgeTargets (g : Graph) : List String := g.edges.map (fun e => e.1.2)

/-- Fuel bound for the expansion loop: every visited id is the focus or some
edge target, and each pop consumes one fuel, so twice the number of distinct
candidate ids plus two always suffices (proved below). -/
def expandFuel (g : Graph) (cid : String) : Nat :=
  2 * (firstDedup (cid :: edgeTargets g)).length + 2

def defaultRelationTypes : List String := ["broader", "narrower", "related"]

/-- GraphQueryEngine.expand_context. -/
def expand_context (g : Graph) (concept_id : String) (rtsOpt : Option (List String))
    (max_depth : Int) (include_content : Bool) : ExpandResult :=
  let rts := rtsOpt.getD defaultRelationTypes
  match g.lookupNode concept_id with
  | none => .error ("Concept " ++ concept_id ++ " not found")
  | some c =>
    let st0 : ExpState := ⟨[concept_id], emptyRelMap rts, emptyRelMap rts, [], [(concept_id, 0)]⟩
    let stF := (expandLoop g rts include_content max_depth (expandFuel g concept_id) st0).getD st0
    .ok ⟨⟨concept_id, c.uri, c.pref_label, c.definition, c.file_path,
          if include_content then some c.content else none⟩,
         stF.direct, stF.transitive,
         if include_content then some stF.notes else none⟩

/-- Neighbours of a node in the undirected projection of the graph
(successors then predecessors). -/
def undirectedAdj (g : Graph) (u : String) : List String :=
  (g.edges.filter (fun e => e.1.1 == u)).map (fun e => e.1.2) ++
  (g.edges.filter (fun e => e.1.2 == u)).map (fun e => e.1.1)

/-- Enqueue the not-yet-seen neighbours, extending the reversed path and the
seen set one neighbour at a time. -/
def enqueueFresh (rp : List String) :
    List String → List (String × List String) × List String →
    List (String × List String) × List String
  | [], qv => qv
  | n :: ns, (q, vis) =>
    if n ∈ vis then enqueueFresh rp ns (q, vis)
    else enqueueFresh rp ns (q ++ [(n, n :: rp)], vis ++ [n])

/-- Breadth-first search for target over the undirected projection, carrying
reversed paths; returns (result, final seen set), or none when fuel runs out
(shown impossible for the fuel used below). -/
def bfsAux (g : Graph) (target : String) :
    Nat → List (String × List String) → List String →
    Option (Option (List String) × List String)
  | 0, _, _ => none
  | Nat.succ _, [], vis => some (none, vis)
  | Nat.succ f, (u, rp) :: rest, vis =>
    if u == target then some (some rp.reverse, vis)
    else
      let qv := enqueueFresh rp (undirectedAdj g u) (rest, vis)
      bfsAux g target f qv.1 qv.2

def endpointIds (g : Graph) : List String :=
  g.edges.map (fun e => e.1.1) ++ g.edges.map (fun e => e.1.2)

def bfsFuel (g : Graph) (src : String) : Nat :=
  2 * (firstDedup (src :: endpointIds g)).length + 2

/-- Model of nx.shortest_path(G.to_undirected(), src, tgt): a breadth-first
search from src returning a node path, or none when no path exists (the
NetworkXNoPath exception caught by get_concept_path). -/
def shortest_path_undirected (g : Graph) (src tgt : String) : Option (List String) :=
  match bfsAux g tgt (bfsFuel g src) [(src, [src])] [src] with
  | some (some p, _) => some p
  | _ => none

structure PathEntry where
  id : String
  prefLabel : String
deriving DecidableEq

/-- The three outcome shapes of get_concept_path: the not-found error dict
(naming the missing endpoint), the no-path dict, and the found dict with
length = len(path) - 1 and the hydrated path summaries. -/
inductive PathResult where
  | errorNotFound (missing : String)
  | noPath (src tgt : String)
  | found (src tgt : String) (length : Nat) (path : List PathEntry)
deriving DecidableEq

/-- The path hydration loop of get_concept_path (ids without node data are
skipped). -/
def pathSummaries (g : Graph) (ids : List String) : List PathEntry :=
  ids.filterMap (fun i => (g.lookupNode i).map (fun c => ⟨i, c.pref_label⟩))

/-- GraphQueryEngine.get_concept_path. -/
def get_concept_path (g : Graph) (from_concept to_concept : String) : PathResult :=
  if !g.hasNode from_concept then .errorNotFound from_concept
  else if !g.hasNode to_concept then .errorNotFound to_concept
  else
    match shortest_path_undirected g from_concept to_concept with
    | some p => .found from_concept to_concept (p.length - 1) (pathSummaries g p)
    | none => .noPath from_concept to_concept

structure GraphStats where
  total_concepts : Nat
  total_relations : Nat
  density : ℚ
  is_connected : Bool
deriving DecidableEq

/-- nx.density for a directed graph: m / (n * (n - 1)), and 0 when n <= 1. -/
def nxDensity (g : Graph) : ℚ :=
  let n := g.nodes.length
  if n ≤ 1 then 0 else (g.edges.length : ℚ) / ((n : ℚ) * ((n : ℚ) - 1))

/-- Model of nx.is_weakly_connected on a nonempty graph: every node is
reachable from the first node in the undirected projection. -/
def is_weakly_connected_from (g : Graph) (n0 : String) : Bool :=
  g.nodes.all (fun p => (shortest_path_undirected g n0 p.1).isSome)

/-- KnowledgeGraphBuilder.get_statistics.  nx.is_weakly_connected raises
NetworkXPointlessConcept on the null graph, so the whole call raises there;
that exceptional outcome is modelled by none. -/
def get_statistics (g : Graph) : Option GraphStats :=
  match g.nodes with
  | [] => none
  | n0 :: _ => some ⟨g.nodes.length, g.edges.length, nxDensity g, is_weakly_connected_from g n0.1⟩

/-- One undirected adjacency step between two ids: some edge joins them in
either direction. -/
def Adj (g : Graph) (u v : String) : Prop :=
  (∃ r, ((u, v), r) ∈ g.edges) ∨ (∃ r, ((v, u), r) ∈ g.edges)

/-- Reachability in the undirected projection. -/
inductive Reach (g : Graph) (a : String) : String → Prop where
  | refl : Reach g a a
  | tail : ∀ {u v}, Reach g a u → Adj g u v → Reach g a v

/-- Every edge endpoint is a node (no dangling edges, no placeholder-only
references). -/
def WellFormed (g : Graph) : Prop :=
  ∀ e ∈ g.edges, g.hasNode e.1.1 = true ∧ g.hasNode e.1.2 = true

/-- The ordered pairs of the edge list are pairwise distinct (the DiGraph
at-most-one-edge-per-pair invariant). -/
def EdgeKeysNodup (g : Graph) : Prop :=
  (g.edges.map (fun e => e.1)).Nodup

/-- The summary expand_context records for a discovered id, as a total
function (the none branch is unreachable on well-formed graphs). -/
def summaryOfD (g : Graph) (t : String) : ConceptSummary :=
  match g.lookupNode t with
  | some c => ⟨t, c.pref_label, c.definition⟩
  | none => ⟨t, "", none⟩

/-- Append a whole list of summaries at a key of a relation map. -/
def appendAllAt (m : RelMap) (k : String) (vs : List ConceptSummary) : RelMap :=
  m.map (fun p => if p.1 == k then (p.1, p.2 ++ vs) else p)

/-- Every concept id recorded in a traversal state's direct and transitive
relation maps. -/
def stateRecIds (st : ExpState) : List String :=
  (st.direct.map (fun p => p.2.map (fun s => s.id))).flatten ++
  (st.transitive.map (fun p => p.2.map (fun s => s.id))).flatten

/-- Every concept id recorded in an expand_context success result. -/
def recordedIds (r : ExpandOk) : List String :=
  (r.direct_relations.map (fun p => p.2.map (fun s => s.id))).flatten ++
  (r.transitive_relations.map (fun p => p.2.map (fun s => s.id))).flatten

/-- Modelled from the spec (the data-model invariants of section 3): the edge
set a single record's relation lists derive, against a given node-existence
test — for each existing broader target the pair of broader/narrower edges,
for each existing narrower target the pair of narrower/broader edges, for
each existing related target both related edges, and for each existing
prerequisite target the forward edge only; references failing the node test
derive nothing. -/
def specDerivedEdges (c : SKOSConcept) (isNode : String → Bool) :
    List ((String × String) × String) :=
  ((c.broader.filter isNode).map
    (fun b => [((c.concept_id, b), "broader"), ((b, c.concept_id), "narrower")])).flatten ++
  ((c.narrower.filter isNode).map
    (fun n => [((c.concept_id, n), "narrower"), ((n, c.concept_id), "broader")])).flatten ++
  ((c.related.filter isNode).map
    (fun r => [((c.concept_id, r), "related"), ((r, c.concept_id), "related")])).flatten ++
  (c.prerequisite.filter isNode).map (fun p => ((c.concept_id, p), "prerequisite"))

/-- Modelled from the spec (section 4.2): the search score as one arithmetic
sum — 10 for a prefLabel substring hit plus 20 when the lower-cased prefLabel
equals the query, 5 per matching alt-label, 3 for a definition hit. -/
def specScore (ql : List Char) (c : SKOSConcept) : Nat :=
  (if hasSub ql (lowerChars c.pref_label) then 10 else 0) +
  (if lowerChars c.pref_label == ql then 20 else 0) +
  5 * c.alt_labels.countP (fun al => hasSub ql (lowerChars al)) +
  (match c.definition with
   | none => 0
   | some d => if d ≠ "" ∧ hasSub ql (lowerChars d) = true then 3 else 0)

/-- The broader/narrower inverse-pair property at an ordered node pair. -/
def invBN (g : Graph) (A B : String) : Prop :=
  g.edgeRel A B = some "broader" ∧ g.edgeRel B A = some "narrower"

/-- Concrete record: a concept declaring the same target both as broader and
as related. -/
def cexA : SKOSConcept := { concept_id := "a", pref_label := "A", broader := ["b"], related := ["b"] }

def cexB : SKOSConcept := { concept_id := "b", pref_label := "B" }

/-- Concrete record: a concept declaring the same target both as broader and
as prerequisite. -/
def cexP : SKOSConcept := { concept_id := "a", pref_label := "A", broader := ["b"], prerequisite := ["b"] }

/-- Concrete record: a concept related to itself (a self-loop edge). -/
def cexSelf : SKOSConcept := { concept_id := "a", pref_label := "A", related := ["a"] }

/-- Concrete record: an isolated third concept. -/
def cexC : SKOSConcept := { concept_id := "c", pref_label := "C" }

/-- Concrete clean pair: one broader declaration and nothing else. -/
def cexD : SKOSConcept := { concept_id := "d", pref_label := "D", broader := ["e"] }

def cexE : SKOSConcept := { concept_id := "e", pref_label := "E" }

/-- Concrete cyclic pair: x and y declare each other as broader. -/
def cexX : SKOSConcept := { concept_id := "x", pref_label := "X", broader := ["y"] }

def cexY : SKOSConcept := { concept_id := "y", pref_label := "Y", broader := ["x"] }

/-- The bookkeeping invariant of the expansion traversal: recorded ids are
pairwise distinct, recorded ids are visited, the focus stays visited and
unrecorded, and both relation maps keep distinct keys. -/
def expRecInv (cid : String) (st : ExpState) : Prop :=
  (stateRecIds st).Nodup ∧ (∀ i ∈ stateRecIds st, i ∈ st.visited) ∧
  cid ∈ st.visited ∧ cid ∉ stateRecIds st ∧
  (st.direct.map (fun p => p.1)).Nodup ∧ (st.transitive.map (fun p => p.1)).Nodup

def cexRegression : SKOSConcept := { concept_id := "regression", pref_label := "Regression" }

def cexLogistic : SKOSConcept :=
  { concept_id := "logistic_regression", pref_label := "Logistic Regression" }

/-! ### Generic list and association-list lemmas -/

theorem foldl_induction {α β : Type} (P : α → Prop) (f : α → β → α) :
    ∀ (l : List β) (a : α), P a → (∀ x b, b ∈ l → P x → P (f x b)) → P (l.foldl f a)
  | [], _, ha, _ => ha
  | b :: l, a, ha, hstep => by
    simp only [List.foldl_cons]
    exact foldl_induction P f l (f a b) (hstep a b (by simp) ha)
      (fun x b' hb' hx => hstep x b' (by simp [hb']) hx)

theorem length_le_of_nodup_subset {l l' : List String} (h : l.Nodup)
    (hs : ∀ x ∈ l, x ∈ l') : l.length ≤ l'.length := by
  have h1 : l.toFinset.card = l.length := List.toFinset_card_of_nodup h
  have h2 : l.toFinset ⊆ l'.toFinset := by
    intro x hx
    simp only [List.mem_toFinset] at hx ⊢
    exact hs x hx
  have h3 := Finset.card_le_card h2
  have h4 := List.toFinset_card_le l'
  omega

theorem assocVal_nil {α β : Type} [BEq α] (k : α) : assocVal ([] : List (α × β)) k = none := rfl

theorem assocVal_cons {α β : Type} [BEq α] [LawfulBEq α] [DecidableEq α] (e : α × β) (l : List (α × β)) (k : α) :
    assocVal (e :: l) k = if e.1 = k then some e.2 else assocVal l k := by
  by_cases h : e.1 = k
  · rw [if_pos h]
    unfold assocVal
    rw [List.find?_cons_of_pos _ (by simp [h])]
    rfl
  · rw [if_neg h]
    unfold assocVal
    rw [List.find?_cons_of_neg _ (by simp [h])]

theorem assocVal_cons_mk {α β : Type} [BEq α] [LawfulBEq α] [DecidableEq α] (a : α) (b : β)
    (l : List (α × β)) (k : α) :
    assocVal ((a, b) :: l) k = if a = k then some b else assocVal l k :=
  assocVal_cons (a, b) l k

theorem assocVal_append {α β : Type} [BEq α] (l1 l2 : List (α × β)) (k : α) :
    assocVal (l1 ++ l2) k = (assocVal l1 k).or (assocVal l2 k) := by
  simp only [assocVal, List.find?_append]
  cases List.find? (fun e => e.1 == k) l1 <;> simp

theorem assocVal_replace {α β : Type} [BEq α] [LawfulBEq α] [DecidableEq α]
    (l : List (α × β)) (k k' : α) (v : β) :
    assocVal (l.map (fun e => if e.1 == k then (e.1, v) else e)) k'
      = if k' = k then (assocVal l k).map (fun _ => v) else assocVal l k' := by
  induction l with
  | nil => by_cases h : k' = k <;> simp [assocVal_nil, h]
  | cons e l ih =>
    rw [List.map_cons]
    by_cases hk : k' = k
    · subst hk
      rw [if_pos rfl]
      by_cases hek : e.1 = k'
      · rw [if_pos (by simp [hek] : (e.1 == k') = true), assocVal_cons_mk, if_pos hek,
          assocVal_cons, if_pos hek]
        rfl
      · rw [if_neg (by simp [hek] : ¬ (e.1 == k') = true), assocVal_cons, if_neg hek,
          assocVal_cons, if_neg hek, ih, if_pos rfl]
    · rw [if_neg hk]
      by_cases hek : e.1 = k
      · have h1 : ¬ e.1 = k' := fun h => hk (h ▸ hek ▸ rfl)
        rw [if_pos (by simp [hek] : (e.1 == k) = true), assocVal_cons_mk, if_neg h1,
          assocVal_cons, if_neg h1, ih, if_neg hk]
      · rw [if_neg (by simp [hek] : ¬ (e.1 == k) = true), assocVal_cons, assocVal_cons]
        by_cases hk' : e.1 = k'
        · rw [if_pos hk', if_pos hk']
        · rw [if_neg hk', if_neg hk', ih, if_neg hk]

theorem mem_of_assocVal_eq_some {α β : Type} [BEq α] [LawfulBEq α] [DecidableEq α]
    {l : List (α × β)} {k : α} {v : β} (h : assocVal l k = some v) : (k, v) ∈ l := by
  induction l with
  | nil => simp [assocVal_nil] at h
  | cons e l ih =>
    rw [assocVal_cons] at h
    by_cases hek : e.1 = k
    · rw [if_pos hek] at h
      have hv : e.2 = v := by injection h
      have he : e = (k, v) := by
        cases e
        simp_all
      rw [← he]
      exact List.mem_cons_self _ _
    · rw [if_neg hek] at h
      exact List.mem_cons_of_mem _ (ih h)

theorem assocVal_isSome_iff {α β : Type} [BEq α] [LawfulBEq α] [DecidableEq α]
    (l : List (α × β)) (k : α) :
    (assocVal l k).isSome = true ↔ k ∈ l.map (fun e => e.1) := by
  constructor
  · intro h
    obtain ⟨v, hv⟩ := Option.isSome_iff_exists.mp h
    exact List.mem_map.mpr ⟨(k, v), mem_of_assocVal_eq_some hv, rfl⟩
  · intro hk
    obtain ⟨e, he, hek⟩ := List.mem_map.mp hk
    have hs : (List.find? (fun e => e.1 == k) l).isSome = true :=
      List.find?_isSome.mpr ⟨e, he, by simp [hek]⟩
    unfold assocVal
    obtain ⟨x, hx⟩ := Option.isSome_iff_exists.mp hs
    rw [hx]
    rfl

theorem assocVal_eq_none_iff {α β : Type} [BEq α] [LawfulBEq α] [DecidableEq α] (l : List (α × β)) (k : α) :
    assocVal l k = none ↔ k ∉ l.map (fun e => e.1) := by
  constructor
  · intro h hk
    have hs := (assocVal_isSome_iff l k).mpr hk
    rw [h] at hs
    cases hs
  · intro hk
    cases hx : assocVal l k with
    | none => rfl
    | some v => exact absurd ((assocVal_isSome_iff l k).mp (by rw [hx]; rfl)) hk

theorem assocVal_filter {α β : Type} [BEq α] [LawfulBEq α] [DecidableEq α]
    (l : List (α × β)) (q : α × β → Bool) (k : α) (hq : ∀ e ∈ l, e.1 = k → q e = true) :
    assocVal (l.filter q) k = assocVal l k := by
  induction l with
  | nil => rfl
  | cons e l ih =>
    have ih' := ih (fun e' he' => hq e' (by simp [he']))
    by_cases hek : e.1 = k
    · rw [List.filter_cons, if_pos (hq e (by simp) hek), assocVal_cons, assocVal_cons]
      simp [hek, ih']
    · rw [List.filter_cons]
      by_cases hqe : q e = true
      · rw [if_pos hqe, assocVal_cons, assocVal_cons, if_neg hek, if_neg hek, ih']
      · rw [if_neg hqe, assocVal_cons, if_neg hek, ih']

theorem assoc_functional {α β : Type} [BEq α] [LawfulBEq α] {l : List (α × β)}
    (hnd : (l.map (fun e => e.1)).Nodup) {k : α} {v1 v2 : β}
    (h1 : (k, v1) ∈ l) (h2 : (k, v2) ∈ l) : v1 = v2 := by
  induction l with
  | nil => cases h1
  | cons e l ih =>
    simp only [List.map_cons, List.nodup_cons] at hnd
    rcases List.mem_cons.mp h1 with h1 | h1 <;> rcases List.mem_cons.mp h2 with h2 | h2
    · rw [← h2] at h1
      exact congrArg Prod.snd h1
    · exact absurd (List.mem_map.mpr ⟨(k, v2), h2, by rw [← h1]⟩) hnd.1
    · exact absurd (List.mem_map.mpr ⟨(k, v1), h1, by rw [← h2]⟩) hnd.1
    · exact ih hnd.2 h1 h2

/-! ### Basic graph operation lemmas -/

theorem edgeRel_def (g : Graph) (s t : String) : g.edgeRel s t = assocVal g.edges (s, t) := rfl

theorem lookupNode_def (g : Graph) (id : String) : g.lookupNode id = assocVal g.nodes id := rfl

theorem nodes_addEdge (g : Graph) (s t r : String) : (g.addEdge s t r).nodes = g.nodes := by
  unfold Graph.addEdge; split <;> rfl

theorem edges_addNode (g : Graph) (c : SKOSConcept) : (g.addNode c).edges = g.edges := by
  unfold Graph.addNode; split <;> rfl

theorem hasNode_iff_lookup (g : Graph) (id : String) :
    g.hasNode id = true ↔ (g.lookupNode id).isSome = true := by
  rw [lookupNode_def, assocVal_isSome_iff]
  simp [Graph.hasNode, List.any_eq_true, List.mem_map, beq_iff_eq]

theorem hasEdge_def (g : Graph) (s t : String) :
    g.hasEdge s t = (assocVal g.edges (s, t)).isSome := rfl

theorem edgeRel_addEdge (g : Graph) (s t r u v : String) :
    (g.addEdge s t r).edgeRel u v = if (u, v) = (s, t) then some r else g.edgeRel u v := by
  rw [edgeRel_def, edgeRel_def]
  unfold Graph.addEdge
  by_cases h : g.hasEdge s t = true
  · rw [if_pos h]
    simp only []
    rw [assocVal_replace]
    by_cases hk : (u, v) = (s, t)
    · rw [if_pos hk, if_pos hk]
      rw [hasEdge_def] at h
      obtain ⟨w, hw⟩ := Option.isSome_iff_exists.mp h
      rw [hw]; rfl
    · rw [if_neg hk, if_neg hk]
  · rw [if_neg h]
    simp only []
    rw [assocVal_append]
    by_cases hk : (u, v) = (s, t)
    · rw [if_pos hk]
      rw [hasEdge_def] at h
      have hnone : assocVal g.edges (s, t) = none := by
        cases hx : assocVal g.edges (s, t)
        · rfl
        · exact absurd (by rw [hx]; rfl) h
      rw [hk, hnone]
      simp [assocVal_cons]
    · rw [if_neg hk]
      have hsing : assocVal [((s, t), r)] (u, v) = none := by
        rw [assocVal_cons_mk, if_neg (fun he => hk he.symm), assocVal_nil]
      rw [hsing]
      cases assocVal g.edges (u, v) <;> rfl

theorem mem_edges_addEdge {g : Graph} {s t r : String} {e : (String × String) × String}
    (h : e ∈ (g.addEdge s t r).edges) : e ∈ g.edges ∨ e = ((s, t), r) := by
  unfold Graph.addEdge at h
  by_cases hse : g.hasEdge s t = true
  · rw [if_pos hse] at h
    simp only [List.mem_map] at h
    obtain ⟨a, ha, hae⟩ := h
    by_cases h1 : a.1 = (s, t)
    · right
      rw [← hae, if_pos (by simp [h1])]
      rw [h1]
    · left
      rw [← hae, if_neg (by simp [h1])]
      exact ha
  · rw [if_neg hse] at h
    rcases List.mem_append.mp h with h | h
    · exact Or.inl h
    · exact Or.inr (by simpa using h)

theorem keys_addEdge_replace {g : Graph} {s t : String} (r : String) (h : g.hasEdge s t = true) :
    (g.addEdge s t r).edges.map (fun e => e.1) = g.edges.map (fun e => e.1) := by
  unfold Graph.addEdge
  rw [if_pos h]
  simp only [List.map_map]
  apply List.map_congr_left
  intro e _
  by_cases he : e.1 = (s, t) <;> simp [he]

theorem edges_addEdge_append {g : Graph} {s t : String} (r : String) (h : ¬ g.hasEdge s t = true) :
    (g.addEdge s t r).edges = g.edges ++ [((s, t), r)] := by
  unfold Graph.addEdge
  rw [if_neg h]

theorem hasNode_addNode (g : Graph) (c : SKOSConcept) (id : String) :
    (g.addNode c).hasNode id = true ↔ (g.hasNode id = true ∨ c.concept_id = id) := by
  unfold Graph.addNode
  by_cases h : g.hasNode c.concept_id = true
  · rw [if_pos h]
    simp only [Graph.hasNode, List.any_eq_true, List.mem_map, beq_iff_eq] at h ⊢
    constructor
    · rintro ⟨p, ⟨a, ha, rfl⟩, hp⟩
      have hfst : (if a.1 = c.concept_id then (a.1, c) else a).1 = a.1 := by
        split <;> rfl
      rw [hfst] at hp
      left; exact ⟨a, ha, hp⟩
    · rintro (⟨p, hp, hpid⟩ | hcid)
      · by_cases hpc : p.1 = c.concept_id
        · obtain ⟨q, hq, hqc⟩ := h
          refine ⟨(q.1, c), ⟨q, hq, by rw [if_pos (by simp [hqc])]⟩, ?_⟩
          simp [hqc, ← hpc, hpid]
        · exact ⟨p, ⟨p, hp, by rw [if_neg (by simp [hpc])]⟩, hpid⟩
      · obtain ⟨q, hq, hqc⟩ := h
        refine ⟨(q.1, c), ⟨q, hq, by rw [if_pos (by simp [hqc])]⟩, ?_⟩
        simp [hqc, hcid]
  · rw [if_neg h]
    simp only [Graph.hasNode, List.any_eq_true, List.mem_append, beq_iff_eq]
    constructor
    · rintro ⟨p, hp | hp, hpid⟩
      · exact Or.inl ⟨p, hp, hpid⟩
      · simp at hp
        right; rw [hp] at hpid; exact hpid
    · rintro (⟨p, hp, hpid⟩ | hcid)
      · exact ⟨p, Or.inl hp, hpid⟩
      · exact ⟨(c.concept_id, c), Or.inr (by simp), hcid⟩

theorem lookupNode_addNode_self (g : Graph) (c : SKOSConcept) :
    (g.addNode c).lookupNode c.concept_id = some c := by
  rw [lookupNode_def]
  unfold Graph.addNode
  by_cases h : g.hasNode c.concept_id = true
  · rw [if_pos h]
    simp only []
    rw [assocVal_replace, if_pos rfl]
    have : (assocVal g.nodes c.concept_id).isSome = true := by
      rw [← lookupNode_def, ← hasNode_iff_lookup]; exact h
    obtain ⟨w, hw⟩ := Option.isSome_iff_exists.mp this
    rw [hw]; rfl
  · rw [if_neg h]
    simp only []
    rw [assocVal_append]
    have hnone : assocVal g.nodes c.concept_id = none := by
      cases hx : assocVal g.nodes c.concept_id with
      | none => rfl
      | some v =>
        exact absurd ((hasNode_iff_lookup g c.concept_id).mpr
          (by rw [lookupNode_def, hx]; rfl)) h
    rw [hnone, assocVal_cons_mk, if_pos rfl]
    rfl

theorem lookupNode_addNode_other (g : Graph) (c : SKOSConcept) (id : String)
    (hne : id ≠ c.concept_id) : (g.addNode c).lookupNode id = g.lookupNode id := by
  rw [lookupNode_def, lookupNode_def]
  unfold Graph.addNode
  by_cases h : g.hasNode c.concept_id = true
  · rw [if_pos h]
    simp only []
    rw [assocVal_replace, if_neg hne]
  · rw [if_neg h]
    simp only []
    rw [assocVal_append]
    have hsing : assocVal [(c.concept_id, c)] id = none := by
      rw [assocVal_cons_mk, if_neg (fun hh => hne hh.symm), assocVal_nil]
    rw [hsing]
    cases assocVal g.nodes id <;> rfl

/-! ### Node preservation through relation writes -/

theorem hasNode_addEdge (g : Graph) (s t r id : String) :
    (g.addEdge s t r).hasNode id = g.hasNode id := by
  unfold Graph.hasNode
  rw [nodes_addEdge]

theorem nodes_foldl {β : Type} {f : Graph → β → Graph} (hf : ∀ g x, (f g x).nodes = g.nodes) :
    ∀ (l : List β) (g : Graph), (l.foldl f g).nodes = g.nodes
  | [], _ => rfl
  | x :: xs, g => by rw [List.foldl_cons, nodes_foldl hf xs (f g x), hf]

theorem nodes_broaderStep (cid : String) (g : Graph) (x : String) :
    (broaderStep cid g x).nodes = g.nodes := by
  unfold broaderStep
  split
  · rw [nodes_addEdge, nodes_addEdge]
  · rfl

theorem nodes_narrowerStep (cid : String) (g : Graph) (x : String) :
    (narrowerStep cid g x).nodes = g.nodes := by
  simp only [narrowerStep]
  split
  · split <;> split <;> simp [nodes_addEdge]
  · rfl

theorem nodes_relatedStep (cid : String) (g : Graph) (x : String) :
    (relatedStep cid g x).nodes = g.nodes := by
  unfold relatedStep
  split
  · rw [nodes_addEdge, nodes_addEdge]
  · rfl

theorem nodes_prerequisiteStep (cid : String) (g : Graph) (x : String) :
    (prerequisiteStep cid g x).nodes = g.nodes := by
  unfold prerequisiteStep
  split
  · rw [nodes_addEdge]
  · rfl

theorem nodes_add_concept_relations (g : Graph) (c : SKOSConcept) :
    (add_concept_relations g c).nodes = g.nodes := by
  unfold add_concept_relations
  rw [nodes_foldl (nodes_prerequisiteStep c.concept_id),
    nodes_foldl (nodes_relatedStep c.concept_id),
    nodes_foldl (nodes_narrowerStep c.concept_id),
    nodes_foldl (nodes_broaderStep c.concept_id)]

theorem hasNode_add_concept_relations (g : Graph) (c : SKOSConcept) (id : String) :
    (add_concept_relations g c).hasNode id = g.hasNode id := by
  unfold Graph.hasNode
  rw [nodes_add_concept_relations]

/-! ### C1: persistence of the broader/narrower inverse pair -/

theorem pair_ne_of_injL {A B x cid : String} (h1 : ¬ (cid = B ∧ x = A)) :
    ((A, B) : String × String) ≠ (x, cid) := by
  intro he
  injection he with ha hb
  exact h1 ⟨hb.symm, ha.symm⟩

theorem broaderStep_pres {A B : String} (cid x : String) (g : Graph)
    (hx : ¬ (cid = B ∧ x = A)) (h : invBN g A B) : invBN (broaderStep cid g x) A B := by
  unfold broaderStep
  split
  · constructor
    · rw [edgeRel_addEdge, if_neg (pair_ne_of_injL hx), edgeRel_addEdge]
      by_cases h2 : ((A, B) : String × String) = (cid, x)
      · rw [if_pos h2]
      · rw [if_neg h2]
        exact h.1
    · rw [edgeRel_addEdge]
      by_cases h1 : ((B, A) : String × String) = (x, cid)
      · rw [if_pos h1]
      · rw [if_neg h1, edgeRel_addEdge]
        have h2 : ((B, A) : String × String) ≠ (cid, x) := by
          intro he
          injection he with ha hb
          exact hx ⟨ha.symm, hb.symm⟩
        rw [if_neg h2]
        exact h.2
  · exact h

theorem guardedAdd_pres {A B : String} (s t r : String) (g : Graph) (h : invBN g A B) :
    invBN (if g.hasEdge s t = true then g else g.addEdge s t r) A B := by
  split
  · exact h
  case isFalse hne =>
    constructor
    · rw [edgeRel_addEdge]
      by_cases h1 : ((A, B) : String × String) = (s, t)
      · exfalso
        apply hne
        rw [hasEdge_def, ← h1, ← edgeRel_def, h.1]
        rfl
      · rw [if_neg h1]
        exact h.1
    · rw [edgeRel_addEdge]
      by_cases h1 : ((B, A) : String × String) = (s, t)
      · exfalso
        apply hne
        rw [hasEdge_def, ← h1, ← edgeRel_def, h.2]
        rfl
      · rw [if_neg h1]
        exact h.2

theorem narrowerStep_pres {A B : String} (cid x : String) (g : Graph)
    (h : invBN g A B) : invBN (narrowerStep cid g x) A B := by
  simp only [narrowerStep]
  split
  · exact guardedAdd_pres x cid "broader" _ (guardedAdd_pres cid x "narrower" g h)
  · exact h

theorem relatedStep_pres {A B : String} (cid x : String) (g : Graph)
    (h1 : ¬ (cid = A ∧ x = B)) (h2 : ¬ (cid = B ∧ x = A)) (h : invBN g A B) :
    invBN (relatedStep cid g x) A B := by
  unfold relatedStep
  split
  · constructor
    · rw [edgeRel_addEdge, if_neg (pair_ne_of_injL h2), edgeRel_addEdge,
        if_neg (fun he => by injection he with ha hb; exact h1 ⟨ha.symm, hb.symm⟩)]
      exact h.1
    · rw [edgeRel_addEdge,
        if_neg (fun he => by injection he with ha hb; exact h1 ⟨hb.symm, ha.symm⟩),
        edgeRel_addEdge,
        if_neg (fun he => by injection he with ha hb; exact h2 ⟨ha.symm, hb.symm⟩)]
      exact h.2
  · exact h

theorem prerequisiteStep_pres {A B : String} (cid x : String) (g : Graph)
    (h1 : ¬ (cid = A ∧ x = B)) (h2 : ¬ (cid = B ∧ x = A)) (h : invBN g A B) :
    invBN (prerequisiteStep cid g x) A B := by
  unfold prerequisiteStep
  split
  · constructor
    · rw [edgeRel_addEdge,
        if_neg (fun he => by injection he with ha hb; exact h1 ⟨ha.symm, hb.symm⟩)]
      exact h.1
    · rw [edgeRel_addEdge,
        if_neg (fun he => by injection he with ha hb; exact h2 ⟨ha.symm, hb.symm⟩)]
      exact h.2
  · exact h

theorem add_relations_pres {A B : String} (c : SKOSConcept) (g : Graph) (hAB : A ≠ B)
    (hcA : c.concept_id = A → B ∉ c.related ∧ B ∉ c.prerequisite)
    (hcB : c.concept_id = B → A ∉ c.related ∧ A ∉ c.broader ∧ A ∉ c.prerequisite)
    (h : invBN g A B) : invBN (add_concept_relations g c) A B := by
  unfold add_concept_relations
  have h1 : invBN (c.broader.foldl (broaderStep c.concept_id) g) A B :=
    foldl_induction (fun g' => invBN g' A B) _ _ _ h
      (fun g' x hx hg' => broaderStep_pres c.concept_id x g'
        (fun ⟨hb, hxa⟩ => (hcB hb).2.1 (hxa ▸ hx)) hg')
  have h2 : invBN (c.narrower.foldl (narrowerStep c.concept_id)
      (c.broader.foldl (broaderStep c.concept_id) g)) A B :=
    foldl_induction (fun g' => invBN g' A B) _ _ _ h1
      (fun g' x _ hg' => narrowerStep_pres c.concept_id x g' hg')
  have h3 : invBN (c.related.foldl (relatedStep c.concept_id)
      (c.narrower.foldl (narrowerStep c.concept_id)
        (c.broader.foldl (broaderStep c.concept_id) g))) A B :=
    foldl_induction (fun g' => invBN g' A B) _ _ _ h2
      (fun g' x hx hg' => relatedStep_pres c.concept_id x g'
        (fun ⟨ha, hxb⟩ => (hcA ha).1 (hxb ▸ hx))
        (fun ⟨hb, hxa⟩ => (hcB hb).1 (hxa ▸ hx)) hg')
  exact foldl_induction (fun g' => invBN g' A B) _ _ _ h3
    (fun g' x hx hg' => prerequisiteStep_pres c.concept_id x g'
      (fun ⟨ha, hxb⟩ => (hcA ha).2 (hxb ▸ hx))
      (fun ⟨hb, hxa⟩ => (hcB hb).2.2 (hxa ▸ hx)) hg')

theorem broaderFold_establish {A B : String} (hAB : A ≠ B) :
    ∀ (ids : List String) (g : Graph), B ∈ ids → g.hasNode B = true →
      invBN (ids.foldl (broaderStep A) g) A B
  | [], _, hmem, _ => absurd hmem (List.not_mem_nil B)
  | x :: rest, g, hmem, hB => by
    rw [List.foldl_cons]
    by_cases hr : B ∈ rest
    · exact broaderFold_establish hAB rest _ hr
        (by unfold Graph.hasNode; rw [nodes_broaderStep]; exact hB)
    · have hxB : x = B := by
        rcases List.mem_cons.mp hmem with h | h
        · exact h.symm
        · exact absurd h hr
      have hstep : invBN (broaderStep A g B) A B := by
        unfold broaderStep
        rw [if_pos hB]
        constructor
        · rw [edgeRel_addEdge,
            if_neg (fun he => by injection he with ha hb; exact hAB ha),
            edgeRel_addEdge, if_pos rfl]
        · rw [edgeRel_addEdge, if_pos rfl]
      rw [hxB]
      exact foldl_induction (fun g' => invBN g' A B) _ rest _ hstep
        (fun g' x' _ hg' => broaderStep_pres A x' g' (fun ⟨ha, _⟩ => hAB ha) hg')

theorem establish_record {A B : String} (a : SKOSConcept) (g : Graph) (hAB : A ≠ B)
    (haid : a.concept_id = A) (hmem : B ∈ a.broader) (hB : g.hasNode B = true)
    (hrel : B ∉ a.related) (hpre : B ∉ a.prerequisite) :
    invBN (add_concept_relations g a) A B := by
  unfold add_concept_relations
  rw [haid]
  have h1 : invBN (a.broader.foldl (broaderStep A) g) A B :=
    broaderFold_establish hAB a.broader g hmem hB
  have h2 : invBN (a.narrower.foldl (narrowerStep A) (a.broader.foldl (broaderStep A) g)) A B :=
    foldl_induction (fun g' => invBN g' A B) _ _ _ h1
      (fun g' x _ hg' => narrowerStep_pres A x g' hg')
  have h3 : invBN (a.related.foldl (relatedStep A)
      (a.narrower.foldl (narrowerStep A) (a.broader.foldl (broaderStep A) g))) A B :=
    foldl_induction (fun g' => invBN g' A B) _ _ _ h2
      (fun g' x hx hg' => relatedStep_pres A x g'
        (fun ⟨_, hxb⟩ => hrel (hxb ▸ hx)) (fun ⟨hb, _⟩ => hAB hb) hg')
  exact foldl_induction (fun g' => invBN g' A B) _ _ _ h3
    (fun g' x hx hg' => prerequisiteStep_pres A x g'
      (fun ⟨_, hxb⟩ => hpre (hxb ▸ hx)) (fun ⟨hb, _⟩ => hAB hb) hg')

theorem buildFold_inv {A B : String} (hAB : A ≠ B) :
    ∀ (cs : List SKOSConcept) (g : Graph) (a : SKOSConcept), a ∈ cs → a.concept_id = A →
      B ∈ a.broader → g.hasNode B = true →
      (∀ c ∈ cs, (c.concept_id = A → B ∉ c.related ∧ B ∉ c.prerequisite) ∧
                 (c.concept_id = B → A ∉ c.related ∧ A ∉ c.broader ∧ A ∉ c.prerequisite)) →
      invBN (cs.foldl add_concept_relations g) A B
  | [], _, _, ha, _, _, _, _ => absurd ha (List.not_mem_nil _)
  | c :: rest, g, a, ha, haid, hab, hB, hclean => by
    rw [List.foldl_cons]
    by_cases hr : a ∈ rest
    · exact buildFold_inv hAB rest _ a hr haid hab
        (by rw [hasNode_add_concept_relations]; exact hB)
        (fun c' hc' => hclean c' (List.mem_cons_of_mem _ hc'))
    · have hac : a = c := by
        rcases List.mem_cons.mp ha with h | h
        · exact h
        · exact absurd h hr
      subst hac
      have hstep : invBN (add_concept_relations g a) A B :=
        establish_record a g hAB haid hab hB
          ((hclean a (List.mem_cons_self _ _)).1 haid).1
          ((hclean a (List.mem_cons_self _ _)).1 haid).2
      exact foldl_induction (fun g' => invBN g' A B) _ rest _ hstep
        (fun g' c' hc' hg' => add_relations_pres c' g' hAB
          ((hclean c' (List.mem_cons_of_mem _ hc')).1)
          ((hclean c' (List.mem_cons_of_mem _ hc')).2) hg')

/-- C1 (corrected): for records A declaring B as broader with B present, the
built graph carries edge (A,B) typed broader and (B,A) typed narrower,
provided no record declares another unguarded relation over the same ordered
pair (A as related/prerequisite of B or vice versa, or B declaring A as
broader); the claim's clause covering co-declared related/prerequisite
relation types fails because a DiGraph holds one relation_type per pair and
later writes overwrite it. -/
theorem c1_broader_inverse_amended (cs : List SKOSConcept) (A B : String) (a : SKOSConcept)
    (ha : a ∈ cs) (haid : a.concept_id = A) (hab : B ∈ a.broader)
    (hB : (build_graph cs).hasNode B = true)
    (hclean : ∀ c ∈ cs, (c.concept_id = A → B ∉ c.related ∧ B ∉ c.prerequisite) ∧
              (c.concept_id = B → A ∉ c.related ∧ A ∉ c.broader ∧ A ∉ c.prerequisite)) :
    (build_graph cs).edgeRel A B = some "broader" ∧
    (build_graph cs).edgeRel B A = some "narrower" := by
  have hAB : A ≠ B := by
    intro h
    exact ((hclean a ha).2 (haid.trans h)).2.1 (h ▸ hab)
  have hB0 : (cs.foldl Graph.addNode emptyGraph).hasNode B = true := by
    have hn : (build_graph cs).hasNode B
        = (cs.foldl Graph.addNode emptyGraph).hasNode B := by
      unfold build_graph Graph.hasNode
      rw [nodes_foldl nodes_add_concept_relations]
    rw [← hn]
    exact hB
  exact buildFold_inv hAB cs _ a ha haid hab hB0 hclean

/-- C1 counterexample: record a declares b both as broader and as related;
after build the edge (a,b) carries relation_type related, not broader, so the
claim's clause about co-declared relation types fails. -/
theorem c1_counterexample :
    ("b" ∈ cexA.broader ∧ (build_graph [cexA, cexB]).hasNode "b" = true) ∧
    ¬ ((build_graph [cexA, cexB]).edgeRel "a" "b" = some "broader" ∧
       (build_graph [cexA, cexB]).edgeRel "b" "a" = some "narrower") := by
  decide

/-- C1 witness: a clean broader declaration yields both typed edges. -/
theorem c1_witness :
    (build_graph [cexD, cexE]).edgeRel "d" "e" = some "broader" ∧
    (build_graph [cexD, cexE]).edgeRel "e" "d" = some "narrower" :=
  c1_broader_inverse_amended [cexD, cexE] "d" "e" cexD (by decide) (by decide) (by decide)
    (by decide) (by decide)

/-! ### C2: upsert rebuilds exactly the record-derived incident edges -/

theorem flatten_singleton_map {α β : Type} (f : α → β) (l : List α) :
    ((l.map (fun a => [f a])).flatten) = l.map f := by
  induction l with
  | nil => rfl
  | cons a l ih => simp [ih]

theorem hasEdge_false_of_not_mem {g : Graph} {s t : String}
    (h : (s, t) ∉ g.edges.map (fun e => e.1)) : ¬ g.hasEdge s t = true := by
  intro hh
  rw [hasEdge_def] at hh
  exact h ((assocVal_isSome_iff _ _).mp hh)

theorem foldFresh (isNode : String → Bool) (step : Graph → String → Graph)
    (segOf : String → List ((String × String) × String))
    (hnodes : ∀ g x, (step g x).nodes = g.nodes)
    (hskip : ∀ g x, g.hasNode x = false → step g x = g)
    (hadd : ∀ g x, g.hasNode x = true →
      ((segOf x).map (fun e => e.1)).Nodup →
      (∀ k ∈ (segOf x).map (fun e => e.1), k ∉ g.edges.map (fun e => e.1)) →
      (step g x).edges = g.edges ++ segOf x) :
    ∀ (ids : List String) (g : Graph), (∀ y, g.hasNode y = isNode y) →
      ((((ids.filter isNode).map segOf).flatten).map (fun e => e.1)).Nodup →
      (∀ k ∈ (((ids.filter isNode).map segOf).flatten).map (fun e => e.1),
        k ∉ g.edges.map (fun e => e.1)) →
      (ids.foldl step g).edges = g.edges ++ ((ids.filter isNode).map segOf).flatten
  | [], g, _, _, _ => by simp
  | x :: ids, g, hin, hnd, hfresh => by
    rw [List.foldl_cons]
    by_cases hx : isNode x = true
    · rw [List.filter_cons_of_pos hx] at hnd hfresh ⊢
      rw [List.map_cons, List.flatten_cons] at hnd hfresh ⊢
      rw [List.map_append, List.nodup_append] at hnd
      obtain ⟨hnd1, hnd2, hdisj⟩ := hnd
      have hfresh1 : ∀ k ∈ (segOf x).map (fun e => e.1), k ∉ g.edges.map (fun e => e.1) :=
        fun k hk => hfresh k (by rw [List.map_append]; exact List.mem_append_left _ hk)
      have hstep : (step g x).edges = g.edges ++ segOf x :=
        hadd g x (by rw [hin]; exact hx) hnd1 hfresh1
      have hin' : ∀ y, (step g x).hasNode y = isNode y := by
        intro y
        unfold Graph.hasNode
        rw [hnodes]
        exact hin y
      have hfresh' : ∀ k ∈ ((List.map segOf (ids.filter isNode)).flatten).map (fun e => e.1),
          k ∉ (step g x).edges.map (fun e => e.1) := by
        intro k hk
        rw [hstep, List.map_append, List.mem_append]
        rintro (hk1 | hk2)
        · exact hfresh k (by rw [List.map_append]; exact List.mem_append_right _ hk) hk1
        · exact hdisj hk2 hk
      rw [foldFresh isNode step segOf hnodes hskip hadd ids (step g x) hin' hnd2 hfresh',
        hstep, List.append_assoc]
    · rw [List.filter_cons_of_neg hx] at hnd hfresh ⊢
      have hiso : isNode x = false := by
        cases hio : isNode x
        · rfl
        · exact absurd hio hx
      rw [hskip g x (by rw [hin]; exact hiso)]
      exact foldFresh isNode step segOf hnodes hskip hadd ids g hin hnd hfresh

theorem twoAdd_fresh (cid x r1 r2 : String) (g : Graph)
    (h1 : (cid, x) ∉ g.edges.map (fun e => e.1))
    (h2 : (x, cid) ∉ g.edges.map (fun e => e.1))
    (hne : ((cid, x) : String × String) ≠ (x, cid)) :
    ((g.addEdge cid x r1).addEdge x cid r2).edges
      = g.edges ++ [((cid, x), r1), ((x, cid), r2)] := by
  have ha : ¬ g.hasEdge cid x = true := hasEdge_false_of_not_mem h1
  have hb : ¬ (g.addEdge cid x r1).hasEdge x cid = true := by
    apply hasEdge_false_of_not_mem
    rw [edges_addEdge_append r1 ha, List.map_append, List.mem_append]
    rintro (hk | hk)
    · exact h2 hk
    · simp only [List.map_cons, List.map_nil, List.mem_singleton] at hk
      exact hne hk.symm
  rw [edges_addEdge_append r2 hb, edges_addEdge_append r1 ha, List.append_assoc]
  rfl

theorem seg2_nodup_ne {cid x r1 r2 : String}
    (hnd : (([((cid, x), r1), ((x, cid), r2)] :
      List ((String × String) × String)).map (fun e => e.1)).Nodup) :
    ((cid, x) : String × String) ≠ (x, cid) := by
  simp only [List.map_cons, List.map_nil, List.nodup_cons, List.mem_singleton] at hnd
  exact hnd.1

theorem broaderFold_fresh (cid : String) (isNode : String → Bool) (ids : List String) (g : Graph)
    (hin : ∀ y, g.hasNode y = isNode y)
    (hnd : ((((ids.filter isNode).map
      (fun b => [((cid, b), "broader"), ((b, cid), "narrower")])).flatten).map
        (fun e => e.1)).Nodup)
    (hfresh : ∀ k ∈ (((ids.filter isNode).map
      (fun b => [((cid, b), "broader"), ((b, cid), "narrower")])).flatten).map (fun e => e.1),
        k ∉ g.edges.map (fun e => e.1)) :
    (ids.foldl (broaderStep cid) g).edges
      = g.edges ++ ((ids.filter isNode).map
          (fun b => [((cid, b), "broader"), ((b, cid), "narrower")])).flatten := by
  apply foldFresh isNode (broaderStep cid)
    (fun b => [((cid, b), "broader"), ((b, cid), "narrower")])
    (fun g x => nodes_broaderStep cid g x)
    (fun g x hfx => by unfold broaderStep; rw [hfx]; rfl)
    (fun g x hn hnd2 hfr2 => by
      unfold broaderStep
      rw [if_pos hn]
      exact twoAdd_fresh cid x "broader" "narrower" g
        (hfr2 _ (by simp)) (hfr2 _ (by simp)) (seg2_nodup_ne hnd2))
    ids g hin hnd hfresh

theorem narrowerFold_fresh (cid : String) (isNode : String → Bool) (ids : List String) (g : Graph)
    (hin : ∀ y, g.hasNode y = isNode y)
    (hnd : ((((ids.filter isNode).map
      (fun n => [((cid, n), "narrower"), ((n, cid), "broader")])).flatten).map
        (fun e => e.1)).Nodup)
    (hfresh : ∀ k ∈ (((ids.filter isNode).map
      (fun n => [((cid, n), "narrower"), ((n, cid), "broader")])).flatten).map (fun e => e.1),
        k ∉ g.edges.map (fun e => e.1)) :
    (ids.foldl (narrowerStep cid) g).edges
      = g.edges ++ ((ids.filter isNode).map
          (fun n => [((cid, n), "narrower"), ((n, cid), "broader")])).flatten := by
  apply foldFresh isNode (narrowerStep cid)
    (fun n => [((cid, n), "narrower"), ((n, cid), "broader")])
    (fun g x => nodes_narrowerStep cid g x)
    (fun g x hfx => by simp only [narrowerStep]; rw [hfx]; rfl)
    (fun g x hn hnd2 hfr2 => by
      have hne := seg2_nodup_ne hnd2
      have ha : ¬ g.hasEdge cid x = true := hasEdge_false_of_not_mem (hfr2 _ (by simp))
      have hb : ¬ (g.addEdge cid x "narrower").hasEdge x cid = true := by
        apply hasEdge_false_of_not_mem
        rw [edges_addEdge_append "narrower" ha, List.map_append, List.mem_append]
        rintro (hk | hk)
        · exact (hfr2 _ (by simp)) hk
        · simp only [List.map_cons, List.map_nil, List.mem_singleton] at hk
          exact hne hk.symm
      simp only [narrowerStep]
      rw [if_pos hn, if_neg ha, if_neg hb]
      exact twoAdd_fresh cid x "narrower" "broader" g
        (hfr2 _ (by simp)) (hfr2 _ (by simp)) hne)
    ids g hin hnd hfresh

theorem relatedFold_fresh (cid : String) (isNode : String → Bool) (ids : List String) (g : Graph)
    (hin : ∀ y, g.hasNode y = isNode y)
    (hnd : ((((ids.filter isNode).map
      (fun r => [((cid, r), "related"), ((r, cid), "related")])).flatten).map
        (fun e => e.1)).Nodup)
    (hfresh : ∀ k ∈ (((ids.filter isNode).map
      (fun r => [((cid, r), "related"), ((r, cid), "related")])).flatten).map (fun e => e.1),
        k ∉ g.edges.map (fun e => e.1)) :
    (ids.foldl (relatedStep cid) g).edges
      = g.edges ++ ((ids.filter isNode).map
          (fun r => [((cid, r), "related"), ((r, cid), "related")])).flatten := by
  apply foldFresh isNode (relatedStep cid)
    (fun r => [((cid, r), "related"), ((r, cid), "related")])
    (fun g x => nodes_relatedStep cid g x)
    (fun g x hfx => by unfold relatedStep; rw [hfx]; rfl)
    (fun g x hn hnd2 hfr2 => by
      unfold relatedStep
      rw [if_pos hn]
      exact twoAdd_fresh cid x "related" "related" g
        (hfr2 _ (by simp)) (hfr2 _ (by simp)) (seg2_nodup_ne hnd2))
    ids g hin hnd hfresh

theorem prereqFold_fresh (cid : String) (isNode : String → Bool) (ids : List String) (g : Graph)
    (hin : ∀ y, g.hasNode y = isNode y)
    (hnd : ((((ids.filter isNode).map
      (fun p => [((cid, p), "prerequisite")])).flatten).map (fun e => e.1)).Nodup)
    (hfresh : ∀ k ∈ (((ids.filter isNode).map
      (fun p => [((cid, p), "prerequisite")])).flatten).map (fun e => e.1),
        k ∉ g.edges.map (fun e => e.1)) :
    (ids.foldl (prerequisiteStep cid) g).edges
      = g.edges ++ ((ids.filter isNode).map (fun p => [((cid, p), "prerequisite")])).flatten := by
  apply foldFresh isNode (prerequisiteStep cid)
    (fun p => [((cid, p), "prerequisite")])
    (fun g x => nodes_prerequisiteStep cid g x)
    (fun g x hfx => by unfold prerequisiteStep; rw [hfx]; rfl)
    (fun g x hn _ hfr2 => by
      unfold prerequisiteStep
      rw [if_pos hn]
      rw [edges_addEdge_append "prerequisite"
        (hasEdge_false_of_not_mem (hfr2 _ (by simp)))])
    ids g hin hnd hfresh

theorem add_relations_fresh (c : SKOSConcept) (g : Graph)
    (hnd : ((specDerivedEdges c g.hasNode).map (fun e => e.1)).Nodup)
    (hfresh : ∀ k ∈ (specDerivedEdges c g.hasNode).map (fun e => e.1),
      k ∉ g.edges.map (fun e => e.1)) :
    (add_concept_relations g c).edges = g.edges ++ specDerivedEdges c g.hasNode := by
  unfold specDerivedEdges at hnd hfresh ⊢
  rw [List.map_append, List.map_append, List.map_append] at hnd hfresh
  obtain ⟨hlft1, hkP, hd3⟩ := List.nodup_append.mp hnd
  obtain ⟨hlft2, hkR, hd2⟩ := List.nodup_append.mp hlft1
  obtain ⟨hkB, hkN, hd1⟩ := List.nodup_append.mp hlft2
  have hfB : ∀ k ∈ (((c.broader.filter g.hasNode).map
      (fun b => [((c.concept_id, b), "broader"), ((b, c.concept_id), "narrower")])).flatten).map
        (fun e => e.1), k ∉ g.edges.map (fun e => e.1) :=
    fun k hk => hfresh k (List.mem_append_left _ (List.mem_append_left _ (List.mem_append_left _ hk)))
  have hfN : ∀ k ∈ (((c.narrower.filter g.hasNode).map
      (fun n => [((c.concept_id, n), "narrower"), ((n, c.concept_id), "broader")])).flatten).map
        (fun e => e.1), k ∉ g.edges.map (fun e => e.1) :=
    fun k hk => hfresh k (List.mem_append_left _ (List.mem_append_left _ (List.mem_append_right _ hk)))
  have hfR : ∀ k ∈ (((c.related.filter g.hasNode).map
      (fun r => [((c.concept_id, r), "related"), ((r, c.concept_id), "related")])).flatten).map
        (fun e => e.1), k ∉ g.edges.map (fun e => e.1) :=
    fun k hk => hfresh k (List.mem_append_left _ (List.mem_append_right _ hk))
  have hfP : ∀ k ∈ ((c.prerequisite.filter g.hasNode).map
      (fun p => ((c.concept_id, p), "prerequisite"))).map (fun e => e.1),
        k ∉ g.edges.map (fun e => e.1) :=
    fun k hk => hfresh k (List.mem_append_right _ hk)
  have h1 := broaderFold_fresh c.concept_id g.hasNode c.broader g (fun _ => rfl) hkB hfB
  have hin1 : ∀ y, (c.broader.foldl (broaderStep c.concept_id) g).hasNode y = g.hasNode y := by
    intro y
    unfold Graph.hasNode
    rw [nodes_foldl (nodes_broaderStep c.concept_id)]
  have hkeys1 : (c.broader.foldl (broaderStep c.concept_id) g).edges.map (fun e => e.1)
      = g.edges.map (fun e => e.1) ++ (((c.broader.filter g.hasNode).map
        (fun b => [((c.concept_id, b), "broader"), ((b, c.concept_id), "narrower")])).flatten).map
          (fun e => e.1) := by
    rw [h1, List.map_append]
  have hfN' : ∀ k ∈ (((c.narrower.filter g.hasNode).map
      (fun n => [((c.concept_id, n), "narrower"), ((n, c.concept_id), "broader")])).flatten).map
        (fun e => e.1),
      k ∉ (c.broader.foldl (broaderStep c.concept_id) g).edges.map (fun e => e.1) := by
    intro k hk
    rw [hkeys1, List.mem_append]
    rintro (h | h)
    · exact hfN k hk h
    · exact hd1 h hk
  have h2 := narrowerFold_fresh c.concept_id g.hasNode c.narrower _ hin1 hkN hfN'
  have hin2 : ∀ y, (c.narrower.foldl (narrowerStep c.concept_id)
      (c.broader.foldl (broaderStep c.concept_id) g)).hasNode y = g.hasNode y := by
    intro y
    unfold Graph.hasNode
    rw [nodes_foldl (nodes_narrowerStep c.concept_id)]
    exact hin1 y
  have hkeys2 : (c.narrower.foldl (narrowerStep c.concept_id)
        (c.broader.foldl (broaderStep c.concept_id) g)).edges.map (fun e => e.1)
      = (g.edges.map (fun e => e.1) ++ (((c.broader.filter g.hasNode).map
          (fun b => [((c.concept_id, b), "broader"), ((b, c.concept_id), "narrower")])).flatten).map
            (fun e => e.1)) ++ (((c.narrower.filter g.hasNode).map
          (fun n => [((c.concept_id, n), "narrower"), ((n, c.concept_id), "broader")])).flatten).map
            (fun e => e.1) := by
    rw [h2, List.map_append, hkeys1]
  have hfR' : ∀ k ∈ (((c.related.filter g.hasNode).map
      (fun r => [((c.concept_id, r), "related"), ((r, c.concept_id), "related")])).flatten).map
        (fun e => e.1),
      k ∉ (c.narrower.foldl (narrowerStep c.concept_id)
        (c.broader.foldl (broaderStep c.concept_id) g)).edges.map (fun e => e.1) := by
    intro k hk
    rw [hkeys2, List.mem_append, List.mem_append]
    rintro ((h | h) | h)
    · exact hfR k hk h
    · exact hd2 (List.mem_append_left _ h) hk
    · exact hd2 (List.mem_append_right _ h) hk
  have h3 := relatedFold_fresh c.concept_id g.hasNode c.related _ hin2 hkR hfR'
  have hin3 : ∀ y, (c.related.foldl (relatedStep c.concept_id)
      (c.narrower.foldl (narrowerStep c.concept_id)
        (c.broader.foldl (broaderStep c.concept_id) g))).hasNode y = g.hasNode y := by
    intro y
    unfold Graph.hasNode
    rw [nodes_foldl (nodes_relatedStep c.concept_id)]
    exact hin2 y
  have hkeys3 : (c.related.foldl (relatedStep c.concept_id)
        (c.narrower.foldl (narrowerStep c.concept_id)
          (c.broader.foldl (broaderStep c.concept_id) g))).edges.map (fun e => e.1)
      = ((g.edges.map (fun e => e.1) ++ (((c.broader.filter g.hasNode).map
          (fun b => [((c.concept_id, b), "broader"), ((b, c.concept_id), "narrower")])).flatten).map
            (fun e => e.1)) ++ (((c.narrower.filter g.hasNode).map
          (fun n => [((c.concept_id, n), "narrower"), ((n, c.concept_id), "broader")])).flatten).map
            (fun e => e.1)) ++ (((c.related.filter g.hasNode).map
          (fun r => [((c.concept_id, r), "related"), ((r, c.concept_id), "related")])).flatten).map
            (fun e => e.1) := by
    rw [h3, List.map_append, hkeys2]
  have hfP' : ∀ k ∈ ((c.prerequisite.filter g.hasNode).map
      (fun p => ((c.concept_id, p), "prerequisite"))).map (fun e => e.1),
      k ∉ (c.related.foldl (relatedStep c.concept_id)
        (c.narrower.foldl (narrowerStep c.concept_id)
          (c.broader.foldl (broaderStep c.concept_id) g))).edges.map (fun e => e.1) := by
    intro k hk
    rw [hkeys3, List.mem_append, List.mem_append, List.mem_append]
    rintro (((h | h) | h) | h)
    · exact hfP k hk h
    · exact hd3 (List.mem_append_left _ (List.mem_append_left _ h)) hk
    · exact hd3 (List.mem_append_left _ (List.mem_append_right _ h)) hk
    · exact hd3 (List.mem_append_right _ h) hk
  have hkPf : ((((c.prerequisite.filter g.hasNode).map
      (fun p => [((c.concept_id, p), "prerequisite")])).flatten).map (fun e => e.1)).Nodup := by
    rw [flatten_singleton_map]
    exact hkP
  have hfPf : ∀ k ∈ (((c.prerequisite.filter g.hasNode).map
      (fun p => [((c.concept_id, p), "prerequisite")])).flatten).map (fun e => e.1),
      k ∉ (c.related.foldl (relatedStep c.concept_id)
        (c.narrower.foldl (narrowerStep c.concept_id)
          (c.broader.foldl (broaderStep c.concept_id) g))).edges.map (fun e => e.1) := by
    rw [flatten_singleton_map]
    exact hfP'
  have h4 := prereqFold_fresh c.concept_id g.hasNode c.prerequisite _ hin3 hkPf hfPf
  unfold add_concept_relations
  rw [h4, flatten_singleton_map, h3, h2, h1]
  simp [List.append_assoc]

theorem specDerived_key_incident (c : SKOSConcept) (isNode : String → Bool)
    {k : String × String} (hk : k ∈ (specDerivedEdges c isNode).map (fun e => e.1)) :
    k.1 = c.concept_id ∨ k.2 = c.concept_id := by
  obtain ⟨e, he, rfl⟩ := List.mem_map.mp hk
  unfold specDerivedEdges at he
  rw [List.mem_append, List.mem_append, List.mem_append] at he
  rcases he with ((he | he) | he) | he
  · obtain ⟨l, hl, hel⟩ := List.mem_flatten.mp he
    obtain ⟨b, _, rfl⟩ := List.mem_map.mp hl
    rcases hel with _ | ⟨_, _ | ⟨_, ⟨⟩⟩⟩
    · left; rfl
    · right; rfl
  · obtain ⟨l, hl, hel⟩ := List.mem_flatten.mp he
    obtain ⟨n, _, rfl⟩ := List.mem_map.mp hl
    rcases hel with _ | ⟨_, _ | ⟨_, ⟨⟩⟩⟩
    · left; rfl
    · right; rfl
  · obtain ⟨l, hl, hel⟩ := List.mem_flatten.mp he
    obtain ⟨r, _, rfl⟩ := List.mem_map.mp hl
    rcases hel with _ | ⟨_, _ | ⟨_, ⟨⟩⟩⟩
    · left; rfl
    · right; rfl
  · obtain ⟨p, _, rfl⟩ := List.mem_map.mp he
    left; rfl

theorem filter_incident_of_no_node (g : Graph) (hWF : WellFormed g) (id : String)
    (h : ¬ g.hasNode id = true) :
    g.edges.filter (fun e => !(e.1.1 == id || e.1.2 == id)) = g.edges := by
  apply List.filter_eq_self.mpr
  intro e he
  have h12 := hWF e he
  have h1 : e.1.1 ≠ id := fun hh => h (hh ▸ h12.1)
  have h2 : e.1.2 ≠ id := fun hh => h (hh ▸ h12.2)
  simp [h1, h2]

theorem not_mem_filtered_keys {g : Graph} {id : String} {k : String × String}
    (hinc : k.1 = id ∨ k.2 = id) :
    k ∉ (g.edges.filter (fun e => !(e.1.1 == id || e.1.2 == id))).map (fun e => e.1) := by
  intro hk
  obtain ⟨e, he, rfl⟩ := List.mem_map.mp hk
  have hp := (List.mem_filter.mp he).2
  rcases hinc with h | h
  · simp [h] at hp
  · simp [h] at hp

theorem addNode_nodes_congr {g g' : Graph} (h : g.nodes = g'.nodes) (c : SKOSConcept) :
    (g.addNode c).nodes = (g'.addNode c).nodes := by
  unfold Graph.addNode Graph.hasNode
  rw [h]
  split <;> rfl

theorem nodes_update_concept (g : Graph) (c : SKOSConcept) :
    (update_concept g c).nodes = (g.addNode c).nodes := by
  unfold update_concept
  rw [nodes_add_concept_relations]
  split
  · exact addNode_nodes_congr
      (show (removeIncidentEdges g c.concept_id).nodes = g.nodes from rfl) c
  · rfl

theorem lookup_update_self (g : Graph) (c : SKOSConcept) :
    (update_concept g c).lookupNode c.concept_id = some c := by
  rw [lookupNode_def, nodes_update_concept, ← lookupNode_def]
  exact lookupNode_addNode_self g c

theorem edges_update_concept (g : Graph) (x : SKOSConcept)
    (hWF : WellFormed g)
    (hD : ((specDerivedEdges x (g.addNode x).hasNode).map (fun e => e.1)).Nodup) :
    (update_concept g x).edges
      = g.edges.filter (fun e => !(e.1.1 == x.concept_id || e.1.2 == x.concept_id))
        ++ specDerivedEdges x (g.addNode x).hasNode := by
  unfold update_concept
  by_cases hn : g.hasNode x.concept_id = true
  · rw [if_pos hn]
    have hGnodes : ((removeIncidentEdges g x.concept_id).addNode x).nodes
        = (g.addNode x).nodes := addNode_nodes_congr
      (show (removeIncidentEdges g x.concept_id).nodes = g.nodes from rfl) x
    have hGfun : ((removeIncidentEdges g x.concept_id).addNode x).hasNode
        = (g.addNode x).hasNode := by
      funext y
      unfold Graph.hasNode
      rw [hGnodes]
    have hGedges : ((removeIncidentEdges g x.concept_id).addNode x).edges
        = g.edges.filter (fun e => !(e.1.1 == x.concept_id || e.1.2 == x.concept_id)) := by
      rw [edges_addNode]
      rfl
    have hfr : ∀ k ∈ (specDerivedEdges x
        ((removeIncidentEdges g x.concept_id).addNode x).hasNode).map (fun e => e.1),
        k ∉ ((removeIncidentEdges g x.concept_id).addNode x).edges.map (fun e => e.1) := by
      intro k hk
      rw [hGedges]
      exact not_mem_filtered_keys (specDerived_key_incident x _ hk)
    have hnd' : ((specDerivedEdges x
        ((removeIncidentEdges g x.concept_id).addNode x).hasNode).map (fun e => e.1)).Nodup := by
      rw [hGfun]
      exact hD
    rw [add_relations_fresh x _ hnd' hfr, hGedges, hGfun]
  · rw [if_neg hn]
    have hGfun : (g.addNode x).hasNode = (g.addNode x).hasNode := rfl
    have hfr : ∀ k ∈ (specDerivedEdges x (g.addNode x).hasNode).map (fun e => e.1),
        k ∉ (g.addNode x).edges.map (fun e => e.1) := by
      intro k hk hmem
      rw [edges_addNode] at hmem
      obtain ⟨e, he, hke⟩ := List.mem_map.mp hmem
      have h12 := hWF e he
      rcases specDerived_key_incident x _ hk with h | h
      · exact hn (by rw [← h, ← hke]; exact h12.1)
      · exact hn (by rw [← h, ← hke]; exact h12.2)
    rw [add_relations_fresh x _ hD hfr, edges_addNode,
      filter_incident_of_no_node g hWF x.concept_id hn]

/-- C2 (corrected): after upsert(x), get(x) returns the new attributes, the
incident edges are rebuilt from x's current relation lists, and edges between
other nodes are untouched — but the incident set equals the section-3 derived
edge set only when those derivations name each ordered pair at most once;
conflicting declarations (the same pair under two relation types) leave a
single overwritten edge, so the claim's unconditional exactness fails. -/
theorem c2_upsert_amended (g : Graph) (x : SKOSConcept)
    (hWF : WellFormed g)
    (hD : ((specDerivedEdges x (g.addNode x).hasNode).map (fun e => e.1)).Nodup) :
    (update_concept g x).lookupNode x.concept_id = some x ∧
    (update_concept g x).edges
      = g.edges.filter (fun e => !(e.1.1 == x.concept_id || e.1.2 == x.concept_id))
        ++ specDerivedEdges x (g.addNode x).hasNode ∧
    (∀ u v : String, u ≠ x.concept_id → v ≠ x.concept_id →
      (update_concept g x).edgeRel u v = g.edgeRel u v) := by
  refine ⟨lookup_update_self g x, edges_update_concept g x hWF hD, ?_⟩
  intro u v hu hv
  rw [edgeRel_def, edges_update_concept g x hWF hD, assocVal_append]
  have hDnone : assocVal (specDerivedEdges x (g.addNode x).hasNode) (u, v) = none := by
    apply (assocVal_eq_none_iff _ _).mpr
    intro hk
    rcases specDerived_key_incident x _ hk with h | h
    · exact hu h
    · exact hv h
  have hfl : assocVal (g.edges.filter
      (fun e => !(e.1.1 == x.concept_id || e.1.2 == x.concept_id))) (u, v)
      = assocVal g.edges (u, v) := by
    apply assocVal_filter
    intro e _ hek
    have h1 : e.1.1 = u := by rw [hek]
    have h2 : e.1.2 = v := by rw [hek]
    simp [h1, h2, hu, hv]
  rw [hDnone, hfl, ← edgeRel_def]
  cases g.edgeRel u v <;> rfl

/-- C2 counterexample: upserting a record that declares b both as broader and
as prerequisite stores only the later prerequisite edge on the pair (a,b), so
the incident edge set is not the section-3 derived set, which also contains
((a,b),broader). -/
theorem c2_counterexample :
    (("b" ∈ cexP.broader ∧ (update_concept (build_graph [cexB]) cexP).hasNode "b" = true) ∧
     ((("a", "b"), "broader")
        ∈ specDerivedEdges cexP (update_concept (build_graph [cexB]) cexP).hasNode) ∧
     ((("a", "b"), "prerequisite")
        ∈ specDerivedEdges cexP (update_concept (build_graph [cexB]) cexP).hasNode)) ∧
    (("a", "b"), "broader") ∉ (update_concept (build_graph [cexB]) cexP).edges := by
  decide

/-- C2 witness: a conflict-free upsert satisfies all three amended clauses at
a concrete graph. -/
theorem c2_witness :
    (update_concept (build_graph [cexE, cexC]) cexD).lookupNode "d" = some cexD ∧
    (update_concept (build_graph [cexE, cexC]) cexD).edgeRel "c" "e"
      = (build_graph [cexE, cexC]).edgeRel "c" "e" := by
  have h := c2_upsert_amended (build_graph [cexE, cexC]) cexD
    (by unfold WellFormed; decide) (by decide)
  exact ⟨h.1, h.2.2 "c" "e" (by decide) (by decide)⟩

/-! ### C8: dangling references create no edges and no placeholder nodes -/

theorem hasNode_foldl_addNode :
    ∀ (l : List SKOSConcept) (g : Graph) (id : String),
      (l.foldl Graph.addNode g).hasNode id = true ↔
        (g.hasNode id = true ∨ ∃ c ∈ l, c.concept_id = id)
  | [], g, id => by simp
  | c :: l, g, id => by
    rw [List.foldl_cons, hasNode_foldl_addNode l _ id, hasNode_addNode]
    constructor
    · rintro ((h | h) | ⟨c', hc', rfl⟩)
      · exact Or.inl h
      · exact Or.inr ⟨c, by simp, h⟩
      · exact Or.inr ⟨c', by simp [hc'], rfl⟩
    · rintro (h | ⟨c', hc', rfl⟩)
      · exact Or.inl (Or.inl h)
      · rcases List.mem_cons.mp hc' with rfl | hc'
        · exact Or.inl (Or.inr rfl)
        · exact Or.inr ⟨c', hc', rfl⟩

theorem edges_foldl_addNode :
    ∀ (l : List SKOSConcept) (g : Graph), (l.foldl Graph.addNode g).edges = g.edges
  | [], _ => rfl
  | c :: l, g => by rw [List.foldl_cons, edges_foldl_addNode l _, edges_addNode]

theorem hasNode_build_iff (cs : List SKOSConcept) (id : String) :
    (build_graph cs).hasNode id = true ↔ ∃ c ∈ cs, c.concept_id = id := by
  unfold build_graph
  have h : (cs.foldl add_concept_relations (cs.foldl Graph.addNode emptyGraph)).hasNode id
      = (cs.foldl Graph.addNode emptyGraph).hasNode id := by
    unfold Graph.hasNode
    rw [nodes_foldl nodes_add_concept_relations]
  rw [h, hasNode_foldl_addNode]
  simp [emptyGraph, Graph.hasNode]

theorem hasNode_mono_addNode {g : Graph} {c : SKOSConcept} {id : String}
    (h : g.hasNode id = true) : (g.addNode c).hasNode id = true :=
  (hasNode_addNode g c id).mpr (Or.inl h)

theorem wf_addNode {g : Graph} (c : SKOSConcept) (h : WellFormed g) :
    WellFormed (g.addNode c) := by
  intro e he
  rw [edges_addNode] at he
  exact ⟨hasNode_mono_addNode (h e he).1, hasNode_mono_addNode (h e he).2⟩

theorem wf_addEdge {g : Graph} {s t : String} (r : String) (h : WellFormed g)
    (hs : g.hasNode s = true) (ht : g.hasNode t = true) :
    WellFormed (g.addEdge s t r) := by
  intro e he
  rw [hasNode_addEdge, hasNode_addEdge]
  rcases mem_edges_addEdge he with h1 | h1
  · exact h e h1
  · subst h1
    exact ⟨hs, ht⟩

theorem wf_broaderStep {g : Graph} {cid : String} (x : String) (h : WellFormed g)
    (hcid : g.hasNode cid = true) : WellFormed (broaderStep cid g x) := by
  unfold broaderStep
  split
  case isTrue hn =>
    apply wf_addEdge "narrower" (wf_addEdge "broader" h hcid hn)
    · rw [hasNode_addEdge]; exact hn
    · rw [hasNode_addEdge]; exact hcid
  · exact h

theorem wf_narrowerStep {g : Graph} {cid : String} (x : String) (h : WellFormed g)
    (hcid : g.hasNode cid = true) : WellFormed (narrowerStep cid g x) := by
  simp only [narrowerStep]
  split
  case isTrue hn =>
    split <;> split
    · exact h
    · exact wf_addEdge "broader" h hn hcid
    · exact wf_addEdge "narrower" h hcid hn
    · apply wf_addEdge "broader" (wf_addEdge "narrower" h hcid hn)
      · rw [hasNode_addEdge]; exact hn
      · rw [hasNode_addEdge]; exact hcid
  · exact h

theorem wf_relatedStep {g : Graph} {cid : String} (x : String) (h : WellFormed g)
    (hcid : g.hasNode cid = true) : WellFormed (relatedStep cid g x) := by
  unfold relatedStep
  split
  case isTrue hn =>
    apply wf_addEdge "related" (wf_addEdge "related" h hcid hn)
    · rw [hasNode_addEdge]; exact hn
    · rw [hasNode_addEdge]; exact hcid
  · exact h

theorem wf_prerequisiteStep {g : Graph} {cid : String} (x : String) (h : WellFormed g)
    (hcid : g.hasNode cid = true) : WellFormed (prerequisiteStep cid g x) := by
  unfold prerequisiteStep
  split
  case isTrue hn => exact wf_addEdge "prerequisite" h hcid hn
  · exact h

theorem wf_add_concept_relations {g : Graph} (c : SKOSConcept)
    (h : WellFormed g) (hcid : g.hasNode c.concept_id = true) :
    WellFormed (add_concept_relations g c) := by
  unfold add_concept_relations
  have h1 := foldl_induction
    (fun g' => WellFormed g' ∧ g'.hasNode c.concept_id = true)
    (broaderStep c.concept_id) c.broader g ⟨h, hcid⟩
    (fun g' x _ hp => ⟨wf_broaderStep x hp.1 hp.2,
      by unfold Graph.hasNode; rw [nodes_broaderStep]; exact hp.2⟩)
  have h2 := foldl_induction
    (fun g' => WellFormed g' ∧ g'.hasNode c.concept_id = true)
    (narrowerStep c.concept_id) c.narrower _ h1
    (fun g' x _ hp => ⟨wf_narrowerStep x hp.1 hp.2,
      by unfold Graph.hasNode; rw [nodes_narrowerStep]; exact hp.2⟩)
  have h3 := foldl_induction
    (fun g' => WellFormed g' ∧ g'.hasNode c.concept_id = true)
    (relatedStep c.concept_id) c.related _ h2
    (fun g' x _ hp => ⟨wf_relatedStep x hp.1 hp.2,
      by unfold Graph.hasNode; rw [nodes_relatedStep]; exact hp.2⟩)
  exact (foldl_induction
    (fun g' => WellFormed g' ∧ g'.hasNode c.concept_id = true)
    (prerequisiteStep c.concept_id) c.prerequisite _ h3
    (fun g' x _ hp => ⟨wf_prerequisiteStep x hp.1 hp.2,
      by unfold Graph.hasNode; rw [nodes_prerequisiteStep]; exact hp.2⟩)).1

theorem wf_build (cs : List SKOSConcept) : WellFormed (build_graph cs) := by
  unfold build_graph
  have hbase : WellFormed (cs.foldl Graph.addNode emptyGraph) ∧
      ∀ c ∈ cs, (cs.foldl Graph.addNode emptyGraph).hasNode c.concept_id = true := by
    constructor
    · intro e he
      rw [edges_foldl_addNode] at he
      cases he
    · intro c hc
      exact (hasNode_foldl_addNode cs emptyGraph c.concept_id).mpr (Or.inr ⟨c, hc, rfl⟩)
  exact (foldl_induction
    (fun g' => WellFormed g' ∧ ∀ c ∈ cs, g'.hasNode c.concept_id = true)
    add_concept_relations cs _ hbase
    (fun g' c hc hp => ⟨wf_add_concept_relations c hp.1 (hp.2 c hc),
      fun c' hc' => by rw [hasNode_add_concept_relations]; exact hp.2 c' hc'⟩)).1

theorem wf_removeIncident {g : Graph} (h : WellFormed g) (id : String) :
    WellFormed (removeIncidentEdges g id) := by
  intro e he
  exact h e (List.mem_of_mem_filter he)

theorem wf_update {g : Graph} (x : SKOSConcept) (h : WellFormed g) :
    WellFormed (update_concept g x) := by
  unfold update_concept
  apply wf_add_concept_relations x
  · apply wf_addNode
    split
    · exact wf_removeIncident h _
    · exact h
  · exact (hasNode_addNode _ x _).mpr (Or.inr rfl)

theorem hasNode_update_iff (g : Graph) (x : SKOSConcept) (id : String) :
    (update_concept g x).hasNode id = true ↔ (x.concept_id = id ∨ g.hasNode id = true) := by
  have h : (update_concept g x).hasNode id = (g.addNode x).hasNode id := by
    unfold Graph.hasNode
    rw [nodes_update_concept]
  rw [h, hasNode_addNode]
  exact Or.comm

/-- C8 (confirmed): a relation reference to a nonexistent concept id produces
no edge (every stored edge's endpoints are existing nodes, after build and
after upsert of well-formed graphs), no placeholder node is created (the node
set is exactly the record ids, and upsert adds only the upserted id), and no
error is raised (all operations are total functions of the state). -/
theorem c8_dangling_reference_dropped :
    (∀ (cs : List SKOSConcept),
      (∀ id, (build_graph cs).hasNode id = true ↔ ∃ c ∈ cs, c.concept_id = id) ∧
      ∀ e ∈ (build_graph cs).edges,
        (build_graph cs).hasNode e.1.1 = true ∧ (build_graph cs).hasNode e.1.2 = true) ∧
    (∀ (g : Graph) (x : SKOSConcept), WellFormed g →
      (∀ e ∈ (update_concept g x).edges,
        (update_concept g x).hasNode e.1.1 = true ∧ (update_concept g x).hasNode e.1.2 = true) ∧
      ∀ id, (update_concept g x).hasNode id = true ↔
        (x.concept_id = id ∨ g.hasNode id = true)) :=
  ⟨fun cs => ⟨hasNode_build_iff cs, wf_build cs⟩,
   fun g x hWF => ⟨wf_update x hWF, hasNode_update_iff g x⟩⟩

/-- C8 witness: the dangling broader reference of cexD (to the absent id e)
creates no edge and no node at a concrete input. -/
theorem c8_witness :
    ((build_graph [cexD]).hasNode "e" = true ↔ ∃ c ∈ [cexD], c.concept_id = "e") ∧
    ((update_concept (build_graph [cexB]) cexD).hasNode "zz" = true ↔
      ("d" = "zz" ∨ (build_graph [cexB]).hasNode "zz" = true)) := by
  refine ⟨(c8_dangling_reference_dropped.1 [cexD]).1 "e", ?_⟩
  exact (c8_dangling_reference_dropped.2 (build_graph [cexB]) cexD
    (by unfold WellFormed; decide)).2 "zz"

/-! ### C10: relation-index lists never contain duplicates -/

theorem keysNodup_addEdge {g : Graph} (s t r : String) (h : EdgeKeysNodup g) :
    EdgeKeysNodup (g.addEdge s t r) := by
  unfold EdgeKeysNodup at *
  by_cases he : g.hasEdge s t = true
  · rw [keys_addEdge_replace r he]
    exact h
  · rw [edges_addEdge_append r he, List.map_append, List.nodup_append]
    refine ⟨h, by simp, ?_⟩
    intro k hk hk2
    simp only [List.map_cons, List.map_nil, List.mem_singleton] at hk2
    subst hk2
    exact he (by rw [hasEdge_def]; exact (assocVal_isSome_iff _ _).mpr hk)

theorem keysNodup_broaderStep {g : Graph} (cid x : String) (h : EdgeKeysNodup g) :
    EdgeKeysNodup (broaderStep cid g x) := by
  unfold broaderStep
  split
  · exact keysNodup_addEdge _ _ _ (keysNodup_addEdge _ _ _ h)
  · exact h

theorem keysNodup_guarded {g : Graph} (s t r : String) (h : EdgeKeysNodup g) :
    EdgeKeysNodup (if g.hasEdge s t = true then g else g.addEdge s t r) := by
  split
  · exact h
  · exact keysNodup_addEdge _ _ _ h

theorem keysNodup_narrowerStep {g : Graph} (cid x : String) (h : EdgeKeysNodup g) :
    EdgeKeysNodup (narrowerStep cid g x) := by
  simp only [narrowerStep]
  split
  · exact keysNodup_guarded x cid "broader" (keysNodup_guarded cid x "narrower" h)
  · exact h

theorem keysNodup_relatedStep {g : Graph} (cid x : String) (h : EdgeKeysNodup g) :
    EdgeKeysNodup (relatedStep cid g x) := by
  unfold relatedStep
  split
  · exact keysNodup_addEdge _ _ _ (keysNodup_addEdge _ _ _ h)
  · exact h

theorem keysNodup_prerequisiteStep {g : Graph} (cid x : String) (h : EdgeKeysNodup g) :
    EdgeKeysNodup (prerequisiteStep cid g x) := by
  unfold prerequisiteStep
  split
  · exact keysNodup_addEdge _ _ _ h
  · exact h

theorem keysNodup_add_concept_relations {g : Graph} (c : SKOSConcept)
    (h : EdgeKeysNodup g) : EdgeKeysNodup (add_concept_relations g c) := by
  unfold add_concept_relations
  exact foldl_induction EdgeKeysNodup _ c.prerequisite _
    (foldl_induction EdgeKeysNodup _ c.related _
      (foldl_induction EdgeKeysNodup _ c.narrower _
        (foldl_induction EdgeKeysNodup _ c.broader _ h
          (fun g' x _ hp => keysNodup_broaderStep c.concept_id x hp))
        (fun g' x _ hp => keysNodup_narrowerStep c.concept_id x hp))
      (fun g' x _ hp => keysNodup_relatedStep c.concept_id x hp))
    (fun g' x _ hp => keysNodup_prerequisiteStep c.concept_id x hp)

theorem keysNodup_build (cs : List SKOSConcept) : EdgeKeysNodup (build_graph cs) := by
  unfold build_graph
  apply foldl_induction EdgeKeysNodup add_concept_relations cs
  · unfold EdgeKeysNodup
    rw [edges_foldl_addNode]
    exact List.Pairwise.nil
  · exact fun g' c _ hp => keysNodup_add_concept_relations c hp

theorem keysNodup_update {g : Graph} (x : SKOSConcept) (h : EdgeKeysNodup g) :
    EdgeKeysNodup (update_concept g x) := by
  unfold update_concept
  apply keysNodup_add_concept_relations
  unfold EdgeKeysNodup
  rw [edges_addNode]
  split
  · exact ((List.filter_sublist _).map _).nodup h
  · exact h

theorem related_targets_nodup {g : Graph} (h : EdgeKeysNodup g) (src rt : String) :
    (get_related_concepts g src rt).Nodup := by
  unfold get_related_concepts relation_index
  split
  · have hkeys : ((g.edges.filter (fun e => e.2 == rt && e.1.1 == src)).map
        (fun e => e.1)).Nodup :=
      ((List.filter_sublist _).map _).nodup h
    have hsrc : ∀ k ∈ (g.edges.filter (fun e => e.2 == rt && e.1.1 == src)).map
        (fun e => e.1), k.1 = src := by
      intro k hk
      obtain ⟨e, he, rfl⟩ := List.mem_map.mp hk
      have hp := (List.mem_filter.mp he).2
      simp only [Bool.and_eq_true, beq_iff_eq] at hp
      exact hp.2
    have heq : (g.edges.filter (fun e => e.2 == rt && e.1.1 == src)).map (fun e => e.1.2)
        = ((g.edges.filter (fun e => e.2 == rt && e.1.1 == src)).map (fun e => e.1)).map
            (fun k => k.2) := by
      rw [List.map_map]
      rfl
    rw [heq]
    apply hkeys.map_on
    intro a ha b hb hab
    have := hsrc a ha
    have := hsrc b hb
    cases a
    cases b
    simp_all
  · exact List.Pairwise.nil

/-- C10 (confirmed): the relation index never stores a duplicate target under
a fixed (relation type, source) key, because a DiGraph holds one edge per
ordered pair; builds and upserts preserve that pair uniqueness. -/
theorem c10_relation_index_nodup :
    (∀ (g : Graph), EdgeKeysNodup g → ∀ rt src, (get_related_concepts g src rt).Nodup) ∧
    (∀ cs, EdgeKeysNodup (build_graph cs)) ∧
    (∀ (g : Graph) (x : SKOSConcept), EdgeKeysNodup g → EdgeKeysNodup (update_concept g x)) :=
  ⟨fun g h rt src => related_targets_nodup h src rt,
   keysNodup_build,
   fun _ x h => keysNodup_update x h⟩

/-- C10 witness: concrete index list with no duplicates. -/
theorem c10_witness :
    (get_related_concepts (build_graph [cexA, cexB]) "a" "related").Nodup :=
  c10_relation_index_nodup.1 (build_graph [cexA, cexB])
    (by unfold EdgeKeysNodup; decide) "related" "a"

/-! ### Expansion traversal: termination and bookkeeping -/

theorem mem_firstDedupAux :
    ∀ (l seen : List String) (x : String),
      x ∈ firstDedupAux seen l ↔ (x ∈ l ∧ x ∉ seen)
  | [], seen, x => by simp [firstDedupAux]
  | y :: l, seen, x => by
    unfold firstDedupAux
    by_cases hy : y ∈ seen
    · rw [if_pos hy, mem_firstDedupAux l seen x]
      constructor
      · rintro ⟨h1, h2⟩
        exact ⟨List.mem_cons_of_mem _ h1, h2⟩
      · rintro ⟨h1, h2⟩
        rcases List.mem_cons.mp h1 with rfl | h1
        · exact absurd hy h2
        · exact ⟨h1, h2⟩
    · rw [if_neg hy]
      constructor
      · intro hx
        rcases List.mem_cons.mp hx with rfl | hx
        · exact ⟨List.mem_cons_self _ _, hy⟩
        · have := (mem_firstDedupAux l (y :: seen) x).mp hx
          exact ⟨List.mem_cons_of_mem _ this.1,
            fun hs => this.2 (List.mem_cons_of_mem _ hs)⟩
      · rintro ⟨h1, h2⟩
        by_cases hxy : x = y
        · subst hxy
          exact List.mem_cons_self _ _
        · rcases List.mem_cons.mp h1 with rfl | h1
          · exact absurd rfl hxy
          · exact List.mem_cons_of_mem _
              ((mem_firstDedupAux l (y :: seen) x).mpr
                ⟨h1, fun hs => by
                  rcases List.mem_cons.mp hs with h | h
                  · exact hxy h
                  · exact h2 h⟩)

theorem nodup_firstDedupAux :
    ∀ (l seen : List String), (firstDedupAux seen l).Nodup
  | [], _ => List.Pairwise.nil
  | y :: l, seen => by
    unfold firstDedupAux
    by_cases hy : y ∈ seen
    · rw [if_pos hy]
      exact nodup_firstDedupAux l seen
    · rw [if_neg hy]
      rw [List.nodup_cons]
      refine ⟨?_, nodup_firstDedupAux l (y :: seen)⟩
      intro hmem
      exact ((mem_firstDedupAux l (y :: seen) y).mp hmem).2 (List.mem_cons_self _ _)

theorem mem_firstDedup (l : List String) (x : String) : x ∈ firstDedup l ↔ x ∈ l := by
  unfold firstDedup
  rw [mem_firstDedupAux]
  simp

theorem firstDedup_nodup (l : List String) : (firstDedup l).Nodup :=
  nodup_firstDedupAux l []

theorem related_subset_targets (g : Graph) (cur rt : String) :
    ∀ x ∈ get_related_concepts g cur rt, x ∈ edgeTargets g := by
  unfold get_related_concepts relation_index edgeTargets
  intro x hx
  split at hx
  · obtain ⟨e, he, rfl⟩ := List.mem_map.mp hx
    exact List.mem_map.mpr ⟨e, List.mem_of_mem_filter he, rfl⟩
  · cases hx

theorem expVisitTargets_spec (g : Graph) (ic : Bool) (d : Nat) (rt : String) :
    ∀ (tl : List String) (st : ExpState), ∃ A B : List String,
      (expVisitTargets g ic d rt tl st).visited = st.visited ++ A ∧
      (expVisitTargets g ic d rt tl st).queue = st.queue ++ B.map (fun x => (x, d + 1)) ∧
      A.Nodup ∧ (∀ x ∈ A, x ∉ st.visited ∧ x ∈ tl) ∧
      B.length ≤ A.length
  | [], st => ⟨[], [], by simp [expVisitTargets], by simp [expVisitTargets], by simp, by simp, le_refl _⟩
  | rid :: rest, st => by
    unfold expVisitTargets
    by_cases hv : rid ∈ st.visited
    · rw [if_pos hv]
      obtain ⟨A, B, h1, h2, h3, h4, h5⟩ := expVisitTargets_spec g ic d rt rest st
      exact ⟨A, B, h1, h2, h3,
        fun x hx => ⟨(h4 x hx).1, List.mem_cons_of_mem _ (h4 x hx).2⟩, h5⟩
    · rw [if_neg hv]
      cases hl : g.lookupNode rid with
      | none =>
        obtain ⟨A, B, h1, h2, h3, h4, h5⟩ := expVisitTargets_spec g ic d rt rest
          { st with visited := st.visited ++ [rid] }
        refine ⟨rid :: A, B, ?_, ?_, ?_, ?_, ?_⟩
        · rw [h1]
          simp
        · rw [h2]
        · rw [List.nodup_cons]
          exact ⟨fun hmem => ((h4 rid hmem).1 (by simp)), h3⟩
        · intro x hx
          rcases List.mem_cons.mp hx with rfl | hx
          · exact ⟨hv, List.mem_cons_self _ _⟩
          · refine ⟨fun hm => (h4 x hx).1 (by simp [hm]), List.mem_cons_of_mem _ (h4 x hx).2⟩
        · exact h5.trans (Nat.le_succ _)
      | some c =>
        obtain ⟨A, B, h1, h2, h3, h4, h5⟩ := expVisitTargets_spec g ic d rt rest
          ⟨st.visited ++ [rid],
            if d == 0 then appendAt st.direct rt ⟨rid, c.pref_label, c.definition⟩ else st.direct,
            if d == 0 then st.transitive else appendAt st.transitive rt ⟨rid, c.pref_label, c.definition⟩,
            if ic then st.notes ++ [⟨rid, c.pref_label, c.content, c.file_path⟩] else st.notes,
            st.queue ++ [(rid, d + 1)]⟩
        refine ⟨rid :: A, rid :: B, ?_, ?_, ?_, ?_, ?_⟩
        · rw [h1]
          simp
        · rw [h2]
          simp
        · rw [List.nodup_cons]
          exact ⟨fun hmem => ((h4 rid hmem).1 (by simp)), h3⟩
        · intro x hx
          rcases List.mem_cons.mp hx with rfl | hx
          · exact ⟨hv, List.mem_cons_self _ _⟩
          · refine ⟨fun hm => (h4 x hx).1 (by simp [hm]), List.mem_cons_of_mem _ (h4 x hx).2⟩
        · simpa using Nat.succ_le_succ h5

theorem expVisitTypes_spec (g : Graph) (ic : Bool) (d : Nat) (cur : String) :
    ∀ (rts : List String) (st : ExpState), ∃ A B : List String,
      (expVisitTypes g ic d cur rts st).visited = st.visited ++ A ∧
      (expVisitTypes g ic d cur rts st).queue = st.queue ++ B.map (fun x => (x, d + 1)) ∧
      A.Nodup ∧ (∀ x ∈ A, x ∉ st.visited ∧ x ∈ edgeTargets g) ∧
      B.length ≤ A.length
  | [], st => ⟨[], [], by simp [expVisitTypes], by simp [expVisitTypes], by simp, by simp, le_refl _⟩
  | rt :: rts, st => by
    unfold expVisitTypes
    obtain ⟨A1, B1, h1, h2, h3, h4, h5⟩ :=
      expVisitTargets_spec g ic d rt (get_related_concepts g cur rt) st
    obtain ⟨A2, B2, g1, g2, g3, g4, g5⟩ := expVisitTypes_spec g ic d cur rts
      (expVisitTargets g ic d rt (get_related_concepts g cur rt) st)
    refine ⟨A1 ++ A2, B1 ++ B2, ?_, ?_, ?_, ?_, ?_⟩
    · rw [g1, h1, List.append_assoc]
    · rw [g2, h2, List.map_append, List.append_assoc]
    · rw [List.nodup_append]
      refine ⟨h3, g3, ?_⟩
      intro a ha ha2
      exact (g4 a ha2).1 (by rw [h1]; exact List.mem_append_right _ ha)
    · intro x hx
      rcases List.mem_append.mp hx with hx | hx
      · exact ⟨(h4 x hx).1, related_subset_targets g cur rt x (h4 x hx).2⟩
      · refine ⟨fun hm => (g4 x hx).1 (by rw [h1]; exact List.mem_append_left _ hm),
          (g4 x hx).2⟩
    · rw [List.length_append, List.length_append]
      omega

theorem expandLoop_isSome (g : Graph) (rts : List String) (ic : Bool) (md : Int)
    (U : List String) (hUnd : U.Nodup) (hUt : ∀ x ∈ edgeTargets g, x ∈ U) :
    ∀ (fuel : Nat) (st : ExpState), st.visited.Nodup → (∀ v ∈ st.visited, v ∈ U) →
      st.queue.length + 2 * (U.length - st.visited.length) < fuel →
      (expandLoop g rts ic md fuel st).isSome = true
  | 0, _, _, _, hlt => absurd hlt (by omega)
  | Nat.succ f, st, hnd, hsub, hlt => by
    unfold expandLoop
    cases hq : st.queue with
    | nil => rfl
    | cons p rest =>
      obtain ⟨cur, depth⟩ := p
      rw [hq] at hlt
      simp only [List.length_cons] at hlt
      show (if md ≤ (depth : Int) then expandLoop g rts ic md f { st with queue := rest }
        else expandLoop g rts ic md f
          (expVisitTypes g ic depth cur rts { st with queue := rest })).isSome = true
      by_cases hd : md ≤ (depth : Int)
      · rw [if_pos hd]
        exact expandLoop_isSome g rts ic md U hUnd hUt f _ hnd hsub (by simp; omega)
      · rw [if_neg hd]
        obtain ⟨A, B, h1, h2, h3, h4, h5⟩ :=
          expVisitTypes_spec g ic depth cur rts { st with queue := rest }
        have hndA : ((expVisitTypes g ic depth cur rts { st with queue := rest }).visited).Nodup := by
          rw [h1, List.nodup_append]
          exact ⟨hnd, h3, fun a ha ha2 => (h4 a ha2).1 ha⟩
        have hsubA : ∀ v ∈ (expVisitTypes g ic depth cur rts { st with queue := rest }).visited,
            v ∈ U := by
          rw [h1]
          intro v hv
          rcases List.mem_append.mp hv with hv | hv
          · exact hsub v hv
          · exact hUt v (h4 v hv).2
        have hlen : st.visited.length + A.length ≤ U.length := by
          have := @length_le_of_nodup_subset (st.visited ++ A) U
            (by rw [List.nodup_append]; exact ⟨hnd, h3, fun a ha ha2 => (h4 a ha2).1 ha⟩)
            (by intro v hv
                rcases List.mem_append.mp hv with hv | hv
                · exact hsub v hv
                · exact hUt v (h4 v hv).2)
          simpa using this
        apply expandLoop_isSome g rts ic md U hUnd hUt f _ hndA hsubA
        rw [h1, h2]
        simp only [List.length_append, List.length_map]
        omega

theorem expandLoop_total (g : Graph) (cid : String) (rts : List String) (ic : Bool) (md : Int) :
    (expandLoop g rts ic md (expandFuel g cid)
      ⟨[cid], emptyRelMap rts, emptyRelMap rts, [], [(cid, 0)]⟩).isSome = true := by
  apply expandLoop_isSome g rts ic md (firstDedup (cid :: edgeTargets g))
    (firstDedup_nodup _)
    (fun x hx => (mem_firstDedup _ _).mpr (List.mem_cons_of_mem _ hx))
  · simp
  · intro v hv
    simp only [List.mem_singleton] at hv
    subst hv
    exact (mem_firstDedup _ _).mpr (List.mem_cons_self _ _)
  · have hpos : 1 ≤ (firstDedup (cid :: edgeTargets g)).length :=
      List.length_pos_of_mem ((mem_firstDedup _ _).mpr (List.mem_cons_self _ _))
    unfold expandFuel
    simp only [List.length_singleton]
    omega

theorem expandLoop_drain (g : Graph) (rts : List String) (ic : Bool) (md : Int) :
    ∀ (fuel : Nat) (st : ExpState), (∀ p ∈ st.queue, md ≤ ((p.2 : Nat) : Int)) →
      st.queue.length < fuel →
      expandLoop g rts ic md fuel st = some { st with queue := [] }
  | 0, _, _, hlt => absurd hlt (by omega)
  | Nat.succ f, st, hq, hlt => by
    unfold expandLoop
    cases hqe : st.queue with
    | nil =>
      have : st = { st with queue := [] } := by
        cases st
        simp_all
      rw [← this]
    | cons p rest =>
      obtain ⟨cur, depth⟩ := p
      show (if md ≤ (depth : Int) then expandLoop g rts ic md f { st with queue := rest }
        else expandLoop g rts ic md f
          (expVisitTypes g ic depth cur rts { st with queue := rest })) = some { st with queue := [] }
      rw [if_pos (hq (cur, depth) (by rw [hqe]; exact List.mem_cons_self _ _))]
      rw [hqe] at hlt
      simp only [List.length_cons] at hlt
      exact expandLoop_drain g rts ic md f { st with queue := rest }
        (fun p hp => hq p (by rw [hqe]; exact List.mem_cons_of_mem _ hp)) (by simpa using hlt)

theorem assocVal_modify {α β : Type} [BEq α] [LawfulBEq α] [DecidableEq α]
    (l : List (α × β)) (k k' : α) (f : β → β) :
    assocVal (l.map (fun e => if e.1 == k then (e.1, f e.2) else e)) k'
      = if k' = k then (assocVal l k).map f else assocVal l k' := by
  induction l with
  | nil => by_cases h : k' = k <;> simp [assocVal_nil, h]
  | cons e l ih =>
    rw [List.map_cons]
    by_cases hk : k' = k
    · subst hk
      rw [if_pos rfl]
      by_cases hek : e.1 = k'
      · rw [if_pos (by simp [hek] : (e.1 == k') = true), assocVal_cons_mk, if_pos hek,
          assocVal_cons, if_pos hek]
        rfl
      · rw [if_neg (by simp [hek] : ¬ (e.1 == k') = true), assocVal_cons, if_neg hek,
          assocVal_cons, if_neg hek, ih, if_pos rfl]
    · rw [if_neg hk]
      by_cases hek : e.1 = k
      · have h1 : ¬ e.1 = k' := fun h => hk (h ▸ hek ▸ rfl)
        rw [if_pos (by simp [hek] : (e.1 == k) = true), assocVal_cons_mk, if_neg h1,
          assocVal_cons, if_neg h1, ih, if_neg hk]
      · rw [if_neg (by simp [hek] : ¬ (e.1 == k) = true), assocVal_cons, assocVal_cons]
        by_cases hk' : e.1 = k'
        · rw [if_pos hk', if_pos hk']
        · rw [if_neg hk', if_neg hk', ih, if_neg hk]

theorem assocVal_appendAt (m : RelMap) (k k' : String) (v : ConceptSummary) :
    assocVal (appendAt m k v) k'
      = if k' = k then (assocVal m k).map (fun l => l ++ [v]) else assocVal m k' :=
  assocVal_modify m k k' (fun l => l ++ [v])

theorem keys_appendAt (m : RelMap) (k : String) (v : ConceptSummary) :
    (appendAt m k v).map (fun p => p.1) = m.map (fun p => p.1) := by
  unfold appendAt
  rw [List.map_map]
  apply List.map_congr_left
  intro p _
  by_cases h : p.1 = k <;> simp [h]

theorem appendAt_eq_self (m : RelMap) (k : String) (v : ConceptSummary)
    (h : k ∉ m.map (fun p => p.1)) : appendAt m k v = m := by
  unfold appendAt
  have hfix : ∀ p ∈ m, (if (p.1 == k) = true then (p.1, p.2 ++ [v]) else p) = p := by
    intro p hp
    rw [if_neg]
    simp only [beq_iff_eq]
    intro he
    exact h (List.mem_map.mpr ⟨p, hp, he⟩)
  rw [List.map_congr_left hfix]
  exact List.map_id m

theorem assocVal_emptyConst (k : String) :
    ∀ (l : List String),
      assocVal (l.map (fun rt => (rt, ([] : List ConceptSummary)))) k
        = if k ∈ l then some [] else none
  | [] => by simp [assocVal_nil]
  | y :: l => by
    rw [List.map_cons, assocVal_cons_mk, assocVal_emptyConst k l]
    by_cases hy : y = k
    · subst hy
      simp
    · rw [if_neg hy]
      by_cases hk : k ∈ l
      · rw [if_pos hk, if_pos (List.mem_cons_of_mem _ hk)]
      · rw [if_neg hk, if_neg (by
          intro hm
          rcases List.mem_cons.mp hm with h | h
          · exact hy h.symm
          · exact hk h)]

theorem assocVal_emptyRelMap (rts : List String) (k : String) :
    assocVal (emptyRelMap rts) k = if k ∈ rts then some [] else none := by
  unfold emptyRelMap
  rw [assocVal_emptyConst]
  by_cases hk : k ∈ rts
  · rw [if_pos ((mem_firstDedup rts k).mpr hk), if_pos hk]
  · rw [if_neg (fun h => hk ((mem_firstDedup rts k).mp h)), if_neg hk]

theorem bogus_related_empty (g : Graph) (cur rt : String) (hb : rt ∉ relationTypes) :
    get_related_concepts g cur rt = [] := by
  unfold get_related_concepts relation_index
  rw [if_neg hb]

theorem expVisitTargets_lookup_other (g : Graph) (ic : Bool) (d : Nat) (rt rt' : String)
    (hne : rt ≠ rt') :
    ∀ (tl : List String) (st : ExpState),
      assocVal (expVisitTargets g ic d rt tl st).direct rt' = assocVal st.direct rt' ∧
      assocVal (expVisitTargets g ic d rt tl st).transitive rt' = assocVal st.transitive rt'
  | [], _ => ⟨rfl, rfl⟩
  | rid :: rest, st => by
    unfold expVisitTargets
    by_cases hv : rid ∈ st.visited
    · rw [if_pos hv]
      exact expVisitTargets_lookup_other g ic d rt rt' hne rest st
    · rw [if_neg hv]
      cases hl : g.lookupNode rid with
      | none => exact expVisitTargets_lookup_other g ic d rt rt' hne rest _
      | some c =>
        have hstep := expVisitTargets_lookup_other g ic d rt rt' hne rest
          ⟨st.visited ++ [rid],
            if d == 0 then appendAt st.direct rt ⟨rid, c.pref_label, c.definition⟩ else st.direct,
            if d == 0 then st.transitive else appendAt st.transitive rt ⟨rid, c.pref_label, c.definition⟩,
            if ic then st.notes ++ [⟨rid, c.pref_label, c.content, c.file_path⟩] else st.notes,
            st.queue ++ [(rid, d + 1)]⟩
        refine ⟨hstep.1.trans ?_, hstep.2.trans ?_⟩
        · show assocVal (if d == 0 then appendAt st.direct rt _ else st.direct) rt' = _
          split
          · rw [assocVal_appendAt, if_neg (fun h => hne h.symm)]
          · rfl
        · show assocVal (if d == 0 then st.transitive else appendAt st.transitive rt _) rt' = _
          split
          · rfl
          · rw [assocVal_appendAt, if_neg (fun h => hne h.symm)]

theorem expVisitTypes_lookup_bogus (g : Graph) (ic : Bool) (d : Nat) (cur : String)
    (rt' : String) (hb : rt' ∉ relationTypes) :
    ∀ (rts : List String) (st : ExpState),
      assocVal (expVisitTypes g ic d cur rts st).direct rt' = assocVal st.direct rt' ∧
      assocVal (expVisitTypes g ic d cur rts st).transitive rt' = assocVal st.transitive rt'
  | [], _ => ⟨rfl, rfl⟩
  | rt :: rts, st => by
    unfold expVisitTypes
    by_cases hrr : rt = rt'
    · subst hrr
      rw [bogus_related_empty g cur rt hb]
      exact expVisitTypes_lookup_bogus g ic d cur rt hb rts _
    · have h1 := expVisitTargets_lookup_other g ic d rt rt' hrr
        (get_related_concepts g cur rt) st
      have h2 := expVisitTypes_lookup_bogus g ic d cur rt' hb rts
        (expVisitTargets g ic d rt (get_related_concepts g cur rt) st)
      exact ⟨h2.1.trans h1.1, h2.2.trans h1.2⟩

theorem expandLoop_lookup_bogus (g : Graph) (rts : List String) (ic : Bool) (md : Int)
    (rt' : String) (hb : rt' ∉ relationTypes) :
    ∀ (fuel : Nat) (st st' : ExpState), expandLoop g rts ic md fuel st = some st' →
      assocVal st'.direct rt' = assocVal st.direct rt' ∧
      assocVal st'.transitive rt' = assocVal st.transitive rt'
  | 0, _, _, h => by cases h
  | Nat.succ f, st, st', h => by
    unfold expandLoop at h
    revert h
    cases hqe : st.queue with
    | nil =>
      intro h
      cases h
      exact ⟨rfl, rfl⟩
    | cons p rest =>
      obtain ⟨cur, depth⟩ := p
      show (if md ≤ (depth : Int) then expandLoop g rts ic md f { st with queue := rest }
        else expandLoop g rts ic md f
          (expVisitTypes g ic depth cur rts { st with queue := rest })) = some st' → _
      by_cases hd : md ≤ (depth : Int)
      · rw [if_pos hd]
        intro h
        exact expandLoop_lookup_bogus g rts ic md rt' hb f { st with queue := rest } st' h
      · rw [if_neg hd]
        intro h
        have h1 := expandLoop_lookup_bogus g rts ic md rt' hb f
          (expVisitTypes g ic depth cur rts { st with queue := rest }) st' h
        have h2 := expVisitTypes_lookup_bogus g ic depth cur rt' hb rts
          { st with queue := rest }
        exact ⟨h1.1.trans h2.1, h1.2.trans h2.2⟩

theorem mem_emptyRelMap_empty (rts : List String) :
    ∀ p ∈ emptyRelMap rts, p.2 = ([] : List ConceptSummary) := by
  intro p hp
  obtain ⟨rt, _, rfl⟩ := List.mem_map.mp hp
  rfl

/-- C6 (corrected): malformed relation-type names and non-positive depths are
not rejected with a structured InvalidArgument result; get_related_concepts
silently returns an empty list, expand_context with a non-positive max_depth
returns an ordinary success result whose relation lists are all empty, and
expand_context with an unknown relation type returns an ordinary success
result whose lists for that type are empty. -/
theorem c6_invalid_inputs_amended (g : Graph) (cid : String) (c : SKOSConcept)
    (hc : g.lookupNode cid = some c) (rts : List String) (ic : Bool) :
    (∀ md : Int, md ≤ 0 → ∃ r, expand_context g cid (some rts) md ic = .ok r ∧
      (∀ p ∈ r.direct_relations, p.2 = ([] : List ConceptSummary)) ∧
      (∀ p ∈ r.transitive_relations, p.2 = ([] : List ConceptSummary))) ∧
    (∀ rt', rt' ∉ relationTypes →
      get_related_concepts g cid rt' = [] ∧
      ∀ md : Int, ∃ r, expand_context g cid (some rts) md ic = .ok r ∧
        (rt' ∈ rts → assocVal r.direct_relations rt' = some [] ∧
                     assocVal r.transitive_relations rt' = some [])) := by
  constructor
  · intro md hmd
    have hdrain := expandLoop_drain g rts ic md (expandFuel g cid)
      ⟨[cid], emptyRelMap rts, emptyRelMap rts, [], [(cid, 0)]⟩
      (by
        intro p hp
        simp only [List.mem_singleton] at hp
        subst hp
        simpa using hmd)
      (by unfold expandFuel; simp only [List.length_singleton]; omega)
    refine ⟨⟨⟨cid, c.uri, c.pref_label, c.definition, c.file_path,
        if ic then some c.content else none⟩,
      emptyRelMap rts, emptyRelMap rts,
      if ic then some [] else none⟩, ?_, ?_, ?_⟩
    · unfold expand_context
      rw [hc]
      simp only [hdrain, Option.getD_some]
    · intro p hp
      exact mem_emptyRelMap_empty rts p hp
    · intro p hp
      exact mem_emptyRelMap_empty rts p hp
  · intro rt' hb
    refine ⟨bogus_related_empty g cid rt' hb, ?_⟩
    intro md
    cases hloop : expandLoop g rts ic md (expandFuel g cid)
      ⟨[cid], emptyRelMap rts, emptyRelMap rts, [], [(cid, 0)]⟩ with
    | none =>
      have htot := expandLoop_total g cid rts ic md
      rw [hloop] at htot
      simp at htot
    | some stF =>
      have hlk := expandLoop_lookup_bogus g rts ic md rt' hb _ _ _ hloop
      refine ⟨⟨⟨cid, c.uri, c.pref_label, c.definition, c.file_path,
          if ic then some c.content else none⟩,
        stF.direct, stF.transitive,
        if ic then some stF.notes else none⟩, ?_, ?_⟩
      · unfold expand_context
        rw [hc]
        simp only [hloop, Option.getD_some]
      · intro hmem
        constructor
        · show assocVal stF.direct rt' = some []
          rw [hlk.1]
          show assocVal (emptyRelMap rts) rt' = some []
          rw [assocVal_emptyRelMap, if_pos hmem]
        · show assocVal stF.transitive rt' = some []
          rw [hlk.2]
          show assocVal (emptyRelMap rts) rt' = some []
          rw [assocVal_emptyRelMap, if_pos hmem]

/-- C6 counterexample: with a malformed relation type ("bogus") and with a
negative depth, expand_context returns an ordinary success dict with empty
relation lists (not any structured error result), and get_related_concepts
silently returns an empty list, so the claim that these calls return a
structured InvalidArgument result is false. -/
theorem c6_counterexample :
    expand_context (build_graph [cexA, cexB]) "a" (some ["bogus"]) 2 true
      = .ok ⟨⟨"a", "", "A", none, "", some ""⟩, [("bogus", [])], [("bogus", [])], some []⟩ ∧
    expand_context (build_graph [cexA, cexB]) "a" none (-1) true
      = .ok ⟨⟨"a", "", "A", none, "", some ""⟩,
             [("broader", []), ("narrower", []), ("related", [])],
             [("broader", []), ("narrower", []), ("related", [])], some []⟩ ∧
    get_related_concepts (build_graph [cexA, cexB]) "a" "bogus" = [] := by
  decide

/-- C6 witness: the amended behaviour at a concrete graph, a negative depth
and a malformed relation type. -/
theorem c6_witness :
    (∃ r, expand_context (build_graph [cexA, cexB]) "a" (some ["broader", "bogus"]) (-1) true
        = .ok r ∧
      (∀ p ∈ r.direct_relations, p.2 = ([] : List ConceptSummary)) ∧
      (∀ p ∈ r.transitive_relations, p.2 = ([] : List ConceptSummary))) ∧
    (∃ r, expand_context (build_graph [cexA, cexB]) "a" (some ["broader", "bogus"]) 2 true
        = .ok r ∧
      (assocVal r.direct_relations "bogus" = some [] ∧
       assocVal r.transitive_relations "bogus" = some [])) := by
  have h := c6_invalid_inputs_amended (build_graph [cexA, cexB]) "a" cexA
    (by decide) ["broader", "bogus"] true
  refine ⟨h.1 (-1) (by decide), ?_⟩
  obtain ⟨r, hr, himp⟩ := (h.2 "bogus" (by decide)).2 2
  exact ⟨r, hr, himp (by decide)⟩

/-! ### C9: cycle-safe termination and at-most-once recording -/

theorem flat_appendAt_perm (m : RelMap) (k : String) (v : ConceptSummary)
    (hnd : (m.map (fun p => p.1)).Nodup) (hk : k ∈ m.map (fun p => p.1)) :
    ((appendAt m k v).map (fun p => p.2.map (fun s => s.id))).flatten.Perm
      (v.id :: (m.map (fun p => p.2.map (fun s => s.id))).flatten) := by
  induction m with
  | nil => simp at hk
  | cons p m ih =>
    rw [List.map_cons, List.nodup_cons] at hnd
    by_cases hpk : p.1 = k
    · have hrest : k ∉ m.map (fun p => p.1) := by
        rw [← hpk]
        exact hnd.1
      unfold appendAt
      rw [List.map_cons, if_pos (by simp [hpk] : (p.1 == k) = true)]
      rw [show m.map (fun e => if (e.1 == k) = true then (e.1, e.2 ++ [v]) else e)
        = appendAt m k v from rfl]
      rw [appendAt_eq_self m k v hrest]
      simp only [List.map_cons, List.flatten_cons, List.map_append]
      exact List.Perm.trans
        (List.Perm.append_right _ (List.perm_append_singleton v.id _)) (List.Perm.refl _)
    · unfold appendAt
      rw [List.map_cons, if_neg (by simp [hpk] : ¬ (p.1 == k) = true)]
      rw [show m.map (fun e => if (e.1 == k) = true then (e.1, e.2 ++ [v]) else e)
        = appendAt m k v from rfl]
      have hk' : k ∈ m.map (fun p => p.1) := by
        rcases List.mem_cons.mp hk with h | h
        · exact absurd h.symm hpk
        · exact h
      have ihp := ih hnd.2 hk'
      simp only [List.map_cons, List.flatten_cons]
      exact List.Perm.trans (List.Perm.append_left _ ihp) List.perm_middle

theorem stateRecIds_appendAt_direct (st : ExpState) (rt : String) (v : ConceptSummary)
    (hnd : (st.direct.map (fun p => p.1)).Nodup) :
    (stateRecIds { st with direct := appendAt st.direct rt v }).Perm (v.id :: stateRecIds st) ∨
    stateRecIds { st with direct := appendAt st.direct rt v } = stateRecIds st := by
  unfold stateRecIds
  dsimp only
  by_cases hk : rt ∈ st.direct.map (fun p => p.1)
  · left
    exact List.Perm.trans
      (List.Perm.append_right _ (flat_appendAt_perm st.direct rt v hnd hk)) (List.Perm.refl _)
  · right
    rw [appendAt_eq_self st.direct rt v hk]

theorem stateRecIds_appendAt_transitive (st : ExpState) (rt : String) (v : ConceptSummary)
    (hnd : (st.transitive.map (fun p => p.1)).Nodup) :
    (stateRecIds { st with transitive := appendAt st.transitive rt v }).Perm
      (v.id :: stateRecIds st) ∨
    stateRecIds { st with transitive := appendAt st.transitive rt v } = stateRecIds st := by
  unfold stateRecIds
  dsimp only
  by_cases hk : rt ∈ st.transitive.map (fun p => p.1)
  · left
    exact List.Perm.trans
      (List.Perm.append_left _ (flat_appendAt_perm st.transitive rt v hnd hk))
      List.perm_middle
  · right
    rw [appendAt_eq_self st.transitive rt v hk]

theorem expRecInv_extend (cid : String) (st st2 : ExpState) (rid : String)
    (hv : rid ∉ st.visited) (hinv : expRecInv cid st)
    (hvis : st2.visited = st.visited ++ [rid])
    (hrec : (stateRecIds st2).Perm (rid :: stateRecIds st) ∨ stateRecIds st2 = stateRecIds st)
    (hkd : (st2.direct.map (fun p => p.1)).Nodup)
    (hkt : (st2.transitive.map (fun p => p.1)).Nodup) :
    expRecInv cid st2 := by
  obtain ⟨hnd, hsub, hcid, hcrec, _, _⟩ := hinv
  have hrid_ne : rid ∉ stateRecIds st := fun h => hv (hsub _ h)
  have hcid_ne : cid ≠ rid := fun h => hv (h ▸ hcid)
  rcases hrec with hp | hp
  · refine ⟨(hp.nodup_iff).mpr (List.nodup_cons.mpr ⟨hrid_ne, hnd⟩), ?_, ?_, ?_, hkd, hkt⟩
    · intro i hi
      rcases List.mem_cons.mp (hp.subset hi) with rfl | hi2
      · rw [hvis]
        exact List.mem_append_right _ (List.mem_singleton.mpr rfl)
      · rw [hvis]
        exact List.mem_append_left _ (hsub _ hi2)
    · rw [hvis]
      exact List.mem_append_left _ hcid
    · intro hmem
      rcases List.mem_cons.mp (hp.subset hmem) with h | h
      · exact hcid_ne h
      · exact hcrec h
  · refine ⟨hp ▸ hnd, ?_, ?_, hp ▸ hcrec, hkd, hkt⟩
    · intro i hi
      rw [hvis]
      exact List.mem_append_left _ (hsub _ (hp ▸ hi))
    · rw [hvis]
      exact List.mem_append_left _ hcid

theorem expRecInv_record (cid rid : String) (st : ExpState)
    (rt : String) (c : SKOSConcept) (d : Nat) (ic : Bool)
    (hv : rid ∉ st.visited) (hinv : expRecInv cid st) :
    expRecInv cid
      ⟨st.visited ++ [rid],
        if d == 0 then appendAt st.direct rt ⟨rid, c.pref_label, c.definition⟩ else st.direct,
        if d == 0 then st.transitive
          else appendAt st.transitive rt ⟨rid, c.pref_label, c.definition⟩,
        if ic then st.notes ++ [⟨rid, c.pref_label, c.content, c.file_path⟩] else st.notes,
        st.queue ++ [(rid, d + 1)]⟩ := by
  cases hd : d == 0 with
  | true =>
    rw [if_pos rfl, if_pos rfl]
    apply expRecInv_extend cid st _ rid hv hinv rfl
    · exact Or.imp (fun h => h) (fun h => h)
        (stateRecIds_appendAt_direct
          { st with
            visited := st.visited ++ [rid]
            notes := if ic then st.notes ++ [⟨rid, c.pref_label, c.content, c.file_path⟩]
              else st.notes
            queue := st.queue ++ [(rid, d + 1)] }
          rt ⟨rid, c.pref_label, c.definition⟩ hinv.2.2.2.2.1)
    · dsimp only
      rw [keys_appendAt]
      exact hinv.2.2.2.2.1
    · exact hinv.2.2.2.2.2
  | false =>
    rw [if_neg (by simp), if_neg (by simp)]
    apply expRecInv_extend cid st _ rid hv hinv rfl
    · exact Or.imp (fun h => h) (fun h => h)
        (stateRecIds_appendAt_transitive
          { st with
            visited := st.visited ++ [rid]
            notes := if ic then st.notes ++ [⟨rid, c.pref_label, c.content, c.file_path⟩]
              else st.notes
            queue := st.queue ++ [(rid, d + 1)] }
          rt ⟨rid, c.pref_label, c.definition⟩ hinv.2.2.2.2.2)
    · exact hinv.2.2.2.2.1
    · dsimp only
      rw [keys_appendAt]
      exact hinv.2.2.2.2.2

theorem expRecInv_visitTargets (g : Graph) (ic : Bool) (d : Nat) (rt : String) (cid : String) :
    ∀ (tl : List String) (st : ExpState), expRecInv cid st →
      expRecInv cid (expVisitTargets g ic d rt tl st)
  | [], _, h => h
  | rid :: rest, st, h => by
    unfold expVisitTargets
    by_cases hv : rid ∈ st.visited
    · rw [if_pos hv]
      exact expRecInv_visitTargets g ic d rt cid rest st h
    · rw [if_neg hv]
      cases hl : g.lookupNode rid with
      | none =>
        apply expRecInv_visitTargets g ic d rt cid rest
        obtain ⟨h1, h2, h3, h4, h5, h6⟩ := h
        exact ⟨h1, fun i hi => List.mem_append_left _ (h2 i hi),
          List.mem_append_left _ h3, h4, h5, h6⟩
      | some c =>
        apply expRecInv_visitTargets g ic d rt cid rest
        exact expRecInv_record cid rid st rt c d ic hv h

theorem expRecInv_visitTypes (g : Graph) (ic : Bool) (d : Nat) (cur cid : String) :
    ∀ (rts : List String) (st : ExpState), expRecInv cid st →
      expRecInv cid (expVisitTypes g ic d cur rts st)
  | [], _, h => h
  | rt :: rts, st, h =>
    expRecInv_visitTypes g ic d cur cid rts _
      (expRecInv_visitTargets g ic d rt cid (get_related_concepts g cur rt) st h)

theorem expRecInv_loop (g : Graph) (rts : List String) (ic : Bool) (md : Int) (cid : String) :
    ∀ (fuel : Nat) (st st' : ExpState), expRecInv cid st →
      expandLoop g rts ic md fuel st = some st' → expRecInv cid st'
  | 0, _, _, _, h => by cases h
  | Nat.succ f, st, st', hinv, h => by
    unfold expandLoop at h
    revert h
    cases hqe : st.queue with
    | nil =>
      intro h
      cases h
      exact hinv
    | cons p rest =>
      obtain ⟨cur, depth⟩ := p
      show (if md ≤ (depth : Int) then expandLoop g rts ic md f { st with queue := rest }
        else expandLoop g rts ic md f
          (expVisitTypes g ic depth cur rts { st with queue := rest })) = some st' → _
      by_cases hd : md ≤ (depth : Int)
      · rw [if_pos hd]
        intro h
        exact expRecInv_loop g rts ic md cid f { st with queue := rest } st' hinv h
      · rw [if_neg hd]
        intro h
        exact expRecInv_loop g rts ic md cid f
          (expVisitTypes g ic depth cur rts { st with queue := rest }) st'
          (expRecInv_visitTypes g ic depth cur cid rts { st with queue := rest } hinv) h

theorem flatten_all_nil {α : Type} :
    ∀ (L : List (List α)), (∀ l ∈ L, l = []) → L.flatten = []
  | [], _ => rfl
  | l :: L, h => by
    rw [List.flatten_cons, h l (by simp),
      flatten_all_nil L (fun l' hl' => h l' (by simp [hl']))]
    rfl

theorem keys_emptyRelMap (rts : List String) :
    (emptyRelMap rts).map (fun p => p.1) = firstDedup rts := by
  unfold emptyRelMap
  rw [List.map_map]
  exact List.map_id _

theorem stateRecIds_init (cid : String) (rts : List String) :
    stateRecIds ⟨[cid], emptyRelMap rts, emptyRelMap rts, [], [(cid, 0)]⟩ = [] := by
  unfold stateRecIds
  dsimp only
  rw [flatten_all_nil _ (by
    intro l hl
    obtain ⟨p, hp, rfl⟩ := List.mem_map.mp hl
    rw [mem_emptyRelMap_empty rts p hp]
    rfl)]
  rfl

theorem expRecInv_init (cid : String) (rts : List String) :
    expRecInv cid ⟨[cid], emptyRelMap rts, emptyRelMap rts, [], [(cid, 0)]⟩ := by
  refine ⟨?_, ?_, List.mem_singleton.mpr rfl, ?_, ?_, ?_⟩
  · rw [stateRecIds_init]
    exact List.Pairwise.nil
  · intro i hi
    rw [stateRecIds_init] at hi
    cases hi
  · intro hmem
    rw [stateRecIds_init] at hmem
    cases hmem
  · show ((emptyRelMap rts).map (fun p => p.1)).Nodup
    rw [keys_emptyRelMap]
    exact firstDedup_nodup rts
  · show ((emptyRelMap rts).map (fun p => p.1)).Nodup
    rw [keys_emptyRelMap]
    exact firstDedup_nodup rts

/-- C9 (confirmed): the expansion worklist terminates within the computed
fuel bound on every graph, cyclic relation structures included, and in any
success result each concept other than the focus is recorded at most once
across all direct and transitive relation lists (the focus is never
recorded), by visited-set deduplication alone. -/
theorem c9_expand_terminates_dedups (g : Graph) (cid : String) (rtsOpt : Option (List String))
    (md : Int) (ic : Bool) :
    (expandLoop g (rtsOpt.getD defaultRelationTypes) ic md (expandFuel g cid)
      ⟨[cid], emptyRelMap (rtsOpt.getD defaultRelationTypes),
        emptyRelMap (rtsOpt.getD defaultRelationTypes), [], [(cid, 0)]⟩).isSome = true ∧
    ∀ r, expand_context g cid rtsOpt md ic = .ok r →
      (recordedIds r).Nodup ∧ cid ∉ recordedIds r := by
  refine ⟨expandLoop_total g cid _ ic md, ?_⟩
  intro r hr
  cases hlk : g.lookupNode cid with
  | none =>
    simp only [expand_context, hlk] at hr
    cases hr
  | some c =>
    simp only [expand_context, hlk] at hr
    cases hloop : expandLoop g (rtsOpt.getD defaultRelationTypes) ic md (expandFuel g cid)
      ⟨[cid], emptyRelMap (rtsOpt.getD defaultRelationTypes),
        emptyRelMap (rtsOpt.getD defaultRelationTypes), [], [(cid, 0)]⟩ with
    | none =>
      have htot := expandLoop_total g cid (rtsOpt.getD defaultRelationTypes) ic md
      rw [hloop] at htot
      simp at htot
    | some stF =>
      rw [hloop] at hr
      simp only [Option.getD_some] at hr
      have hinv := expRecInv_loop g (rtsOpt.getD defaultRelationTypes) ic md cid
        (expandFuel g cid) _ stF (expRecInv_init cid _) hloop
      cases hr
      exact ⟨hinv.1, hinv.2.2.2.1⟩

/-- C9 witness: a broader/narrower cycle between two records; the loop
terminates and the single discovered concept is recorded exactly once, the
focus never. -/
theorem c9_witness :
    ((expandLoop (build_graph [cexX, cexY]) defaultRelationTypes true 5
      (expandFuel (build_graph [cexX, cexY]) "x")
      ⟨["x"], emptyRelMap defaultRelationTypes, emptyRelMap defaultRelationTypes, [],
        [("x", 0)]⟩).isSome = true) ∧
    ((recordedIds ⟨⟨"x", "", "X", none, "", some ""⟩,
        [("broader", []), ("narrower", [⟨"y", "Y", none⟩]), ("related", [])],
        [("broader", []), ("narrower", []), ("related", [])],
        some [⟨"y", "Y", "", ""⟩]⟩).Nodup ∧
      "x" ∉ recordedIds ⟨⟨"x", "", "X", none, "", some ""⟩,
        [("broader", []), ("narrower", [⟨"y", "Y", none⟩]), ("related", [])],
        [("broader", []), ("narrower", []), ("related", [])],
        some [⟨"y", "Y", "", ""⟩]⟩) := by
  have h := c9_expand_terminates_dedups (build_graph [cexX, cexY]) "x" none 5 true
  exact ⟨h.1, h.2 _ (by decide)⟩

theorem mem_grc_edge {g : Graph} {src rt t : String}
    (h : t ∈ get_related_concepts g src rt) : ((src, t), rt) ∈ g.edges := by
  unfold get_related_concepts relation_index at h
  split at h
  · obtain ⟨e, he, rfl⟩ := List.mem_map.mp h
    have hf := List.of_mem_filter he
    have hm := List.mem_of_mem_filter he
    obtain ⟨⟨a, b⟩, r⟩ := e
    simp only [Bool.and_eq_true, beq_iff_eq] at hf
    rw [hf.1, hf.2] at hm
    exact hm
  · cases h

theorem grc_functional {g : Graph} (hEK : EdgeKeysNodup g) {src t rt1 rt2 : String}
    (h1 : t ∈ get_related_concepts g src rt1) (h2 : t ∈ get_related_concepts g src rt2) :
    rt1 = rt2 := by
  have e1 := mem_grc_edge h1
  have e2 := mem_grc_edge h2
  exact assoc_functional hEK e1 e2

theorem grc_lookup_isSome {g : Graph} (hWF : WellFormed g) {src rt t : String}
    (h : t ∈ get_related_concepts g src rt) : (g.lookupNode t).isSome = true := by
  have he := mem_grc_edge h
  have hn := (hWF _ he).2
  exact (hasNode_iff_lookup g t).mp hn

theorem appendAt_as_appendAllAt (m : RelMap) (k : String) (v : ConceptSummary) :
    appendAt m k v = appendAllAt m k [v] := rfl

theorem appendAllAt_nil (m : RelMap) (k : String) : appendAllAt m k [] = m := by
  unfold appendAllAt
  have hfix : ∀ p ∈ m, (if (p.1 == k) = true then (p.1, p.2 ++ []) else p) = p := by
    intro p _
    split <;> simp
  rw [List.map_congr_left hfix]
  exact List.map_id m

theorem appendAllAt_append (m : RelMap) (k : String) (vs1 vs2 : List ConceptSummary) :
    appendAllAt (appendAllAt m k vs1) k vs2 = appendAllAt m k (vs1 ++ vs2) := by
  unfold appendAllAt
  rw [List.map_map]
  apply List.map_congr_left
  intro p _
  by_cases h : p.1 = k
  · simp [h, List.append_assoc]
  · simp [h]

theorem assocVal_appendAllAt (m : RelMap) (k k' : String) (vs : List ConceptSummary) :
    assocVal (appendAllAt m k vs) k'
      = if k' = k then (assocVal m k).map (fun l => l ++ vs) else assocVal m k' :=
  assocVal_modify m k k' (fun l => l ++ vs)

/-- Exact effect of the inner target loop at depth 0 when every target has
node data and the target list has no duplicates: the fresh targets are
appended to the visited list, their summaries are appended under the current
relation type in the direct map, and the transitive map is untouched. -/
theorem expVisitTargets0 (g : Graph) (ic : Bool) (rt : String) :
    ∀ (tl : List String) (st : ExpState), tl.Nodup →
      (∀ t ∈ tl, (g.lookupNode t).isSome = true) →
      (expVisitTargets g ic 0 rt tl st).visited
          = st.visited ++ tl.filter (fun t => decide (t ∉ st.visited)) ∧
      (expVisitTargets g ic 0 rt tl st).direct
          = appendAllAt st.direct rt
              ((tl.filter (fun t => decide (t ∉ st.visited))).map (summaryOfD g)) ∧
      (expVisitTargets g ic 0 rt tl st).transitive = st.transitive
  | [], st, _, _ => by
    refine ⟨by simp [expVisitTargets], ?_, by simp [expVisitTargets]⟩
    simp [expVisitTargets, appendAllAt_nil]
  | rid :: rest, st, hnd, hlk => by
    obtain ⟨hrid, hndr⟩ := List.nodup_cons.mp hnd
    unfold expVisitTargets
    by_cases hv : rid ∈ st.visited
    · rw [if_pos hv]
      obtain ⟨h1, h2, h3⟩ := expVisitTargets0 g ic rt rest st hndr
        (fun t ht => hlk t (List.mem_cons_of_mem _ ht))
      rw [List.filter_cons_of_neg (by simp [hv])]
      exact ⟨h1, h2, h3⟩
    · rw [if_neg hv]
      cases hl : g.lookupNode rid with
      | none => exact absurd (hlk rid (List.mem_cons_self _ _)) (by simp [hl])
      | some c =>
        have hsumm : summaryOfD g rid = ⟨rid, c.pref_label, c.definition⟩ := by
          unfold summaryOfD
          rw [hl]
        have hp : (fun t => decide (t ∉ st.visited)) rid = true := by simp [hv]
        have hfc : List.filter (fun t => decide (t ∉ st.visited)) (rid :: rest)
            = rid :: List.filter (fun t => decide (t ∉ st.visited)) rest :=
          @List.filter_cons_of_pos _ (fun t => decide (t ∉ st.visited)) rid rest hp
        have hf : rest.filter (fun t => decide (t ∉ st.visited ++ [rid]))
            = rest.filter (fun t => decide (t ∉ st.visited)) := by
          apply List.filter_congr
          intro t ht
          have htne : t ≠ rid := fun he => hrid (he ▸ ht)
          simp [List.mem_append, htne]
        obtain ⟨h1, h2, h3⟩ := expVisitTargets0 g ic rt rest
          ⟨st.visited ++ [rid], appendAt st.direct rt ⟨rid, c.pref_label, c.definition⟩,
            st.transitive,
            if ic then st.notes ++ [⟨rid, c.pref_label, c.content, c.file_path⟩] else st.notes,
            st.queue ++ [(rid, 1)]⟩ hndr
          (fun t ht => hlk t (List.mem_cons_of_mem _ ht))
        show (expVisitTargets g ic 0 rt rest
            ⟨st.visited ++ [rid], appendAt st.direct rt ⟨rid, c.pref_label, c.definition⟩,
              st.transitive,
              if ic then st.notes ++ [⟨rid, c.pref_label, c.content, c.file_path⟩] else st.notes,
              st.queue ++ [(rid, 1)]⟩).visited
            = st.visited ++ (rid :: rest).filter (fun t => decide (t ∉ st.visited)) ∧
          (expVisitTargets g ic 0 rt rest
            ⟨st.visited ++ [rid], appendAt st.direct rt ⟨rid, c.pref_label, c.definition⟩,
              st.transitive,
              if ic then st.notes ++ [⟨rid, c.pref_label, c.content, c.file_path⟩] else st.notes,
              st.queue ++ [(rid, 1)]⟩).direct
            = appendAllAt st.direct rt
                (((rid :: rest).filter (fun t => decide (t ∉ st.visited))).map (summaryOfD g)) ∧
          (expVisitTargets g ic 0 rt rest
            ⟨st.visited ++ [rid], appendAt st.direct rt ⟨rid, c.pref_label, c.definition⟩,
              st.transitive,
              if ic then st.notes ++ [⟨rid, c.pref_label, c.content, c.file_path⟩] else st.notes,
              st.queue ++ [(rid, 1)]⟩).transitive = st.transitive
        refine ⟨?_, ?_, ?_⟩
        · have h1' : (expVisitTargets g ic 0 rt rest
              ⟨st.visited ++ [rid], appendAt st.direct rt ⟨rid, c.pref_label, c.definition⟩,
                st.transitive,
                if ic then st.notes ++ [⟨rid, c.pref_label, c.content, c.file_path⟩] else st.notes,
                st.queue ++ [(rid, 1)]⟩).visited
              = (st.visited ++ [rid])
                ++ rest.filter (fun t => decide (t ∉ st.visited ++ [rid])) := h1
          rw [h1', hf, hfc, List.append_assoc]
          rfl
        · have h2' : (expVisitTargets g ic 0 rt rest
              ⟨st.visited ++ [rid], appendAt st.direct rt ⟨rid, c.pref_label, c.definition⟩,
                st.transitive,
                if ic then st.notes ++ [⟨rid, c.pref_label, c.content, c.file_path⟩] else st.notes,
                st.queue ++ [(rid, 1)]⟩).direct
              = appendAllAt (appendAt st.direct rt ⟨rid, c.pref_label, c.definition⟩) rt
                  ((rest.filter (fun t => decide (t ∉ st.visited ++ [rid]))).map
                    (summaryOfD g)) := h2
          rw [h2', hf, appendAt_as_appendAllAt, appendAllAt_append,
            hfc, List.map_cons, hsumm]
          rfl
        · exact h3

/-- At depth 0 the inner loop never touches the transitive map. -/
theorem expVisitTargets_transitive0 (g : Graph) (ic : Bool) (rt : String) :
    ∀ (tl : List String) (st : ExpState),
      (expVisitTargets g ic 0 rt tl st).transitive = st.transitive
  | [], _ => rfl
  | rid :: rest, st => by
    unfold expVisitTargets
    by_cases hv : rid ∈ st.visited
    · rw [if_pos hv]
      exact expVisitTargets_transitive0 g ic rt rest st
    · rw [if_neg hv]
      cases hl : g.lookupNode rid with
      | none => exact expVisitTargets_transitive0 g ic rt rest _
      | some c => exact expVisitTargets_transitive0 g ic rt rest _

/-- At a nonzero depth the inner loop never touches the direct map. -/
theorem expVisitTargets_direct_pos (g : Graph) (ic : Bool) (rt : String) (d : Nat)
    (hd : d ≠ 0) :
    ∀ (tl : List String) (st : ExpState),
      (expVisitTargets g ic d rt tl st).direct = st.direct
  | [], _ => rfl
  | rid :: rest, st => by
    unfold expVisitTargets
    by_cases hv : rid ∈ st.visited
    · rw [if_pos hv]
      exact expVisitTargets_direct_pos g ic rt d hd rest st
    · rw [if_neg hv]
      cases hl : g.lookupNode rid with
      | none => exact expVisitTargets_direct_pos g ic rt d hd rest _
      | some c =>
        show (expVisitTargets g ic d rt rest
          ⟨st.visited ++ [rid],
            if (d == 0) = true then appendAt st.direct rt ⟨rid, c.pref_label, c.definition⟩
              else st.direct,
            if (d == 0) = true then st.transitive
              else appendAt st.transitive rt ⟨rid, c.pref_label, c.definition⟩,
            if ic then st.notes ++ [⟨rid, c.pref_label, c.content, c.file_path⟩] else st.notes,
            st.queue ++ [(rid, d + 1)]⟩).direct = st.direct
        refine Eq.trans (expVisitTargets_direct_pos g ic rt d hd rest _) ?_
        show (if (d == 0) = true then appendAt st.direct rt ⟨rid, c.pref_label, c.definition⟩
          else st.direct) = st.direct
        rw [if_neg (by simp [hd])]

/-- Exact effect of the relation-type loop at depth 0 on a graph whose edge
keys are pairwise distinct and whose edges end in stored nodes: the
transitive map is untouched, the visited list grows only by discovered
1-hop targets, keys outside the requested types keep their direct entries,
and each requested type's direct entry gains exactly the summaries of its
not-yet-visited 1-hop targets. -/
theorem expVisitTypes0 (g : Graph) (ic : Bool) (cid : String)
    (hEK : EdgeKeysNodup g) (hWF : WellFormed g) :
    ∀ (rl : List String) (st : ExpState), rl.Nodup →
      (expVisitTypes g ic 0 cid rl st).transitive = st.transitive ∧
      (∃ A : List String,
        (expVisitTypes g ic 0 cid rl st).visited = st.visited ++ A ∧
        ∀ x ∈ A, ∃ rt' ∈ rl, x ∈ get_related_concepts g cid rt') ∧
      (∀ rt', rt' ∉ rl →
        assocVal (expVisitTypes g ic 0 cid rl st).direct rt' = assocVal st.direct rt') ∧
      (∀ rt' ∈ rl,
        assocVal (expVisitTypes g ic 0 cid rl st).direct rt' =
          (assocVal st.direct rt').map (fun l => l ++
            ((get_related_concepts g cid rt').filter
              (fun t => decide (t ∉ st.visited))).map (summaryOfD g)))
  | [], st, _ => by
    refine ⟨rfl, ⟨[], by simp [expVisitTypes], by simp⟩, fun rt' _ => rfl, fun rt' h => absurd h (by simp)⟩
  | rt :: rl, st, hnd => by
    obtain ⟨hrt, hndr⟩ := List.nodup_cons.mp hnd
    obtain ⟨T1, T2, T3⟩ := expVisitTargets0 g ic rt (get_related_concepts g cid rt) st
      (related_targets_nodup hEK cid rt) (fun t ht => grc_lookup_isSome hWF ht)
    obtain ⟨Y1, ⟨A2, Y2a, Y2b⟩, Y3, Y4⟩ := expVisitTypes0 g ic cid hEK hWF rl
      (expVisitTargets g ic 0 rt (get_related_concepts g cid rt) st) hndr
    show (expVisitTypes g ic 0 cid rl
        (expVisitTargets g ic 0 rt (get_related_concepts g cid rt) st)).transitive
          = st.transitive ∧
      (∃ A : List String,
        (expVisitTypes g ic 0 cid rl
          (expVisitTargets g ic 0 rt (get_related_concepts g cid rt) st)).visited
            = st.visited ++ A ∧
        ∀ x ∈ A, ∃ rt' ∈ rt :: rl, x ∈ get_related_concepts g cid rt') ∧
      (∀ rt', rt' ∉ rt :: rl →
        assocVal (expVisitTypes g ic 0 cid rl
          (expVisitTargets g ic 0 rt (get_related_concepts g cid rt) st)).direct rt'
            = assocVal st.direct rt') ∧
      (∀ rt' ∈ rt :: rl,
        assocVal (expVisitTypes g ic 0 cid rl
          (expVisitTargets g ic 0 rt (get_related_concepts g cid rt) st)).direct rt' =
          (assocVal st.direct rt').map (fun l => l ++
            ((get_related_concepts g cid rt').filter
              (fun t => decide (t ∉ st.visited))).map (summaryOfD g)))
    refine ⟨Y1.trans T3, ?_, ?_, ?_⟩
    · refine ⟨(get_related_concepts g cid rt).filter (fun t => decide (t ∉ st.visited)) ++ A2,
        ?_, ?_⟩
      · rw [Y2a, T1, List.append_assoc]
      · intro x hx
        rcases List.mem_append.mp hx with hx | hx
        · exact ⟨rt, List.mem_cons_self _ _, List.mem_of_mem_filter hx⟩
        · obtain ⟨rt', hrt', hmem⟩ := Y2b x hx
          exact ⟨rt', List.mem_cons_of_mem _ hrt', hmem⟩
    · intro rt' hout
      have hne : rt' ≠ rt := fun he => hout (he ▸ List.mem_cons_self _ _)
      have hnin : rt' ∉ rl := fun hm => hout (List.mem_cons_of_mem _ hm)
      rw [Y3 rt' hnin, T2, assocVal_appendAllAt, if_neg hne]
    · intro rt' hin
      rcases List.mem_cons.mp hin with he | hin'
      · subst he
        rw [Y3 rt' hrt, T2, assocVal_appendAllAt, if_pos rfl]
      · have hne : rt ≠ rt' := fun he => hrt (he ▸ hin')
        have hdir : assocVal (expVisitTargets g ic 0 rt (get_related_concepts g cid rt)
            st).direct rt' = assocVal st.direct rt' := by
          rw [T2, assocVal_appendAllAt, if_neg (Ne.symm hne)]
        have hfil : (get_related_concepts g cid rt').filter
            (fun t => decide (t ∉ (expVisitTargets g ic 0 rt
              (get_related_concepts g cid rt) st).visited))
            = (get_related_concepts g cid rt').filter
              (fun t => decide (t ∉ st.visited)) := by
          apply List.filter_congr
          intro t ht
          have hgrc : t ∉ get_related_concepts g cid rt :=
            fun hmem => hne (grc_functional hEK hmem ht)
          rw [T1]
          simp [List.mem_append, List.mem_filter, hgrc]
        rw [Y4 rt' hin', hdir, hfil]

theorem expandLoop_succ_go (g : Graph) (rts : List String) (ic : Bool) (md : Int)
    (f : Nat) (st : ExpState) (cur : String) (depth : Nat) (rest : List (String × Nat))
    (hq : st.queue = (cur, depth) :: rest) (hmd : ¬ md ≤ (depth : Int)) :
    expandLoop g rts ic md (f + 1) st
      = expandLoop g rts ic md f
          (expVisitTypes g ic depth cur rts { st with queue := rest }) := by
  unfold expandLoop
  rw [hq]
  show (if md ≤ (depth : Int) then expandLoop g rts ic md f { st with queue := rest }
    else expandLoop g rts ic md f
      (expVisitTypes g ic depth cur rts { st with queue := rest })) = _
  rw [if_neg hmd]
  cases f <;> rfl

/-- expand_context at max_depth 0 on an existing concept: the queue entry for
the focus is already at the depth cutoff, so both relation maps stay empty. -/
theorem expand_context_md0 (g : Graph) (cid : String) (c : SKOSConcept)
    (rtsOpt : Option (List String)) (ic : Bool) (hc : g.lookupNode cid = some c) :
    expand_context g cid rtsOpt 0 ic =
      .ok ⟨⟨cid, c.uri, c.pref_label, c.definition, c.file_path,
            if ic then some c.content else none⟩,
          emptyRelMap (rtsOpt.getD defaultRelationTypes),
          emptyRelMap (rtsOpt.getD defaultRelationTypes),
          if ic then some [] else none⟩ := by
  have hloop := expandLoop_drain g (rtsOpt.getD defaultRelationTypes) ic 0
    (expandFuel g cid)
    ⟨[cid], emptyRelMap (rtsOpt.getD defaultRelationTypes),
      emptyRelMap (rtsOpt.getD defaultRelationTypes), [], [(cid, 0)]⟩
    (by
      intro p hp
      simp only [List.mem_singleton] at hp
      rw [hp]
      simp)
    (by
      show 1 < expandFuel g cid
      unfold expandFuel
      omega)
  simp only [expand_context, hc]
  rw [hloop]
  rfl

/-- expand_context at max_depth 1 on an existing concept: the loop explores
exactly the focus at depth 0 and then drains the depth-1 queue, so the result
is the one-round state of the relation-type loop. -/
theorem expand_context_md1 (g : Graph) (cid : String) (c : SKOSConcept)
    (rtsOpt : Option (List String)) (ic : Bool) (hc : g.lookupNode cid = some c) :
    expand_context g cid rtsOpt 1 ic =
      .ok ⟨⟨cid, c.uri, c.pref_label, c.definition, c.file_path,
            if ic then some c.content else none⟩,
          (expVisitTypes g ic 0 cid (rtsOpt.getD defaultRelationTypes)
            ⟨[cid], emptyRelMap (rtsOpt.getD defaultRelationTypes),
              emptyRelMap (rtsOpt.getD defaultRelationTypes), [], []⟩).direct,
          (expVisitTypes g ic 0 cid (rtsOpt.getD defaultRelationTypes)
            ⟨[cid], emptyRelMap (rtsOpt.getD defaultRelationTypes),
              emptyRelMap (rtsOpt.getD defaultRelationTypes), [], []⟩).transitive,
          if ic then some (expVisitTypes g ic 0 cid (rtsOpt.getD defaultRelationTypes)
            ⟨[cid], emptyRelMap (rtsOpt.getD defaultRelationTypes),
              emptyRelMap (rtsOpt.getD defaultRelationTypes), [], []⟩).notes
            else none⟩ := by
  have hstA : ({ (⟨[cid], emptyRelMap (rtsOpt.getD defaultRelationTypes),
      emptyRelMap (rtsOpt.getD defaultRelationTypes), [], [(cid, 0)]⟩ : ExpState) with
      queue := ([] : List (String × Nat)) } : ExpState)
      = ⟨[cid], emptyRelMap (rtsOpt.getD defaultRelationTypes),
          emptyRelMap (rtsOpt.getD defaultRelationTypes), [], []⟩ := rfl
  have hstep := expandLoop_succ_go g (rtsOpt.getD defaultRelationTypes) ic 1
    (2 * (firstDedup (cid :: edgeTargets g)).length + 1)
    ⟨[cid], emptyRelMap (rtsOpt.getD defaultRelationTypes),
      emptyRelMap (rtsOpt.getD defaultRelationTypes), [], [(cid, 0)]⟩
    cid 0 [] rfl (by decide)
  rw [hstA] at hstep
  obtain ⟨A, B, hv, hq, hAnd, hAmem, hBle⟩ := expVisitTypes_spec g ic 0 cid
    (rtsOpt.getD defaultRelationTypes)
    ⟨[cid], emptyRelMap (rtsOpt.getD defaultRelationTypes),
      emptyRelMap (rtsOpt.getD defaultRelationTypes), [], []⟩
  have hA : A.length ≤ (firstDedup (cid :: edgeTargets g)).length :=
    length_le_of_nodup_subset hAnd
      (fun x hx => (mem_firstDedup _ _).mpr (List.mem_cons_of_mem _ (hAmem x hx).2))
  have hdrain := expandLoop_drain g (rtsOpt.getD defaultRelationTypes) ic 1
    (2 * (firstDedup (cid :: edgeTargets g)).length + 1)
    (expVisitTypes g ic 0 cid (rtsOpt.getD defaultRelationTypes)
      ⟨[cid], emptyRelMap (rtsOpt.getD defaultRelationTypes),
        emptyRelMap (rtsOpt.getD defaultRelationTypes), [], []⟩)
    (by
      rw [hq]
      intro p hp
      simp only [List.nil_append, List.mem_map] at hp
      obtain ⟨x, _, rfl⟩ := hp
      simp)
    (by
      rw [hq]
      simp only [List.nil_append, List.length_map]
      omega)
  have hfe : expandFuel g cid
      = 2 * (firstDedup (cid :: edgeTargets g)).length + 1 + 1 := rfl
  simp only [expand_context, hc]
  rw [hfe, hstep, hdrain]
  rfl

/-- C3 (corrected): on a well-formed graph with distinct edge keys and
distinct requested relation types, expand_context at max_depth 0 returns
empty direct and transitive relation maps; at max_depth 1 it returns empty
transitive relations and, per requested relation type, the 1-hop successor
set of the focus from the relation index MINUS the focus itself — a
self-referencing concept is excluded because the focus starts in the visited
set, so the claimed exact equality with the index neighbour set fails; and in
general a concept discovered at depth 0 is recorded as direct while one
discovered at a nonzero depth is recorded as transitive. -/
theorem c3_depth_classification_amended (g : Graph) (cid : String) (c : SKOSConcept)
    (rtsOpt : Option (List String)) (ic : Bool)
    (hc : g.lookupNode cid = some c) (hWF : WellFormed g) (hEK : EdgeKeysNodup g)
    (hrts : (rtsOpt.getD defaultRelationTypes).Nodup) :
    expand_context g cid rtsOpt 0 ic =
      .ok ⟨⟨cid, c.uri, c.pref_label, c.definition, c.file_path,
            if ic then some c.content else none⟩,
          emptyRelMap (rtsOpt.getD defaultRelationTypes),
          emptyRelMap (rtsOpt.getD defaultRelationTypes),
          if ic then some [] else none⟩ ∧
    (∀ r, expand_context g cid rtsOpt 1 ic = .ok r →
      r.transitive_relations = emptyRelMap (rtsOpt.getD defaultRelationTypes) ∧
      ∀ rt ∈ rtsOpt.getD defaultRelationTypes,
        assocVal r.direct_relations rt =
          some (((get_related_concepts g cid rt).filter
            (fun t => decide (t ≠ cid))).map (summaryOfD g))) ∧
    (∀ (d : Nat) (rt : String) (tl : List String) (st : ExpState), d = 0 →
      (expVisitTargets g ic d rt tl st).transitive = st.transitive) ∧
    (∀ (d : Nat) (rt : String) (tl : List String) (st : ExpState), d ≠ 0 →
      (expVisitTargets g ic d rt tl st).direct = st.direct) := by
  refine ⟨expand_context_md0 g cid c rtsOpt ic hc, ?_, ?_, ?_⟩
  · intro r hr
    rw [expand_context_md1 g cid c rtsOpt ic hc] at hr
    injection hr with hr
    subst hr
    obtain ⟨Y1, _, _, Y4⟩ := expVisitTypes0 g ic cid hEK hWF
      (rtsOpt.getD defaultRelationTypes)
      ⟨[cid], emptyRelMap (rtsOpt.getD defaultRelationTypes),
        emptyRelMap (rtsOpt.getD defaultRelationTypes), [], []⟩ hrts
    constructor
    · exact Y1
    · intro rt hrt
      have h2 : assocVal (expVisitTypes g ic 0 cid (rtsOpt.getD defaultRelationTypes)
          ⟨[cid], emptyRelMap (rtsOpt.getD defaultRelationTypes),
            emptyRelMap (rtsOpt.getD defaultRelationTypes), [], []⟩).direct rt
          = (assocVal (emptyRelMap (rtsOpt.getD defaultRelationTypes)) rt).map
              (fun l => l ++ ((get_related_concepts g cid rt).filter
                (fun t => decide (t ∉ ([cid] : List String)))).map (summaryOfD g)) :=
        Y4 rt hrt
      rw [assocVal_emptyRelMap, if_pos hrt] at h2
      have hfil : (get_related_concepts g cid rt).filter
          (fun t => decide (t ∉ ([cid] : List String)))
          = (get_related_concepts g cid rt).filter (fun t => decide (t ≠ cid)) := by
        apply List.filter_congr
        intro t _
        simp [List.mem_singleton]
      rw [hfil] at h2
      exact h2
  · intro d rt tl st hd
    subst hd
    exact expVisitTargets_transitive0 g ic rt tl st
  · intro d rt tl st hd
    exact expVisitTargets_direct_pos g ic rt d hd tl st

/-- C3 counterexample: a concept that lists itself under related has itself
in its relation-index 1-hop set, yet expand_context at max_depth 1 returns an
empty related list — the visited set already holds the focus, so the direct
map is not the full index neighbour set. -/
theorem c3_counterexample :
    get_related_concepts (build_graph [cexSelf]) "a" "related" = ["a"] ∧
    expand_context (build_graph [cexSelf]) "a" none 1 false =
      .ok ⟨⟨"a", "", "A", none, "", none⟩,
        [("broader", []), ("narrower", []), ("related", [])],
        [("broader", []), ("narrower", []), ("related", [])], none⟩ :=
  ⟨by decide, by decide⟩

/-- C3 witness: the amended depth-classification theorem applied to the
two-node graph with one broader relation. -/
theorem c3_witness :
    ((build_graph [cexD, cexE]).lookupNode "d" = some cexD ∧
      WellFormed (build_graph [cexD, cexE]) ∧
      EdgeKeysNodup (build_graph [cexD, cexE]) ∧
      ((none : Option (List String)).getD defaultRelationTypes).Nodup) ∧
    (expand_context (build_graph [cexD, cexE]) "d" none 0 false =
      .ok ⟨⟨"d", cexD.uri, cexD.pref_label, cexD.definition, cexD.file_path,
            if false then some cexD.content else none⟩,
          emptyRelMap ((none : Option (List String)).getD defaultRelationTypes),
          emptyRelMap ((none : Option (List String)).getD defaultRelationTypes),
          if false then some [] else none⟩ ∧
    (∀ r, expand_context (build_graph [cexD, cexE]) "d" none 1 false = .ok r →
      r.transitive_relations
          = emptyRelMap ((none : Option (List String)).getD defaultRelationTypes) ∧
      ∀ rt ∈ (none : Option (List String)).getD defaultRelationTypes,
        assocVal r.direct_relations rt =
          some (((get_related_concepts (build_graph [cexD, cexE]) "d" rt).filter
            (fun t => decide (t ≠ "d"))).map (summaryOfD (build_graph [cexD, cexE])))) ∧
    (∀ (d : Nat) (rt : String) (tl : List String) (st : ExpState), d = 0 →
      (expVisitTargets (build_graph [cexD, cexE]) false d rt tl st).transitive
        = st.transitive) ∧
    (∀ (d : Nat) (rt : String) (tl : List String) (st : ExpState), d ≠ 0 →
      (expVisitTargets (build_graph [cexD, cexE]) false d rt tl st).direct
        = st.direct)) :=
  ⟨⟨by decide, by unfold WellFormed; decide, by unfold EdgeKeysNodup; decide, by decide⟩,
    c3_depth_classification_amended (build_graph [cexD, cexE]) "d" cexD none false
      (by decide) (by unfold WellFormed; decide) (by unfold EdgeKeysNodup; decide)
      (by decide)⟩

theorem adj_of_mem_undirectedAdj {g : Graph} {u v : String}
    (h : v ∈ undirectedAdj g u) : Adj g u v := by
  unfold undirectedAdj at h
  rcases List.mem_append.mp h with h | h
  · obtain ⟨e, he, rfl⟩ := List.mem_map.mp h
    have hf := List.of_mem_filter he
    have hm := List.mem_of_mem_filter he
    simp only [beq_iff_eq] at hf
    left
    refine ⟨e.2, ?_⟩
    rw [← hf]
    exact hm
  · obtain ⟨e, he, rfl⟩ := List.mem_map.mp h
    have hf := List.of_mem_filter he
    have hm := List.mem_of_mem_filter he
    simp only [beq_iff_eq] at hf
    right
    refine ⟨e.2, ?_⟩
    rw [← hf]
    exact hm

theorem mem_undirectedAdj_of_adj {g : Graph} {u v : String}
    (h : Adj g u v) : v ∈ undirectedAdj g u := by
  unfold undirectedAdj
  rcases h with ⟨r, hr⟩ | ⟨r, hr⟩
  · exact List.mem_append_left _
      (List.mem_map.mpr ⟨((u, v), r), List.mem_filter.mpr ⟨hr, by simp⟩, rfl⟩)
  · exact List.mem_append_right _
      (List.mem_map.mpr ⟨((v, u), r), List.mem_filter.mpr ⟨hr, by simp⟩, rfl⟩)

theorem undirectedAdj_subset_endpoints (g : Graph) (u : String) :
    ∀ v ∈ undirectedAdj g u, v ∈ endpointIds g := by
  intro v hv
  unfold undirectedAdj at hv
  unfold endpointIds
  rcases List.mem_append.mp hv with h | h
  · obtain ⟨e, he, rfl⟩ := List.mem_map.mp h
    exact List.mem_append_right _ (List.mem_map.mpr ⟨e, List.mem_of_mem_filter he, rfl⟩)
  · obtain ⟨e, he, rfl⟩ := List.mem_map.mp h
    exact List.mem_append_left _ (List.mem_map.mpr ⟨e, List.mem_of_mem_filter he, rfl⟩)

theorem hasNode_of_mem_undirectedAdj {g : Graph} (hWF : WellFormed g) {u v : String}
    (h : v ∈ undirectedAdj g u) : g.hasNode v = true := by
  rcases adj_of_mem_undirectedAdj h with ⟨r, hr⟩ | ⟨r, hr⟩
  · exact (hWF _ hr).2
  · exact (hWF _ hr).1

/-- Exact effect of the neighbour-enqueue loop: the fresh (unseen, deduped)
neighbours are appended to the queue with extended reversed paths and to the
seen set, and afterwards every offered neighbour is seen. -/
theorem enqueueFresh_spec (rp : List String) :
    ∀ (ns : List String) (q : List (String × List String)) (vis : List String),
      ∃ fresh : List String,
        (enqueueFresh rp ns (q, vis)).1 = q ++ fresh.map (fun n => (n, n :: rp)) ∧
        (enqueueFresh rp ns (q, vis)).2 = vis ++ fresh ∧
        fresh.Nodup ∧
        (∀ n ∈ fresh, n ∈ ns ∧ n ∉ vis) ∧
        (∀ n ∈ ns, n ∈ vis ++ fresh)
  | [], q, vis =>
    ⟨[], by simp [enqueueFresh], by simp [enqueueFresh], List.Pairwise.nil, by simp, by simp⟩
  | n :: ns, q, vis => by
    unfold enqueueFresh
    by_cases hv : n ∈ vis
    · rw [if_pos hv]
      obtain ⟨fresh, h1, h2, h3, h4, h5⟩ := enqueueFresh_spec rp ns q vis
      refine ⟨fresh, h1, h2, h3,
        fun m hm => ⟨List.mem_cons_of_mem _ (h4 m hm).1, (h4 m hm).2⟩, ?_⟩
      intro m hm
      rcases List.mem_cons.mp hm with he | hm
      · exact List.mem_append_left _ (he ▸ hv)
      · exact h5 m hm
    · rw [if_neg hv]
      obtain ⟨fresh, h1, h2, h3, h4, h5⟩ :=
        enqueueFresh_spec rp ns (q ++ [(n, n :: rp)]) (vis ++ [n])
      refine ⟨n :: fresh, ?_, ?_, ?_, ?_, ?_⟩
      · rw [h1, List.map_cons, List.append_assoc]
        rfl
      · rw [h2, List.append_assoc]
        rfl
      · refine List.nodup_cons.mpr ⟨?_, h3⟩
        intro hn
        exact (h4 n hn).2 (List.mem_append_right _ (List.mem_singleton.mpr rfl))
      · intro m hm
        rcases List.mem_cons.mp hm with he | hm
        · exact ⟨he ▸ List.mem_cons_self _ _, he ▸ hv⟩
        · refine ⟨List.mem_cons_of_mem _ (h4 m hm).1, ?_⟩
          intro hmv
          exact (h4 m hm).2 (List.mem_append_left _ hmv)
      · intro m hm
        rcases List.mem_cons.mp hm with he | hm
        · exact List.mem_append_right _ (he ▸ List.mem_cons_self _ _)
        · rcases List.mem_append.mp (h5 m hm) with h | h
          · rcases List.mem_append.mp h with h | h
            · exact List.mem_append_left _ h
            · exact List.mem_append_right _
                (List.mem_singleton.mp h ▸ List.mem_cons_self _ _)
          · exact List.mem_append_right _ (List.mem_cons_of_mem _ h)

theorem bfsAux_isSome (g : Graph) (tgt : String)
    (U : List String) (hUnd : U.Nodup) (hUt : ∀ x ∈ endpointIds g, x ∈ U) :
    ∀ (fuel : Nat) (q : List (String × List String)) (vis : List String),
      vis.Nodup → (∀ v ∈ vis, v ∈ U) →
      q.length + 2 * (U.length - vis.length) < fuel →
      (bfsAux g tgt fuel q vis).isSome = true
  | 0, _, _, _, _, hlt => absurd hlt (by omega)
  | Nat.succ f, [], vis, _, _, _ => by
    unfold bfsAux
    rfl
  | Nat.succ f, (u, rp) :: rest, vis, hnd, hsub, hlt => by
    unfold bfsAux
    by_cases hb : (u == tgt) = true
    · rw [if_pos hb]
      rfl
    · rw [if_neg hb]
      obtain ⟨fresh, h1, h2, h3, h4, h5⟩ := enqueueFresh_spec rp (undirectedAdj g u) rest vis
      simp only [List.length_cons] at hlt
      show (bfsAux g tgt f (enqueueFresh rp (undirectedAdj g u) (rest, vis)).1
        (enqueueFresh rp (undirectedAdj g u) (rest, vis)).2).isSome = true
      have hndv : ((enqueueFresh rp (undirectedAdj g u) (rest, vis)).2).Nodup := by
        rw [h2, List.nodup_append]
        exact ⟨hnd, h3, fun a ha ha2 => (h4 a ha2).2 ha⟩
      have hsubv : ∀ v ∈ (enqueueFresh rp (undirectedAdj g u) (rest, vis)).2, v ∈ U := by
        rw [h2]
        intro v hv
        rcases List.mem_append.mp hv with hv | hv
        · exact hsub v hv
        · exact hUt v (undirectedAdj_subset_endpoints g u v (h4 v hv).1)
      apply bfsAux_isSome g tgt U hUnd hUt f _ _ hndv hsubv
      have hlen : vis.length + fresh.length ≤ U.length := by
        have := @length_le_of_nodup_subset (vis ++ fresh) U
          (by rw [List.nodup_append]; exact ⟨hnd, h3, fun a ha ha2 => (h4 a ha2).2 ha⟩)
          (by intro v hv
              rcases List.mem_append.mp hv with hv | hv
              · exact hsub v hv
              · exact hUt v (undirectedAdj_subset_endpoints g u v (h4 v hv).1))
        simpa using this
      rw [h1, h2]
      simp only [List.length_append, List.length_map]
      omega

theorem bfsAux_total (g : Graph) (src tgt : String) :
    (bfsAux g tgt (bfsFuel g src) [(src, [src])] [src]).isSome = true := by
  apply bfsAux_isSome g tgt (firstDedup (src :: endpointIds g))
    (firstDedup_nodup _)
    (fun x hx => (mem_firstDedup _ _).mpr (List.mem_cons_of_mem _ hx))
  · simp
  · intro v hv
    simp only [List.mem_singleton] at hv
    subst hv
    exact (mem_firstDedup _ _).mpr (List.mem_cons_self _ _)
  · have hpos : 1 ≤ (firstDedup (src :: endpointIds g)).length :=
      List.length_pos_of_mem ((mem_firstDedup _ _).mpr (List.mem_cons_self _ _))
    unfold bfsFuel
    simp only [List.length_singleton]
    omega

/-- Soundness of the search: a found result means the target is reachable in
the undirected projection, and the returned node path is nonempty and made of
stored nodes. -/
theorem bfsAux_found (g : Graph) (hWF : WellFormed g) (src tgt : String) :
    ∀ (fuel : Nat) (q : List (String × List String)) (vis : List String)
      (p : List String) (visF : List String),
      (∀ e ∈ q, Reach g src e.1 ∧ e.2 ≠ [] ∧ ∀ x ∈ e.2, g.hasNode x = true) →
      bfsAux g tgt fuel q vis = some (some p, visF) →
      Reach g src tgt ∧ p ≠ [] ∧ ∀ x ∈ p, g.hasNode x = true
  | 0, _, _, _, _, _, h => by cases h
  | Nat.succ f, [], vis, p, visF, _, h => by
    unfold bfsAux at h
    simp at h
  | Nat.succ f, (u, rp) :: rest, vis, p, visF, hq, h => by
    unfold bfsAux at h
    by_cases hb : (u == tgt) = true
    · rw [if_pos hb] at h
      simp only [Option.some.injEq, Prod.mk.injEq] at h
      obtain ⟨hp', _⟩ := h
      obtain ⟨hr, hne, hhn⟩ := hq (u, rp) (List.mem_cons_self _ _)
      have hut : u = tgt := by simpa using hb
      refine ⟨hut ▸ hr, ?_, ?_⟩
      · rw [← hp']
        intro hc
        exact hne (by simpa using hc)
      · intro x hx
        rw [← hp'] at hx
        exact hhn x (List.mem_reverse.mp hx)
    · rw [if_neg hb] at h
      obtain ⟨fresh, h1, h2, h3, h4, h5⟩ := enqueueFresh_spec rp (undirectedAdj g u) rest vis
      have hq' : ∀ e ∈ (enqueueFresh rp (undirectedAdj g u) (rest, vis)).1,
          Reach g src e.1 ∧ e.2 ≠ [] ∧ ∀ x ∈ e.2, g.hasNode x = true := by
        rw [h1]
        intro e he
        rcases List.mem_append.mp he with he | he
        · exact hq e (List.mem_cons_of_mem _ he)
        · obtain ⟨n, hn, rfl⟩ := List.mem_map.mp he
          obtain ⟨hru, _, hhn⟩ := hq (u, rp) (List.mem_cons_self _ _)
          refine ⟨Reach.tail hru (adj_of_mem_undirectedAdj (h4 n hn).1), by simp, ?_⟩
          intro x hx
          rcases List.mem_cons.mp hx with he2 | hx
          · exact he2 ▸ hasNode_of_mem_undirectedAdj hWF (h4 n hn).1
          · exact hhn x hx
      exact bfsAux_found g hWF src tgt f _ _ p visF hq' h

/-- Completeness of the search: an exhausted queue means the final seen set
is closed under undirected adjacency and excludes the target. -/
theorem bfsAux_none (g : Graph) (tgt : String) :
    ∀ (fuel : Nat) (q : List (String × List String)) (vis visF : List String),
      (∀ u ∈ vis, (∃ rp, (u, rp) ∈ q) ∨ ∀ v, Adj g u v → v ∈ vis) →
      (tgt ∈ vis → ∃ rp, (tgt, rp) ∈ q) →
      bfsAux g tgt fuel q vis = some (none, visF) →
      (∀ x ∈ vis, x ∈ visF) ∧ (∀ u ∈ visF, ∀ v, Adj g u v → v ∈ visF) ∧ tgt ∉ visF
  | 0, _, _, _, _, _, h => by cases h
  | Nat.succ f, [], vis, visF, hcl, htq, h => by
    unfold bfsAux at h
    simp only [Option.some.injEq, Prod.mk.injEq] at h
    obtain ⟨_, hv⟩ := h
    subst hv
    refine ⟨fun x hx => hx, ?_, ?_⟩
    · intro u hu v hadj
      rcases hcl u hu with ⟨rp, hrp⟩ | hc
      · exact absurd hrp (List.not_mem_nil _)
      · exact hc v hadj
    · intro htv
      obtain ⟨rp, hrp⟩ := htq htv
      exact absurd hrp (List.not_mem_nil _)
  | Nat.succ f, (u, rp) :: rest, vis, visF, hcl, htq, h => by
    unfold bfsAux at h
    by_cases hb : (u == tgt) = true
    · rw [if_pos hb] at h
      simp at h
    · rw [if_neg hb] at h
      have hut : u ≠ tgt := by simpa using hb
      obtain ⟨fresh, h1, h2, h3, h4, h5⟩ := enqueueFresh_spec rp (undirectedAdj g u) rest vis
      have hcl' : ∀ w ∈ (enqueueFresh rp (undirectedAdj g u) (rest, vis)).2,
          (∃ rp', (w, rp') ∈ (enqueueFresh rp (undirectedAdj g u) (rest, vis)).1) ∨
          ∀ v, Adj g w v → v ∈ (enqueueFresh rp (undirectedAdj g u) (rest, vis)).2 := by
        rw [h1, h2]
        intro w hw
        rcases List.mem_append.mp hw with hw | hw
        · rcases hcl w hw with ⟨rp', hrp'⟩ | hc
          · rcases List.mem_cons.mp hrp' with he | hm
            · right
              intro v hadj
              have hmem : v ∈ undirectedAdj g w := mem_undirectedAdj_of_adj hadj
              have hwu : w = u := congrArg Prod.fst he
              exact h5 v (hwu ▸ hmem)
            · exact Or.inl ⟨rp', List.mem_append_left _ hm⟩
          · exact Or.inr (fun v hadj => List.mem_append_left _ (hc v hadj))
        · exact Or.inl ⟨w :: rp, List.mem_append_right _ (List.mem_map.mpr ⟨w, hw, rfl⟩)⟩
      have htq' : tgt ∈ (enqueueFresh rp (undirectedAdj g u) (rest, vis)).2 →
          ∃ rp', (tgt, rp') ∈ (enqueueFresh rp (undirectedAdj g u) (rest, vis)).1 := by
        rw [h1, h2]
        intro htv
        rcases List.mem_append.mp htv with htv | htv
        · obtain ⟨rp', hrp'⟩ := htq htv
          rcases List.mem_cons.mp hrp' with he | hm
          · exact absurd (congrArg Prod.fst he).symm hut
          · exact ⟨rp', List.mem_append_left _ hm⟩
        · exact ⟨tgt :: rp, List.mem_append_right _ (List.mem_map.mpr ⟨tgt, htv, rfl⟩)⟩
      obtain ⟨hsub, hclF, htF⟩ := bfsAux_none g tgt f _ _ visF hcl' htq' h
      refine ⟨?_, hclF, htF⟩
      intro x hx
      apply hsub
      rw [h2]
      exact List.mem_append_left _ hx

theorem reach_mem_closed {g : Graph} {S : List String} {a b : String}
    (h : Reach g a b) (ha : a ∈ S) (hS : ∀ u ∈ S, ∀ v, Adj g u v → v ∈ S) : b ∈ S := by
  induction h with
  | refl => exact ha
  | tail hr hadj ih => exact hS _ ih _ hadj

theorem spu_some_reach (g : Graph) (hWF : WellFormed g) (src tgt : String)
    (hs : g.hasNode src = true) {p : List String}
    (h : shortest_path_undirected g src tgt = some p) :
    Reach g src tgt ∧ p ≠ [] ∧ ∀ x ∈ p, g.hasNode x = true := by
  unfold shortest_path_undirected at h
  revert h
  cases hres : bfsAux g tgt (bfsFuel g src) [(src, [src])] [src] with
  | none =>
    intro h
    cases h
  | some res =>
    obtain ⟨ropt, visF⟩ := res
    cases ropt with
    | none =>
      intro h
      cases h
    | some pp =>
      intro h
      have hp : pp = p := by
        cases h
        rfl
      subst hp
      refine bfsAux_found g hWF src tgt _ _ _ pp visF ?_ hres
      intro e he
      simp only [List.mem_singleton] at he
      subst he
      refine ⟨Reach.refl, by simp, ?_⟩
      intro x hx
      simp only [List.mem_singleton] at hx
      subst hx
      exact hs

theorem spu_none_not_reach (g : Graph) (src tgt : String)
    (h : shortest_path_undirected g src tgt = none) : ¬ Reach g src tgt := by
  unfold shortest_path_undirected at h
  revert h
  cases hres : bfsAux g tgt (bfsFuel g src) [(src, [src])] [src] with
  | none =>
    intro _
    have htot := bfsAux_total g src tgt
    rw [hres] at htot
    simp at htot
  | some res =>
    obtain ⟨ropt, visF⟩ := res
    cases ropt with
    | some pp =>
      intro h
      cases h
    | none =>
      intro _
      obtain ⟨hsub, hcl, htF⟩ := bfsAux_none g tgt _ _ _ visF
        (by
          intro w hw
          simp only [List.mem_singleton] at hw
          subst hw
          exact Or.inl ⟨[w], List.mem_singleton.mpr rfl⟩)
        (by
          intro htv
          simp only [List.mem_singleton] at htv
          exact ⟨[src], by rw [htv]; exact List.mem_singleton.mpr rfl⟩)
        hres
      intro hreach
      have hsrc : src ∈ visF := hsub src (List.mem_singleton.mpr rfl)
      exact htF (reach_mem_closed hreach hsrc hcl)

theorem spu_isSome_iff_reach (g : Graph) (hWF : WellFormed g) (src tgt : String)
    (hs : g.hasNode src = true) :
    (shortest_path_undirected g src tgt).isSome = true ↔ Reach g src tgt := by
  constructor
  · intro h
    obtain ⟨p, hp⟩ := Option.isSome_iff_exists.mp h
    exact (spu_some_reach g hWF src tgt hs hp).1
  · intro hr
    cases hso : shortest_path_undirected g src tgt with
    | none => exact absurd hr (spu_none_not_reach g src tgt hso)
    | some p => rfl

theorem pathSummaries_cons (g : Graph) (i : String) (ids : List String)
    (c : SKOSConcept) (hlk : g.lookupNode i = some c) :
    pathSummaries g (i :: ids) = ⟨i, c.pref_label⟩ :: pathSummaries g ids := by
  unfold pathSummaries
  rw [List.filterMap_cons, hlk]
  rfl

theorem pathSummaries_length (g : Graph) :
    ∀ (ids : List String), (∀ x ∈ ids, g.hasNode x = true) →
      (pathSummaries g ids).length = ids.length
  | [], _ => rfl
  | i :: ids, h => by
    have hl : (g.lookupNode i).isSome = true :=
      (hasNode_iff_lookup g i).mp (h i (List.mem_cons_self _ _))
    cases hlk : g.lookupNode i with
    | none =>
      rw [hlk] at hl
      simp at hl
    | some c =>
      rw [pathSummaries_cons g i ids c hlk]
      simp only [List.length_cons]
      rw [pathSummaries_length g ids (fun x hx => h x (List.mem_cons_of_mem _ hx))]

/-- C4 (confirmed): get_concept_path returns the not-found error naming the
missing endpoint when either endpoint lacks a node (checked before any
search, a constructor distinct from the no-path outcome); returns the
no-path result when both endpoints exist but the target is unreachable in
the undirected projection; and otherwise returns the found result whose
length field is the node-path length minus one — the edge count — with one
hydrated summary per path node. -/
theorem c4_path_outcomes (g : Graph) (a b : String) (hWF : WellFormed g) :
    (g.hasNode a = false → get_concept_path g a b = .errorNotFound a) ∧
    (g.hasNode a = true → g.hasNode b = false →
      get_concept_path g a b = .errorNotFound b) ∧
    (g.hasNode a = true → g.hasNode b = true → ¬ Reach g a b →
      get_concept_path g a b = .noPath a b) ∧
    (g.hasNode a = true → g.hasNode b = true → Reach g a b →
      ∃ p, shortest_path_undirected g a b = some p ∧
        get_concept_path g a b = .found a b (p.length - 1) (pathSummaries g p) ∧
        1 ≤ p.length ∧ (pathSummaries g p).length = p.length) := by
  refine ⟨?_, ?_, ?_, ?_⟩
  · intro ha
    unfold get_concept_path
    rw [ha]
    rfl
  · intro ha hb
    unfold get_concept_path
    rw [ha, hb]
    rfl
  · intro ha hb hnr
    cases hso : shortest_path_undirected g a b with
    | some p =>
      exact absurd (spu_some_reach g hWF a b ha hso).1 hnr
    | none =>
      unfold get_concept_path
      rw [ha, hb, hso]
      rfl
  · intro ha hb hr
    have hiso : (shortest_path_undirected g a b).isSome = true :=
      (spu_isSome_iff_reach g hWF a b ha).mpr hr
    obtain ⟨p, hso⟩ := Option.isSome_iff_exists.mp hiso
    obtain ⟨_, hne, hn⟩ := spu_some_reach g hWF a b ha hso
    refine ⟨p, hso, ?_, ?_, ?_⟩
    · unfold get_concept_path
      rw [ha, hb, hso]
      rfl
    · cases p with
      | nil => exact absurd rfl hne
      | cons x xs => simp
    · exact pathSummaries_length g p hn

/-- C4 witness: the path outcomes theorem applied to the two-node graph with
one broader edge. -/
theorem c4_witness :
    WellFormed (build_graph [cexD, cexE]) ∧
    (((build_graph [cexD, cexE]).hasNode "d" = false →
      get_concept_path (build_graph [cexD, cexE]) "d" "e" = .errorNotFound "d") ∧
    ((build_graph [cexD, cexE]).hasNode "d" = true →
      (build_graph [cexD, cexE]).hasNode "e" = false →
      get_concept_path (build_graph [cexD, cexE]) "d" "e" = .errorNotFound "e") ∧
    ((build_graph [cexD, cexE]).hasNode "d" = true →
      (build_graph [cexD, cexE]).hasNode "e" = true →
      ¬ Reach (build_graph [cexD, cexE]) "d" "e" →
      get_concept_path (build_graph [cexD, cexE]) "d" "e" = .noPath "d" "e") ∧
    ((build_graph [cexD, cexE]).hasNode "d" = true →
      (build_graph [cexD, cexE]).hasNode "e" = true →
      Reach (build_graph [cexD, cexE]) "d" "e" →
      ∃ p, shortest_path_undirected (build_graph [cexD, cexE]) "d" "e" = some p ∧
        get_concept_path (build_graph [cexD, cexE]) "d" "e"
          = .found "d" "e" (p.length - 1) (pathSummaries (build_graph [cexD, cexE]) p) ∧
        1 ≤ p.length ∧
        (pathSummaries (build_graph [cexD, cexE]) p).length = p.length)) :=
  ⟨by unfold WellFormed; decide,
    c4_path_outcomes (build_graph [cexD, cexE]) "d" "e" (by unfold WellFormed; decide)⟩

/-- C7 (corrected): on a nonempty graph, get_statistics returns node count,
edge count, nx density, and a weak-connectivity flag that is true iff every
node is reachable from the first node in the undirected projection; on the
empty graph, nx.is_weakly_connected raises NetworkXPointlessConcept, so the
operation does not return a result — the claim's every-graph-state safety
fails. -/
theorem c7_statistics_amended (g : Graph) (hWF : WellFormed g) :
    (g.nodes = [] → get_statistics g = none) ∧
    (∀ (n0 : String × SKOSConcept) (rest : List (String × SKOSConcept)),
      g.nodes = n0 :: rest →
      get_statistics g = some ⟨g.nodes.length, g.edges.length, nxDensity g,
        is_weakly_connected_from g n0.1⟩ ∧
      (is_weakly_connected_from g n0.1 = true ↔ ∀ p ∈ g.nodes, Reach g n0.1 p.1)) := by
  constructor
  · intro h
    unfold get_statistics
    rw [h]
  · intro n0 rest h
    constructor
    · unfold get_statistics
      rw [h]
    · have hs : g.hasNode n0.1 = true := by
        simp only [Graph.hasNode, List.any_eq_true]
        exact ⟨n0, by rw [h]; exact List.mem_cons_self _ _, by simp⟩
      unfold is_weakly_connected_from
      rw [List.all_eq_true]
      constructor
      · intro hall p hp
        exact (spu_isSome_iff_reach g hWF n0.1 p.1 hs).mp (hall p hp)
      · intro hall p hp
        exact (spu_isSome_iff_reach g hWF n0.1 p.1 hs).mpr (hall p hp)

/-- C7 counterexample: on the empty graph the statistics call does not
return a result (the weak-connectivity check raises on a null graph). -/
theorem c7_counterexample : get_statistics (build_graph []) = none := by decide

/-- C7 witness: the amended statistics theorem applied to the two-node
connected graph. -/
theorem c7_witness :
    WellFormed (build_graph [cexD, cexE]) ∧
    (((build_graph [cexD, cexE]).nodes = [] →
      get_statistics (build_graph [cexD, cexE]) = none) ∧
    (∀ (n0 : String × SKOSConcept) (rest : List (String × SKOSConcept)),
      (build_graph [cexD, cexE]).nodes = n0 :: rest →
      get_statistics (build_graph [cexD, cexE])
        = some ⟨(build_graph [cexD, cexE]).nodes.length,
            (build_graph [cexD, cexE]).edges.length,
            nxDensity (build_graph [cexD, cexE]),
            is_weakly_connected_from (build_graph [cexD, cexE]) n0.1⟩ ∧
      (is_weakly_connected_from (build_graph [cexD, cexE]) n0.1 = true ↔
        ∀ p ∈ (build_graph [cexD, cexE]).nodes,
          Reach (build_graph [cexD, cexE]) n0.1 p.1))) :=
  ⟨by unfold WellFormed; decide,
    c7_statistics_amended (build_graph [cexD, cexE]) (by unfold WellFormed; decide)⟩

theorem isPre_self : ∀ (l : List Char), isPre l l = true
  | [] => rfl
  | a :: as => by
    unfold isPre
    simp [isPre_self as]

theorem hasSub_self : ∀ (l : List Char), hasSub l l = true
  | [] => rfl
  | c :: rest => by
    unfold hasSub
    rw [isPre_self (c :: rest)]
    simp

theorem foldl_score5 (p : String → Bool) :
    ∀ (l : List String) (s : Nat),
      l.foldl (fun sc al => if p al then sc + 5 else sc) s = s + 5 * l.countP p
  | [], s => by simp
  | a :: l, s => by
    simp only [List.foldl_cons, List.countP_cons]
    by_cases hp : p a = true
    · rw [if_pos hp, foldl_score5 p l (s + 5), if_pos hp]
      omega
    · rw [if_neg hp, foldl_score5 p l s, if_neg hp]
      omega

theorem s1_eq (ql pl : List Char) :
    (if hasSub ql pl = true then (if (pl == ql) = true then (0:Nat) + 10 + 20 else 0 + 10) else 0)
      = (if hasSub ql pl = true then 10 else 0) + (if (pl == ql) = true then 20 else 0) := by
  by_cases h2 : (pl == ql) = true
  · have hpl := beq_iff_eq.mp h2
    subst hpl
    simp [hasSub_self]
  · by_cases h1 : hasSub ql pl = true
    · simp [h1, h2]
    · simp [h1, h2]

/-- The sequential scoring of search_by_text equals the arithmetic scoring
formula of the spec. -/
theorem textScore_eq_specScore (ql : List Char) (c : SKOSConcept) :
    textScore ql c = specScore ql c := by
  unfold textScore specScore
  cases c.definition with
  | none =>
    dsimp only
    rw [foldl_score5 (fun al => hasSub ql (lowerChars al)) c.alt_labels]
    rw [s1_eq ql (lowerChars c.pref_label)]
    omega
  | some d =>
    dsimp only
    rw [foldl_score5 (fun al => hasSub ql (lowerChars al)) c.alt_labels]
    rw [s1_eq ql (lowerChars c.pref_label)]
    by_cases hd : (d == "") = true
    · rw [if_pos hd,
        if_neg (show ¬(d ≠ "" ∧ hasSub ql (lowerChars d) = true) from
          fun hc => hc.1 (beq_iff_eq.mp hd))]
      omega
    · rw [if_neg hd]
      by_cases hs : hasSub ql (lowerChars d) = true
      · rw [if_pos hs,
          if_pos (show d ≠ "" ∧ hasSub ql (lowerChars d) = true from
            ⟨fun he => hd (by simp [he]), hs⟩)]
      · rw [if_neg hs,
          if_neg (show ¬(d ≠ "" ∧ hasSub ql (lowerChars d) = true) from
            fun hc => hs hc.2)]
        omega

theorem insertDesc_perm (x : String × Nat) :
    ∀ (l : List (String × Nat)), (insertDesc x l).Perm (x :: l)
  | [] => List.Perm.refl _
  | y :: ys => by
    unfold insertDesc
    by_cases hlt : x.2 < y.2
    · rw [if_pos hlt]
      exact ((insertDesc_perm x ys).cons y).trans (List.Perm.swap x y ys)
    · rw [if_neg hlt]

theorem mem_insertDesc {x a : String × Nat} {l : List (String × Nat)}
    (h : a ∈ insertDesc x l) : a = x ∨ a ∈ l := by
  have := ((insertDesc_perm x l).mem_iff).mp h
  simpa using this

theorem insertDesc_pairwise (x : String × Nat) :
    ∀ (l : List (String × Nat)),
      l.Pairwise (fun u v => v.2 ≤ u.2) →
      (insertDesc x l).Pairwise (fun u v => v.2 ≤ u.2)
  | [], _ => List.pairwise_singleton _ _
  | y :: ys, hp => by
    obtain ⟨hy, hys⟩ := List.pairwise_cons.mp hp
    unfold insertDesc
    by_cases hlt : x.2 < y.2
    · rw [if_pos hlt]
      refine List.pairwise_cons.mpr ⟨?_, insertDesc_pairwise x ys hys⟩
      intro b hb
      rcases mem_insertDesc hb with he | hb
      · subst he
        omega
      · exact hy b hb
    · rw [if_neg hlt]
      refine List.pairwise_cons.mpr ⟨?_, hp⟩
      intro b hb
      rcases List.mem_cons.mp hb with he | hb
      · subst he
        omega
      · have := hy b hb
        omega

theorem insertDesc_filter (x : String × Nat) :
    ∀ (l : List (String × Nat)) (s : Nat),
      (insertDesc x l).filter (fun e => e.2 == s)
        = (x :: l).filter (fun e => e.2 == s)
  | [], s => rfl
  | y :: ys, s => by
    have fpos : ∀ (hd : String × Nat) (tl : List (String × Nat)), (hd.2 == s) = true →
        List.filter (fun e => e.2 == s) (hd :: tl)
          = hd :: List.filter (fun e => e.2 == s) tl :=
      fun hd tl h => @List.filter_cons_of_pos _ (fun e => e.2 == s) hd tl h
    have fneg : ∀ (hd : String × Nat) (tl : List (String × Nat)), ¬((hd.2 == s) = true) →
        List.filter (fun e => e.2 == s) (hd :: tl)
          = List.filter (fun e => e.2 == s) tl :=
      fun hd tl h => @List.filter_cons_of_neg _ (fun e => e.2 == s) hd tl h
    unfold insertDesc
    by_cases hlt : x.2 < y.2
    · rw [if_pos hlt]
      by_cases hx : (x.2 == s) = true
      · have hy : ¬((y.2 == s) = true) := by
          have hx2 := beq_iff_eq.mp hx
          simp only [beq_iff_eq]
          omega
        rw [fneg y (insertDesc x ys) hy, insertDesc_filter x ys s,
          fpos x ys hx, fpos x (y :: ys) hx, fneg y ys hy]
      · rw [fneg x (y :: ys) hx, List.filter_cons, List.filter_cons,
          insertDesc_filter x ys s, fneg x ys hx]
    · rw [if_neg hlt]

theorem stableSortDesc_perm : ∀ (l : List (String × Nat)), (stableSortDesc l).Perm l
  | [] => List.Perm.refl _
  | a :: l => by
    unfold stableSortDesc
    rw [List.foldr_cons]
    exact ((insertDesc_perm a _).trans ((stableSortDesc_perm l).cons a))

theorem stableSortDesc_pairwise : ∀ (l : List (String × Nat)),
    (stableSortDesc l).Pairwise (fun u v => v.2 ≤ u.2)
  | [] => List.Pairwise.nil
  | a :: l => by
    unfold stableSortDesc
    rw [List.foldr_cons]
    exact insertDesc_pairwise a _ (stableSortDesc_pairwise l)

theorem stableSortDesc_filter : ∀ (l : List (String × Nat)) (s : Nat),
    (stableSortDesc l).filter (fun e => e.2 == s) = l.filter (fun e => e.2 == s)
  | [], _ => rfl
  | a :: l, s => by
    have hstep : stableSortDesc (a :: l) = insertDesc a (stableSortDesc l) := rfl
    rw [hstep, insertDesc_filter a (stableSortDesc l) s,
      List.filter_cons, List.filter_cons, stableSortDesc_filter l s]

/-- C5 (confirmed): search_by_text scores every node by the claimed formula
(+10 substring on prefLabel, +20 more on exact match, +5 per alt-label hit,
+3 on a definition hit), keeps only positive scores, orders by a stable
descending sort (a permutation, descending, preserving input order within
each score), truncates to the limit; in particular the exact match
"Regression" (score 30) ranks strictly above the substring match
"Logistic Regression" (score 10). -/
theorem c5_search_scoring (g : Graph) (query : String) (limit : Nat) :
    (∀ c : SKOSConcept, textScore (lowerChars query) c = specScore (lowerChars query) c) ∧
    (∀ l : List (String × Nat),
      (stableSortDesc l).Perm l ∧
      (stableSortDesc l).Pairwise (fun u v => v.2 ≤ u.2) ∧
      (∀ s : Nat, (stableSortDesc l).filter (fun e => e.2 == s)
        = l.filter (fun e => e.2 == s))) ∧
    search_by_text g query limit =
      ((stableSortDesc (g.nodes.filterMap (fun p =>
        if specScore (lowerChars query) p.2 > 0
          then some (p.1, specScore (lowerChars query) p.2) else none))).take limit).map
        (fun m => m.1) ∧
    search_by_text (build_graph [cexRegression, cexLogistic]) "regression" 10
      = ["regression", "logistic_regression"] ∧
    textScore (lowerChars "regression") cexRegression = 30 ∧
    textScore (lowerChars "regression") cexLogistic = 10 := by
  refine ⟨fun c => textScore_eq_specScore _ c,
    fun l => ⟨stableSortDesc_perm l, stableSortDesc_pairwise l,
      fun s => stableSortDesc_filter l s⟩,
    ?_, by decide, by decide, by decide⟩
  unfold search_by_text
  dsimp only
  have hfn : (fun p : String × SKOSConcept =>
      if textScore (lowerChars query) p.2 > 0
        then some (p.1, textScore (lowerChars query) p.2) else none)
      = (fun p : String × SKOSConcept =>
      if specScore (lowerChars query) p.2 > 0
        then some (p.1, specScore (lowerChars query) p.2) else none) := by
    funext p
    rw [textScore_eq_specScore]
  rw [hfn]

end ObsidianOntology
